import Mathlib

/-!
WaveHandler: a shallow embedding of `Wave::File<T>` (src/WaveHandler.hpp).

Conventions of the embedding.

* A sample is a rational number.  In `load` and `write` the sample type `T` of
  the template is taken to be the exact rationals `ℚ`: every division and
  multiplication of the codec is exact, conversion of a sample to an integer
  truncates toward zero.
* The arithmetic of the default `T = float` is `roundFloat` (IEEE 754 binary32,
  round to nearest, ties to even; NaN, infinities and overflow are left out).
  `decodeSampleT` and `encodeSampleT` are the two `switch` statements of the
  codec with every `static_cast<T>` and every operation rounded by a function
  `fl`; with `fl = id` they are `decodeSample` and `encodeSample`, with
  `fl = roundFloat` they are the code as compiled for `File<float>`.  Decoding
  at depths 8, 16 and 24 is the same in both (`decodeSampleT_float`).
* A byte is a `Fin 256`.  The unsigned header fields (`uint16_t`, `uint32_t`)
  are natural numbers; wrap-around is written out with `% 2 ^ w` where the
  source can overflow.
* An input stream is the list of bytes that are still unread.  `fread` of `n`
  bytes takes the first `n` bytes of that list and copies them to the front of
  the destination; when fewer than `n` bytes are left, the tail of the
  destination keeps its previous contents.  `fseek(fp, n, SEEK_CUR)` with an
  unsigned 32-bit `n` drops `n` bytes (or all that is left): `long` is taken
  to be 64 bits wide, so the offset is never negative.
* `chunk_id_buf` and `chunk_size_buf` are not initialised in `load`; their
  contents before the first `fread` are parameters (`stale_id`, `stale_size`).
* A division by zero in `getNumSamples` and an access `samples[i]` past the end
  of a vector are explicit outcomes (`divByZero`, `outOfRange`).
* The `while` loop of `load` need not terminate; it runs on fuel, one unit per
  executed loop body.
-/

namespace Wave

/-- One octet of a file or of a buffer. -/
abbrev Byte := Fin 256

/-- A four-byte array: `uint8_t[4]` and `std::array<uint8_t, 4>`. -/
structure Arr4 where
  b0 : Byte
  b1 : Byte
  b2 : Byte
  b3 : Byte
  deriving DecidableEq, Repr

/-- The bytes of a four-byte array, lowest address first. -/
def Arr4.toList (a : Arr4) : List Byte := [a.b0, a.b1, a.b2, a.b3]

/-- The four-byte array held at the front of a list. -/
def Arr4.ofList (l : List Byte) : Arr4 :=
  ⟨l.getD 0 0, l.getD 1 0, l.getD 2 0, l.getD 3 0⟩

/-- The array `{0, 0, 0, 0}`. -/
def Arr4.zero : Arr4 := ⟨0, 0, 0, 0⟩

/-- The tag `"data"`. -/
def dataTag : Arr4 := ⟨0x64, 0x61, 0x74, 0x61⟩

/-- The tag `"fmt "`. -/
def fmtTag : Arr4 := ⟨0x66, 0x6D, 0x74, 0x20⟩

/-- Little-endian bytes of an unsigned integer of `w` bytes. -/
def toLE : Nat → Nat → List Byte
  | 0, _ => []
  | w + 1, n => Fin.ofNat (n % 256) :: toLE w (n / 256)

/-- The unsigned integer whose little-endian bytes are given. -/
def ofLE : List Byte → Nat
  | [] => 0
  | b :: bs => b.val + 256 * ofLE bs

/-- Contents of a destination after `got` was copied over its front. -/
def overlay (got old : List Byte) : List Byte := got ++ old.drop got.length

/-- The call `fread(dst, 1, n, fp)` into a byte array, `n ≤ 4`. -/
def freadArr (n : Nat) (old : Arr4) (f : List Byte) : Arr4 × List Byte :=
  (Arr4.ofList (overlay (f.take n) old.toList), f.drop n)

/-- The call `fread(&x, w, 1, fp)` into an unsigned integer of `w` bytes. -/
def freadUInt (w : Nat) (old : Nat) (f : List Byte) : Nat × List Byte :=
  (ofLE (overlay (f.take w) (toLE w old)), f.drop w)

/-- The struct `Data`. -/
structure Data where
  chunk_id : Arr4
  chunk_size : Nat
  format : Arr4
  fmt_chunk_id : Arr4
  fmt_chunk_size : Nat
  audio_format : Nat
  num_channels : Nat
  sample_rate : Nat
  byte_rate : Nat
  block_align : Nat
  bits_per_sample : Nat
  data_chunk_id : Arr4
  data_chunk_size : Nat
  samples : List (List ℚ)
  deriving DecidableEq

/-- The object `std::make_unique<Data>()` creates: every field zero, no channel. -/
def Data.fresh : Data :=
  { chunk_id := Arr4.zero, chunk_size := 0, format := Arr4.zero,
    fmt_chunk_id := Arr4.zero, fmt_chunk_size := 0, audio_format := 0,
    num_channels := 0, sample_rate := 0, byte_rate := 0, block_align := 0,
    bits_per_sample := 0, data_chunk_id := Arr4.zero, data_chunk_size := 0,
    samples := [] }

/-- The accessor `getNumSamples`: `(8 * data_chunk_size) / (num_channels * bits_per_sample)`
in 32-bit unsigned arithmetic; `none` is the division by zero. -/
def getNumSamples (d : Data) : Option Nat :=
  if (d.num_channels * d.bits_per_sample) % 2 ^ 32 = 0 then none
  else some ((8 * d.data_chunk_size) % 2 ^ 32 / ((d.num_channels * d.bits_per_sample) % 2 ^ 32))

/-- The accessor `getDurationSeconds`: the sample count over the sample rate
(for a zero sample rate the source yields a non-finite float, the quotient here is 0). -/
def getDurationSeconds (d : Data) : Option ℚ :=
  (getNumSamples d).map fun n => (n : ℚ) / (d.sample_rate : ℚ)

/-- The method `clamp_range`. -/
def clamp_range (val : ℚ) : ℚ :=
  if val < -1 then -1 else if val > 1 then 1 else val

/-- The value of a `w`-bit pattern read as a two's-complement signed integer. -/
def toSigned (w : Nat) (u : Nat) : Int :=
  if u % 2 ^ w < 2 ^ (w - 1) then ((u % 2 ^ w : Nat) : Int)
  else ((u % 2 ^ w : Nat) : Int) - ((2 ^ w : Nat) : Int)

/-- The `std::vector::resize` of the channel vector: keep the first `n` channels,
append empty ones up to `n`. -/
def resizeSamples (samples : List (List ℚ)) (n : Nat) : List (List ℚ) :=
  samples.take n ++ List.replicate (n - samples.length) []

/-- The call `samples[channel].push_back(v)`; `none` when the channel does not exist. -/
def pushSample (samples : List (List ℚ)) (channel : Nat) (v : ℚ) : Option (List (List ℚ)) :=
  if channel < samples.length then
    some (samples.set channel (samples.getD channel [] ++ [v]))
  else none

/-- The bit pattern of the 24-bit case after `(tmp & 0x800000) ? tmp | ~0xFFFFFF : tmp`. -/
def signExtend24 (u : Nat) : Nat :=
  if u &&& 0x800000 ≠ 0 then u ||| 0xFF000000 else u

/-- The `switch (bits_per_sample)` of `load`: read one sample into `buf` and decode it.
The result is the decoded value, the buffer and the stream after the read;
`none` is the `default` case. -/
def decodeSample (bits : Nat) (buf : Arr4) (f : List Byte) : Option (ℚ × Arr4 × List Byte) :=
  if bits = 8 then
    let r := freadArr 1 buf f
    some ((((r.1.b0.val : Int) - 0x80 : Int) : ℚ) / 0x80, r.1, r.2)
  else if bits = 16 then
    let r := freadArr 2 buf f
    let tmp := toSigned 16 ((r.1.b1.val <<< 8) ||| r.1.b0.val)
    some ((tmp : ℚ) / 0x8000, r.1, r.2)
  else if bits = 24 then
    let r := freadArr 3 buf f
    let tmp := toSigned 32 (signExtend24 ((r.1.b2.val <<< 16) ||| (r.1.b1.val <<< 8) ||| r.1.b0.val))
    some ((tmp : ℚ) / 0x800000, r.1, r.2)
  else if bits = 32 then
    let r := freadArr 4 buf f
    let tmp := toSigned 32
      ((r.1.b3.val <<< 24) ||| (r.1.b2.val <<< 16) ||| (r.1.b1.val <<< 8) ||| r.1.b0.val)
    some ((tmp : ℚ) / 0x80000000, r.1, r.2)
  else none

/-- How a call ends. -/
inductive Outcome where
  | returned (ok : Bool) (d : Data)
  | divByZero
  | outOfRange
  | outOfFuel
  deriving DecidableEq

/-- The state the sample loops of `load` work on. -/
structure Reader where
  samples : List (List ℚ)
  buf : Arr4
  f : List Byte

/-- Why the sample loops of `load` stop early. -/
inductive Stop where
  | unsupported
  | outOfRange
  deriving DecidableEq

/-- The inner loop of `load`: `for (channel = ch; channel < ch + count; ++channel)`. -/
def loadChannels (bits : Nat) : Nat → Nat → Reader → Except Stop Reader
  | 0, _, s => .ok s
  | count + 1, ch, s =>
    match decodeSample bits s.buf s.f with
    | none => .error .unsupported
    | some (v, buf, f) =>
      match pushSample s.samples ch v with
      | none => .error .outOfRange
      | some samples => loadChannels bits count (ch + 1) ⟨samples, buf, f⟩

/-- The outer loop of `load`: `count` sample frames of `nc` channels each. -/
def loadFrames (bits nc : Nat) : Nat → Reader → Except Stop Reader
  | 0, s => .ok s
  | count + 1, s =>
    match loadChannels bits nc 0 s with
    | .error e => .error e
    | .ok s1 => loadFrames bits nc count s1

/-- The test `!(id[0] ^ c0) && !(id[1] ^ c1) && !(id[2] ^ c2) && !(id[3] ^ c3)`. -/
def tagIs (id tag : Arr4) : Bool :=
  (id.b0.val ^^^ tag.b0.val == 0) && (id.b1.val ^^^ tag.b1.val == 0) &&
  (id.b2.val ^^^ tag.b2.val == 0) && (id.b3.val ^^^ tag.b3.val == 0)

/-- The body of the `"fmt "` branch: copy the tag and the size, read the six
fields, resize the channel vector. -/
def readFmt (id : Arr4) (size : Nat) (d : Data) (f : List Byte) : Data × List Byte :=
  let r1 := freadUInt 2 d.audio_format f
  let r2 := freadUInt 2 d.num_channels r1.2
  let r3 := freadUInt 4 d.sample_rate r2.2
  let r4 := freadUInt 4 d.byte_rate r3.2
  let r5 := freadUInt 2 d.block_align r4.2
  let r6 := freadUInt 2 d.bits_per_sample r5.2
  ({ d with fmt_chunk_id := id, fmt_chunk_size := size, audio_format := r1.1,
            num_channels := r2.1, sample_rate := r3.1, byte_rate := r4.1,
            block_align := r5.1, bits_per_sample := r6.1,
            samples := resizeSamples d.samples r2.1 }, r6.2)

/-- Is the bit depth one of 8, 16, 24, 32? -/
def supportedBits (bits : Nat) : Bool :=
  bits == 8 || bits == 16 || bits == 24 || bits == 32

/-- The object after the three reads of the RIFF descriptor at the start of `load`. -/
def readRiff (d : Data) (f : List Byte) : Data × List Byte :=
  let r1 := freadArr 4 d.chunk_id f
  let r2 := freadUInt 4 d.chunk_size r1.2
  let r3 := freadArr 4 d.format r2.2
  ({ d with chunk_id := r1.1, chunk_size := r2.1, format := r3.1 }, r3.2)

/-- What one execution of the body of the `while` loop of `load` leads to. -/
inductive StepResult where
  | next (id : Arr4) (size : Nat) (d : Data) (f : List Byte)
  | done (o : Outcome)
  deriving DecidableEq

/-- The body of the `while` loop of `load`: read a tag and a size over the
previous contents of `chunk_id_buf` and `chunk_size_buf`, then dispatch. -/
def chunkStep (id : Arr4) (size : Nat) (d : Data) (f : List Byte) : StepResult :=
  let r1 := freadArr 4 id f
  let r2 := freadUInt 4 size r1.2
  if tagIs r1.1 fmtTag then
    let r := readFmt r1.1 r2.1 d r2.2
    .next r1.1 r2.1 r.1 r.2
  else if tagIs r1.1 dataTag then
    let d1 := { d with data_chunk_id := r1.1, data_chunk_size := r2.1 }
    match getNumSamples d1 with
    | none => .done .divByZero
    | some num_samples =>
      if !supportedBits d1.bits_per_sample then .done (.returned false d1)
      else
        match loadFrames d1.bits_per_sample d1.num_channels num_samples
                ⟨d1.samples, Arr4.zero, r2.2⟩ with
        | .error .unsupported => .done (.returned false d1)
        | .error .outOfRange => .done .outOfRange
        | .ok s => .next r1.1 r2.1 { d1 with samples := s.samples } s.f
  else
    .next r1.1 r2.1 d (r2.2.drop r2.1)

/-- The `while` loop of `load`, entered with the tag and size buffers as the
previous iteration (or the missing initialisation) left them. -/
def loadLoop : Nat → Arr4 → Nat → Data → List Byte → Outcome
  | fuel, id, size, d, f =>
    if tagIs id dataTag then .returned true d
    else match fuel with
      | 0 => .outOfFuel
      | fuel + 1 =>
        match chunkStep id size d f with
        | .done o => o
        | .next id1 size1 d1 f1 => loadLoop fuel id1 size1 d1 f1

/-- The method `load`.  `obj` is the object's `d_` (`none`: not yet allocated),
`file` the contents of the file at the path (`none`: it cannot be opened). -/
def load (fuel : Nat) (stale_id : Arr4) (stale_size : Nat) (obj : Option Data)
    (file : Option (List Byte)) : Outcome :=
  let d := obj.getD Data.fresh
  match file with
  | none => .returned false d
  | some f =>
    let r := readRiff d f
    loadLoop fuel stale_id stale_size r.1 r.2

/-- Conversion of a sample to an integer type (`static_cast<int16_t>` and the
like): truncation toward zero.  After `clamp_range` the value is in range. -/
def truncToInt (q : ℚ) : Int := Int.tdiv q.num (q.den : Int)

/-- The low eight bits of an integer (`x & 0xFF`, narrowing to `uint8_t`). -/
def byteOfInt (i : Int) : Byte := Fin.ofNat (i % 256).toNat

/-- The `switch (bits_per_sample)` of `write` with the clamp before it: the
bytes emitted for one sample; `none` is the `default` case. -/
def encodeSample (bits : Nat) (v : ℚ) : Option (List Byte) :=
  let tmp := clamp_range v
  if bits = 8 then
    some [byteOfInt (truncToInt ((tmp + 1) / 2 * 0xFF))]
  else if bits = 16 then
    let t := truncToInt (tmp * 0x7FFF)
    some [byteOfInt t, byteOfInt (t >>> 8)]
  else if bits = 24 then
    let t := truncToInt (tmp * 0x7FFFFF)
    some [byteOfInt t, byteOfInt (t >>> 8), byteOfInt (t >>> 16)]
  else if bits = 32 then
    let t := truncToInt (tmp * 0x7FFFFFFF)
    some [byteOfInt t, byteOfInt (t >>> 8), byteOfInt (t >>> 16), byteOfInt (t >>> 24)]
  else none

/-- The 44 bytes `write` emits before the sample loop. -/
def header (d : Data) : List Byte :=
  d.chunk_id.toList ++ toLE 4 d.chunk_size ++ d.format.toList ++
  d.fmt_chunk_id.toList ++ toLE 4 d.fmt_chunk_size ++ toLE 2 d.audio_format ++
  toLE 2 d.num_channels ++ toLE 4 d.sample_rate ++ toLE 4 d.byte_rate ++
  toLE 2 d.block_align ++ toLE 2 d.bits_per_sample ++
  d.data_chunk_id.toList ++ toLE 4 d.data_chunk_size

/-- How a call of `write` ends, with the bytes handed to `fwrite` so far. -/
inductive WriteOutcome where
  | returned (ok : Bool) (out : List Byte)
  | divByZero (out : List Byte)
  | outOfRange (out : List Byte)
  deriving DecidableEq

/-- The read `samples[channel][idx]`; `none` when the position does not exist. -/
def getSample (samples : List (List ℚ)) (channel idx : Nat) : Option ℚ :=
  match samples[channel]? with
  | none => none
  | some s => s[idx]?

/-- The inner loop of `write` at sample index `idx`:
`for (channel = ch; channel < ch + count; ++channel)`. -/
def writeChannels (d : Data) (idx : Nat) : Nat → Nat → List Byte → Except WriteOutcome (List Byte)
  | 0, _, out => .ok out
  | count + 1, ch, out =>
    match getSample d.samples ch idx with
    | none => .error (.outOfRange out)
    | some v =>
      match encodeSample d.bits_per_sample v with
      | none => .error (.returned false out)
      | some bs => writeChannels d idx count (ch + 1) (out ++ bs)

/-- The outer loop of `write`: `count` sample frames from index `idx` on. -/
def writeFrames (d : Data) : Nat → Nat → List Byte → Except WriteOutcome (List Byte)
  | 0, _, out => .ok out
  | count + 1, idx, out =>
    match writeChannels d idx d.num_channels 0 out with
    | .error e => .error e
    | .ok out1 => writeFrames d count (idx + 1) out1

/-- The method `write(filepath)` on a loaded object; `openable` tells whether
`fopen` of the destination succeeds. -/
def write (openable : Bool) (d : Data) : WriteOutcome :=
  if !openable then .returned false []
  else
    match getNumSamples d with
    | none => .divByZero (header d)
    | some num_samples =>
      match writeFrames d num_samples 0 (header d) with
      | .error e => e
      | .ok out => .returned true out

/-- A chunk of a RIFF file as it lies in the file: tag, declared size, body. -/
structure Chunk where
  tag : Arr4
  size : Nat
  body : List Byte

/-- The bytes of a chunk: tag, little-endian size, body. -/
def Chunk.bytes (c : Chunk) : List Byte := c.tag.toList ++ toLE 4 c.size ++ c.body

/-- A chunk other than `"data"` that `load` steps over as a whole: the size fits
32 bits, a `"fmt "` chunk has the 16-byte PCM body, any other chunk has as many
body bytes as it declares. -/
def Chunk.wf (c : Chunk) : Prop :=
  tagIs c.tag dataTag = false ∧ c.size < 2 ^ 32 ∧
  (if tagIs c.tag fmtTag then c.body.length = 16 else c.body.length = c.size)

/-- A well-formed chunk that is not a `"fmt "` chunk either. -/
def Chunk.skippable (c : Chunk) : Prop :=
  tagIs c.tag dataTag = false ∧ tagIs c.tag fmtTag = false ∧ c.size < 2 ^ 32 ∧
  c.body.length = c.size

/-- The bytes of a sequence of chunks. -/
def chunksBytes : List Chunk → List Byte
  | [] => []
  | c :: cs => c.bytes ++ chunksBytes cs

/-- The object after `load` stepped over one well-formed chunk. -/
def stepData (d : Data) (c : Chunk) : Data :=
  if tagIs c.tag fmtTag then (readFmt c.tag c.size d c.body).1 else d

/-- The object after `load` stepped over a sequence of well-formed chunks. -/
def walkData (d : Data) (cs : List Chunk) : Data := cs.foldl stepData d

/-- The contents of `chunk_id_buf` after a sequence of chunks was stepped over. -/
def walkTag (id : Arr4) (cs : List Chunk) : Arr4 := cs.foldl (fun _ c => c.tag) id

/-- The contents of `chunk_size_buf` after a sequence of chunks was stepped over. -/
def walkSize (size : Nat) (cs : List Chunk) : Nat := cs.foldl (fun _ c => c.size) size

/-- The 24 bytes of a PCM `"fmt "` chunk with the given fields. -/
def fmtChunk (size audio_format num_channels sample_rate byte_rate block_align
    bits_per_sample : Nat) : List Byte :=
  fmtTag.toList ++ toLE 4 size ++ toLE 2 audio_format ++ toLE 2 num_channels ++
  toLE 4 sample_rate ++ toLE 4 byte_rate ++ toLE 2 block_align ++ toLE 2 bits_per_sample

/-- The value `load` decodes from the sample bytes at the front of `bs`. -/
def decodeValue (bits : Nat) (bs : List Byte) : Option ℚ :=
  (decodeSample bits Arr4.zero bs).map (fun r => r.1)

/-- A RIFF descriptor, a 16-byte PCM `"fmt "` chunk (mono, 16 bit, 8000 Hz) and a
data chunk with the four bytes `00 00 FF 7F`. -/
def demoFile : List Byte :=
  [0x52, 0x49, 0x46, 0x46, 0x28, 0, 0, 0, 0x57, 0x41, 0x56, 0x45,
   0x66, 0x6D, 0x74, 0x20, 16, 0, 0, 0, 1, 0, 1, 0, 0x40, 0x1F, 0, 0,
   0x80, 0x3E, 0, 0, 2, 0, 16, 0,
   0x64, 0x61, 0x74, 0x61, 4, 0, 0, 0, 0x00, 0x00, 0xFF, 0x7F]

/-- The object a load of `demoFile` produces. -/
def demoData : Data :=
  { chunk_id := ⟨0x52, 0x49, 0x46, 0x46⟩, chunk_size := 40,
    format := ⟨0x57, 0x41, 0x56, 0x45⟩,
    fmt_chunk_id := fmtTag, fmt_chunk_size := 16, audio_format := 1,
    num_channels := 1, sample_rate := 8000, byte_rate := 16000, block_align := 2,
    bits_per_sample := 16, data_chunk_id := dataTag, data_chunk_size := 4,
    samples := [[0, 32767 / 32768]] }

/-- The RIFF descriptor of `demoFile`. -/
def demoRiff : List Byte :=
  [0x52, 0x49, 0x46, 0x46, 0x28, 0, 0, 0, 0x57, 0x41, 0x56, 0x45]

/-- The `"fmt "` chunk of `demoFile`. -/
def demoFmt : Chunk :=
  ⟨fmtTag, 16, [1, 0, 1, 0, 0x40, 0x1F, 0, 0, 0x80, 0x3E, 0, 0, 2, 0, 16, 0]⟩

/-- The data chunk of `demoFile`. -/
def demoDataChunk : List Byte := [0x64, 0x61, 0x74, 0x61, 4, 0, 0, 0, 0x00, 0x00, 0xFF, 0x7F]

/-- A chunk tagged `"JUNK"` that declares eight bytes and holds eight bytes. -/
def junkChunk : Chunk := ⟨⟨0x4A, 0x55, 0x4E, 0x4B⟩, 8, [1, 2, 3, 4, 5, 6, 7, 8]⟩

/-- The payload of a stereo 16-bit data chunk with two frames. -/
def stereoPayload : List Byte := [0x00, 0x00, 0xFF, 0x7F, 0x00, 0x80, 0xFF, 0xFF]

/-- The file `demoFile` with `bits_per_sample` set to 0. -/
def zeroDepthFile : List Byte :=
  [0x52, 0x49, 0x46, 0x46, 0x28, 0, 0, 0, 0x57, 0x41, 0x56, 0x45,
   0x66, 0x6D, 0x74, 0x20, 16, 0, 0, 0, 1, 0, 1, 0, 0x40, 0x1F, 0, 0,
   0x80, 0x3E, 0, 0, 2, 0, 0, 0,
   0x64, 0x61, 0x74, 0x61, 4, 0, 0, 0, 0x00, 0x00, 0xFF, 0x7F]

/-- The file `demoFile` with `bits_per_sample` set to 12. -/
def depth12File : List Byte :=
  [0x52, 0x49, 0x46, 0x46, 0x28, 0, 0, 0, 0x57, 0x41, 0x56, 0x45,
   0x66, 0x6D, 0x74, 0x20, 16, 0, 0, 0, 1, 0, 1, 0, 0x40, 0x1F, 0, 0,
   0x80, 0x3E, 0, 0, 2, 0, 12, 0,
   0x64, 0x61, 0x74, 0x61, 4, 0, 0, 0, 0x00, 0x00, 0xFF, 0x7F]

/-- The object a load of `depth12File` leaves behind. -/
def depth12Data : Data :=
  { demoData with bits_per_sample := 12, samples := [[]] }

/-- The file `demoFile` with `bits_per_sample` set to 12 and an empty data chunk. -/
def depth12EmptyFile : List Byte :=
  [0x52, 0x49, 0x46, 0x46, 0x28, 0, 0, 0, 0x57, 0x41, 0x56, 0x45,
   0x66, 0x6D, 0x74, 0x20, 16, 0, 0, 0, 1, 0, 1, 0, 0x40, 0x1F, 0, 0,
   0x80, 0x3E, 0, 0, 2, 0, 12, 0,
   0x64, 0x61, 0x74, 0x61, 0, 0, 0, 0]

/-- A mono object of depth 12 whose data chunk is empty. -/
def depth12Empty : Data :=
  { demoData with bits_per_sample := 12, data_chunk_size := 0, samples := [[]] }

/-- A mono object of depth 12 with one sample. -/
def depth12One : Data :=
  { demoData with bits_per_sample := 12, data_chunk_size := 2, samples := [[0]] }

/-- A mono 8-bit header whose data chunk declares `2^29` bytes. -/
def halfGiBHeader : Data :=
  { demoData with bits_per_sample := 8, block_align := 1, byte_rate := 8000,
                  data_chunk_size := 536870912, samples := [[]] }

/-- A stereo 16-bit file with two frames: RIFF descriptor, `"fmt "` chunk, data chunk. -/
def stereoFile : List Byte :=
  demoRiff ++ (fmtChunk 16 1 2 8000 32000 4 16 ++
    (dataTag.toList ++ (toLE 4 8 ++ stereoPayload)))

/-- The object after `demoFile` and then `stereoFile` were loaded into it. -/
def reloadedData : Data :=
  { demoData with num_channels := 2, byte_rate := 32000, block_align := 4,
                  data_chunk_size := 8,
                  samples := [[0, 32767 / 32768, 0, -1], [32767 / 32768, -1 / 32768]] }

/-- The byte pattern of the most negative sample at a bit depth (the 8-bit format is
biased, its lowest byte is `00`). -/
def minPattern (bits : Nat) : List Byte :=
  if bits = 8 then [0x00]
  else if bits = 16 then [0x00, 0x80]
  else if bits = 24 then [0x00, 0x00, 0x80]
  else [0x00, 0x00, 0x00, 0x80]

/-- The byte pattern of the most positive sample at a bit depth. -/
def maxPattern (bits : Nat) : List Byte :=
  if bits = 8 then [0xFF]
  else if bits = 16 then [0xFF, 0x7F]
  else if bits = 24 then [0xFF, 0xFF, 0x7F]
  else [0xFF, 0xFF, 0xFF, 0x7F]

/-- The loop behind `natLog2`: halve `n` until it is below 2, at most `fuel` times. -/
def log2Fuel : Nat → Nat → Nat
  | 0, _ => 0
  | fuel + 1, n => if 2 ≤ n then log2Fuel fuel (n / 2) + 1 else 0

/-- The position of the highest set bit of `n` (0 for `n = 0`). -/
def natLog2 (n : Nat) : Nat := log2Fuel n n

/-- The power `2 ^ e` of an integer exponent, as a rational. -/
def pow2 (e : Int) : ℚ :=
  if 0 ≤ e then ((2 ^ e.toNat : Nat) : ℚ) else 1 / ((2 ^ (-e).toNat : Nat) : ℚ)

/-- The binary exponent of a non-zero rational: the `e` with `2 ^ e ≤ |x| < 2 ^ (e + 1)`. -/
def ilog2 (x : ℚ) : Int :=
  let e : Int := (natLog2 x.num.natAbs : Int) - (natLog2 x.den : Int)
  if |x| < pow2 e then e - 1 else e

/-- The integer nearest to `q`, the even one of the two when `q` lies halfway. -/
def roundEven (q : ℚ) : Int :=
  if q - ⌊q⌋ < 1 / 2 then ⌊q⌋
  else if 1 / 2 < q - ⌊q⌋ then ⌊q⌋ + 1
  else if ⌊q⌋ % 2 = 0 then ⌊q⌋ else ⌊q⌋ + 1

/-- The exponent of the spacing of the single-precision numbers around `x`: 24
significant bits, spacing `2 ^ (-149)` in the subnormal range. -/
def ulpExp (x : ℚ) : Int := max (ilog2 x - 23) (-149)

/-- The value of a rational converted to `float` (IEEE 754 binary32, round to nearest,
ties to even): the result of `static_cast<float>` and of each `float` operation on the
exact result.  Overflow to infinity is left out: the operands of the codec are below
`2 ^ 32` in magnitude. -/
def roundFloat (x : ℚ) : ℚ :=
  (roundEven (x / pow2 (ulpExp x)) : ℚ) * pow2 (ulpExp x)

/-- The `switch (bits_per_sample)` of `load` for a sample type `T` in which every
`static_cast<T>` of an integer and every division rounds by `fl`: `fl = roundFloat` is
the default `T = float`, `fl = id` is `decodeSample`. -/
def decodeSampleT (fl : ℚ → ℚ) (bits : Nat) (buf : Arr4) (f : List Byte) :
    Option (ℚ × Arr4 × List Byte) :=
  if bits = 8 then
    let r := freadArr 1 buf f
    some (fl (fl (((r.1.b0.val : Int) - 0x80 : Int) : ℚ) / fl 0x80), r.1, r.2)
  else if bits = 16 then
    let r := freadArr 2 buf f
    let tmp := toSigned 16 ((r.1.b1.val <<< 8) ||| r.1.b0.val)
    some (fl (fl (tmp : ℚ) / fl 0x8000), r.1, r.2)
  else if bits = 24 then
    let r := freadArr 3 buf f
    let tmp := toSigned 32 (signExtend24 ((r.1.b2.val <<< 16) ||| (r.1.b1.val <<< 8) ||| r.1.b0.val))
    some (fl (fl (tmp : ℚ) / fl 0x800000), r.1, r.2)
  else if bits = 32 then
    let r := freadArr 4 buf f
    let tmp := toSigned 32
      ((r.1.b3.val <<< 24) ||| (r.1.b2.val <<< 16) ||| (r.1.b1.val <<< 8) ||| r.1.b0.val)
    some (fl (fl (tmp : ℚ) / fl 0x80000000), r.1, r.2)
  else none

/-- The value `load` decodes from the sample bytes at the front of `bs` when the sample
type rounds by `fl`. -/
def decodeValueT (fl : ℚ → ℚ) (bits : Nat) (bs : List Byte) : Option ℚ :=
  (decodeSampleT fl bits Arr4.zero bs).map (fun r => r.1)

/-- The `switch (bits_per_sample)` of `write` with the clamp before it, for a sample type
`T` in which every `static_cast<T>` of an integer and every addition, division and
multiplication rounds by `fl` (the constants `-1.0f`, `1.0f` and `2.0f` are exact).  The
conversion to the integer type truncates; the one value it can receive outside that
type, `2 ^ 31` at depth 32, is written with the bytes `00 00 00 80` of its low 32 bits. -/
def encodeSampleT (fl : ℚ → ℚ) (bits : Nat) (v : ℚ) : Option (List Byte) :=
  let tmp := clamp_range v
  if bits = 8 then
    some [byteOfInt (truncToInt (fl (fl (fl (tmp + 1) / 2) * fl 0xFF)))]
  else if bits = 16 then
    let t := truncToInt (fl (tmp * fl 0x7FFF))
    some [byteOfInt t, byteOfInt (t >>> 8)]
  else if bits = 24 then
    let t := truncToInt (fl (tmp * fl 0x7FFFFF))
    some [byteOfInt t, byteOfInt (t >>> 8), byteOfInt (t >>> 16)]
  else if bits = 32 then
    let t := truncToInt (fl (tmp * fl 0x7FFFFFFF))
    some [byteOfInt t, byteOfInt (t >>> 8), byteOfInt (t >>> 16), byteOfInt (t >>> 24)]
  else none

/-- The object after a `load` of `demoFile` that read the RIFF descriptor and nothing else. -/
def riffOnlyData : Data :=
  { Data.fresh with chunk_id := ⟨0x52, 0x49, 0x46, 0x46⟩, chunk_size := 40,
                    format := ⟨0x57, 0x41, 0x56, 0x45⟩ }

/-- A file like `demoFile` whose data chunk declares four payload bytes and holds only
two, `FF 7F`. -/
def truncatedFile : List Byte :=
  [0x52, 0x49, 0x46, 0x46, 0x28, 0, 0, 0, 0x57, 0x41, 0x56, 0x45,
   0x66, 0x6D, 0x74, 0x20, 16, 0, 0, 0, 1, 0, 1, 0, 0x40, 0x1F, 0, 0,
   0x80, 0x3E, 0, 0, 2, 0, 16, 0,
   0x64, 0x61, 0x74, 0x61, 4, 0, 0, 0, 0xFF, 0x7F]

/-- The object a load of `truncatedFile` produces. -/
def truncatedData : Data :=
  { demoData with samples := [[32767 / 32768, 32767 / 32768]] }

instance (c : Chunk) : Decidable c.wf := by
  unfold Chunk.wf
  infer_instance

instance (c : Chunk) : Decidable c.skippable := by
  unfold Chunk.skippable
  infer_instance

/-! ## Properties of the embedding -/

theorem shl8_or (b0 b1 : Byte) : (b1.val <<< 8) ||| b0.val = b0.val + 256 * b1.val := by
  have h0 : b0.val < 2 ^ 8 := b0.isLt
  have := Nat.mul_add_lt_is_or h0 b1.val
  rw [Nat.shiftLeft_eq, Nat.mul_comm b1.val, ← this]
  omega

theorem shl16_or (b0 b1 b2 : Byte) :
    (b2.val <<< 16) ||| (b1.val <<< 8) ||| b0.val = b0.val + 256 * b1.val + 65536 * b2.val := by
  have h0 : b0.val + 256 * b1.val < 2 ^ 16 := by
    have := b0.isLt; have := b1.isLt; omega
  have := Nat.mul_add_lt_is_or h0 b2.val
  rw [Nat.lor_assoc, shl8_or, Nat.shiftLeft_eq, Nat.mul_comm b2.val, ← this]
  omega

theorem shl24_or (b0 b1 b2 b3 : Byte) :
    (b3.val <<< 24) ||| (b2.val <<< 16) ||| (b1.val <<< 8) ||| b0.val
      = b0.val + 256 * b1.val + 65536 * b2.val + 16777216 * b3.val := by
  have h0 : b0.val + 256 * b1.val + 65536 * b2.val < 2 ^ 24 := by
    have := b0.isLt; have := b1.isLt; have := b2.isLt; omega
  have := Nat.mul_add_lt_is_or h0 b3.val
  rw [Nat.lor_assoc, Nat.lor_assoc, ← Nat.lor_assoc (b2.val <<< 16), shl16_or, Nat.shiftLeft_eq,
    Nat.mul_comm b3.val, ← this]
  omega

theorem signExtend24_eq (u : Nat) (hu : u < 2 ^ 24) :
    signExtend24 u = if u < 2 ^ 23 then u else u + 0xFF000000 := by
  unfold signExtend24
  have hand : u &&& 0x800000 = (u.testBit 23).toNat * 2 ^ 23 := Nat.and_two_pow u 23
  have htb : u.testBit 23 = decide (u / 2 ^ 23 % 2 = 1) := Nat.testBit_to_div_mod
  have hor : u ||| 0xFF000000 = u + 0xFF000000 := by
    have := Nat.mul_add_lt_is_or hu 255
    rw [Nat.lor_comm]
    simpa [Nat.add_comm] using this.symm
  rw [hand, htb, hor]
  by_cases h : u < 8388608
  · have h1 : u / 8388608 % 2 = 0 := by omega
    simp [h1, h]
  · have h1 : u / 8388608 % 2 = 1 := by omega
    simp [h1, h]

theorem toSigned16_eq (u : Nat) (hu : u < 2 ^ 16) :
    toSigned 16 u = if u < 32768 then (u : Int) else (u : Int) - 65536 := by
  unfold toSigned
  rw [Nat.mod_eq_of_lt hu]
  norm_num

theorem toSigned32_eq (u : Nat) (hu : u < 2 ^ 32) :
    toSigned 32 u = if u < 2147483648 then (u : Int) else (u : Int) - 4294967296 := by
  unfold toSigned
  rw [Nat.mod_eq_of_lt hu]
  norm_num

theorem freadArr_one (buf : Arr4) (b : Byte) (rest : List Byte) :
    freadArr 1 buf (b :: rest) = (⟨b, buf.b1, buf.b2, buf.b3⟩, rest) := rfl

theorem freadArr_two (buf : Arr4) (b0 b1 : Byte) (rest : List Byte) :
    freadArr 2 buf (b0 :: b1 :: rest) = (⟨b0, b1, buf.b2, buf.b3⟩, rest) := rfl

theorem freadArr_three (buf : Arr4) (b0 b1 b2 : Byte) (rest : List Byte) :
    freadArr 3 buf (b0 :: b1 :: b2 :: rest) = (⟨b0, b1, b2, buf.b3⟩, rest) := rfl

theorem freadArr_four (buf : Arr4) (b0 b1 b2 b3 : Byte) (rest : List Byte) :
    freadArr 4 buf (b0 :: b1 :: b2 :: b3 :: rest) = (⟨b0, b1, b2, b3⟩, rest) := rfl

theorem decodeSample_8 (buf : Arr4) (b : Byte) (rest : List Byte) :
    decodeSample 8 buf (b :: rest)
      = some ((((b.val : Int) - 128 : Int) : ℚ) / 128, ⟨b, buf.b1, buf.b2, buf.b3⟩, rest) := by
  simp [decodeSample, freadArr_one]

theorem decodeSample_16 (buf : Arr4) (b0 b1 : Byte) (rest : List Byte) :
    decodeSample 16 buf (b0 :: b1 :: rest)
      = some (((if b0.val + 256 * b1.val < 32768 then ((b0.val + 256 * b1.val : Nat) : Int)
                else ((b0.val + 256 * b1.val : Nat) : Int) - 65536 : Int) : ℚ) / 32768,
              ⟨b0, b1, buf.b2, buf.b3⟩, rest) := by
  have hu : b0.val + 256 * b1.val < 2 ^ 16 := by
    have := b0.isLt; have := b1.isLt; omega
  simp only [decodeSample, freadArr_two, shl8_or, toSigned16_eq _ hu]
  norm_num

theorem decodeSample_24 (buf : Arr4) (b0 b1 b2 : Byte) (rest : List Byte) :
    decodeSample 24 buf (b0 :: b1 :: b2 :: rest)
      = some (((if 128 ≤ b2.val
                then ((b0.val + 256 * b1.val + 65536 * b2.val : Nat) : Int) - 16777216
                else ((b0.val + 256 * b1.val + 65536 * b2.val : Nat) : Int) : Int) : ℚ) / 8388608,
              ⟨b0, b1, b2, buf.b3⟩, rest) := by
  have h0 := b0.isLt
  have h1 := b1.isLt
  have h2 := b2.isLt
  have hu : b0.val + 256 * b1.val + 65536 * b2.val < 2 ^ 24 := by omega
  simp only [decodeSample, freadArr_three, shl16_or, signExtend24_eq _ hu]
  by_cases h : 128 ≤ b2.val
  · have h3 : ¬ (b0.val + 256 * b1.val + 65536 * b2.val < 2 ^ 23) := by omega
    have h4 : b0.val + 256 * b1.val + 65536 * b2.val + 0xFF000000 < 2 ^ 32 := by omega
    have h5 : ¬ (b0.val + 256 * b1.val + 65536 * b2.val + 0xFF000000 < 2147483648) := by omega
    rw [if_neg h3, toSigned32_eq _ h4, if_neg h5, if_pos h]
    norm_num
    ring
  · have h3 : b0.val + 256 * b1.val + 65536 * b2.val < 2 ^ 23 := by omega
    have h4 : b0.val + 256 * b1.val + 65536 * b2.val < 2 ^ 32 := by omega
    have h5 : b0.val + 256 * b1.val + 65536 * b2.val < 2147483648 := by omega
    rw [if_pos h3, toSigned32_eq _ h4, if_pos h5, if_neg h]
    norm_num

theorem tagIs_iff (a t : Arr4) : tagIs a t = true ↔ a = t := by
  cases a; cases t
  simp [tagIs, Nat.xor_eq_zero, Fin.val_inj, and_assoc]

theorem tagIs_self (t : Arr4) : tagIs t t = true := (tagIs_iff t t).2 rfl

theorem toLE_length (w n : Nat) : (toLE w n).length = w := by
  induction w generalizing n with
  | zero => rfl
  | succ w ih => simp [toLE, ih]

theorem ofLE_toLE (w n : Nat) : ofLE (toLE w n) = n % 256 ^ w := by
  induction w generalizing n with
  | zero => simp [toLE, ofLE, Nat.mod_one]
  | succ w ih =>
    simp only [toLE, ofLE, ih, Fin.ofNat, Fin.val_mk]
    rw [pow_succ, Nat.mod_mod, Nat.mul_comm (256 ^ w) 256, Nat.mod_mul]
    
theorem overlay_full (got old : List Byte) (h : old.length ≤ got.length) :
    overlay got old = got := by
  simp [overlay, List.drop_eq_nil_of_le h]

theorem Arr4.ofList_toList (a : Arr4) : Arr4.ofList a.toList = a := rfl

theorem Arr4.toList_length (a : Arr4) : a.toList.length = 4 := rfl

theorem freadArr_tag (old t : Arr4) (rest : List Byte) :
    freadArr 4 old (t.toList ++ rest) = (t, rest) := rfl

theorem freadUInt_full (w old n : Nat) (rest : List Byte) (hn : n < 256 ^ w) :
    freadUInt w old (toLE w n ++ rest) = (n, rest) := by
  have h1 : (toLE w n ++ rest).take w = toLE w n := List.take_left' (toLE_length w n)
  have h2 : (toLE w n ++ rest).drop w = rest := List.drop_left' (toLE_length w n)
  simp only [freadUInt, h1, h2]
  rw [overlay_full _ _ (by simp [toLE_length]), ofLE_toLE, Nat.mod_eq_of_lt hn]

theorem loadLoop_data (fuel : Nat) (id : Arr4) (size : Nat) (d : Data) (f : List Byte)
    (h : tagIs id dataTag = true) : loadLoop fuel id size d f = .returned true d := by
  unfold loadLoop
  simp [h]

theorem loadLoop_zero (id : Arr4) (size : Nat) (d : Data) (f : List Byte)
    (h : tagIs id dataTag = false) : loadLoop 0 id size d f = .outOfFuel := by
  unfold loadLoop
  simp [h]

theorem loadLoop_succ (fuel : Nat) (id : Arr4) (size : Nat) (d : Data) (f : List Byte)
    (h : tagIs id dataTag = false) :
    loadLoop (fuel + 1) id size d f =
      match chunkStep id size d f with
      | .done o => o
      | .next id1 size1 d1 f1 => loadLoop fuel id1 size1 d1 f1 := by
  rw [loadLoop]
  simp [h]

theorem freadUInt_append (w old : Nat) (a b : List Byte) (h : w ≤ a.length) :
    freadUInt w old (a ++ b) = ((freadUInt w old a).1, a.drop w ++ b) := by
  simp [freadUInt, List.take_append_of_le_length h, List.drop_append_of_le_length h]

theorem readFmt_append (id : Arr4) (size : Nat) (d : Data) (body post : List Byte)
    (h : body.length = 16) :
    readFmt id size d (body ++ post) = ((readFmt id size d body).1, post) := by
  have e1 := freadUInt_append 2 d.audio_format body post (by omega)
  have e2 := freadUInt_append 2 d.num_channels (body.drop 2) post (by simp; omega)
  have e3 := freadUInt_append 4 d.sample_rate ((body.drop 2).drop 2) post (by simp; omega)
  have e4 := freadUInt_append 4 d.byte_rate (((body.drop 2).drop 2).drop 4) post (by simp; omega)
  have e5 := freadUInt_append 2 d.block_align ((((body.drop 2).drop 2).drop 4).drop 4) post
    (by simp; omega)
  have e6 := freadUInt_append 2 d.bits_per_sample
    (((((body.drop 2).drop 2).drop 4).drop 4).drop 2) post (by simp; omega)
  have hnil : ((((((body.drop 2).drop 2).drop 4).drop 4).drop 2).drop 2) = [] := by
    apply List.eq_nil_of_length_eq_zero
    simp; omega
  have f1 : (freadUInt 2 d.audio_format body).2 = body.drop 2 := rfl
  have f2 : (freadUInt 2 d.num_channels (body.drop 2)).2 = (body.drop 2).drop 2 := rfl
  have f3 : (freadUInt 4 d.sample_rate ((body.drop 2).drop 2)).2
      = ((body.drop 2).drop 2).drop 4 := rfl
  have f4 : (freadUInt 4 d.byte_rate (((body.drop 2).drop 2).drop 4)).2
      = (((body.drop 2).drop 2).drop 4).drop 4 := rfl
  have f5 : (freadUInt 2 d.block_align ((((body.drop 2).drop 2).drop 4).drop 4)).2
      = ((((body.drop 2).drop 2).drop 4).drop 4).drop 2 := rfl
  simp only [readFmt, e1, e2, e3, e4, e5, e6, f1, f2, f3, f4, f5, hnil, List.nil_append]

theorem chunkStep_wf (id : Arr4) (size : Nat) (d : Data) (c : Chunk) (post : List Byte)
    (hc : c.wf) :
    chunkStep id size d (c.bytes ++ post) = .next c.tag c.size (stepData d c) post := by
  obtain ⟨hdata, hsize, hbody⟩ := hc
  have hb : c.bytes ++ post = c.tag.toList ++ (toLE 4 c.size ++ (c.body ++ post)) := by
    simp [Chunk.bytes, List.append_assoc]
  have h1 : freadArr 4 id (c.tag.toList ++ (toLE 4 c.size ++ (c.body ++ post)))
      = (c.tag, toLE 4 c.size ++ (c.body ++ post)) := freadArr_tag _ _ _
  have h2 : freadUInt 4 size (toLE 4 c.size ++ (c.body ++ post)) = (c.size, c.body ++ post) :=
    freadUInt_full 4 size c.size _ (by norm_num; exact hsize)
  rw [hb]
  unfold chunkStep
  simp only [h1, h2]
  by_cases hf : tagIs c.tag fmtTag = true
  · rw [if_pos hf] at hbody
    simp only [hf, if_true, stepData, readFmt_append _ _ _ _ _ hbody]
  · have hf' : tagIs c.tag fmtTag = false := by simpa using hf
    have hlen : c.body.length = c.size := by simpa [hf'] using hbody
    simp only [hf', hdata, stepData]
    simp [← hlen]

theorem chunksBytes_append (as bs : List Chunk) :
    chunksBytes (as ++ bs) = chunksBytes as ++ chunksBytes bs := by
  induction as with
  | nil => rfl
  | cons a as ih => simp [chunksBytes, ih]

theorem walkTag_not_data (id : Arr4) (cs : List Chunk) (hid : tagIs id dataTag = false)
    (hcs : ∀ c ∈ cs, c.wf) : tagIs (walkTag id cs) dataTag = false := by
  induction cs generalizing id with
  | nil => exact hid
  | cons c cs ih =>
    exact ih c.tag (hcs c (List.mem_cons_self _ _)).1
      (fun x hx => hcs x (List.mem_cons_of_mem _ hx))

theorem loadLoop_walk (cs : List Chunk) (hcs : ∀ c ∈ cs, c.wf) (fuel : Nat) (id : Arr4)
    (size : Nat) (d : Data) (post : List Byte) (hid : tagIs id dataTag = false) :
    loadLoop fuel id size d (chunksBytes cs ++ post) =
      if fuel < cs.length then .outOfFuel
      else loadLoop (fuel - cs.length) (walkTag id cs) (walkSize size cs) (walkData d cs) post := by
  induction cs generalizing fuel id size d with
  | nil => simp [chunksBytes, walkTag, walkSize, walkData]
  | cons c cs ih =>
    have hc : c.wf := hcs c (List.mem_cons_self _ _)
    have hcs' : ∀ x ∈ cs, x.wf := fun x hx => hcs x (List.mem_cons_of_mem _ hx)
    cases fuel with
    | zero => simp [loadLoop_zero _ _ _ _ hid]
    | succ fuel =>
      rw [loadLoop_succ _ _ _ _ _ hid]
      have hb : chunksBytes (c :: cs) ++ post = c.bytes ++ (chunksBytes cs ++ post) := by
        simp [chunksBytes]
      rw [hb, chunkStep_wf _ _ _ _ _ hc]
      simp only []
      rw [ih hcs' fuel c.tag c.size (stepData d c) hc.1]
      simp [walkTag, walkSize, walkData]

theorem freadArr_append (n : Nat) (old : Arr4) (a b : List Byte) (h : n ≤ a.length) :
    freadArr n old (a ++ b) = ((freadArr n old a).1, a.drop n ++ b) := by
  simp [freadArr, List.take_append_of_le_length h, List.drop_append_of_le_length h]

theorem readRiff_append (d : Data) (riff rest : List Byte) (h : riff.length = 12) :
    readRiff d (riff ++ rest) = ((readRiff d riff).1, rest) := by
  have e1 := freadArr_append 4 d.chunk_id riff rest (by omega)
  have e2 := freadUInt_append 4 d.chunk_size (riff.drop 4) rest (by simp; omega)
  have e3 := freadArr_append 4 d.format ((riff.drop 4).drop 4) rest (by simp; omega)
  have hnil : ((riff.drop 4).drop 4).drop 4 = [] := by
    apply List.eq_nil_of_length_eq_zero
    simp; omega
  have f1 : (freadArr 4 d.chunk_id riff).2 = riff.drop 4 := rfl
  have f2 : (freadUInt 4 d.chunk_size (riff.drop 4)).2 = (riff.drop 4).drop 4 := rfl
  simp only [readRiff, e1, e2, e3, f1, f2, hnil, List.nil_append]

theorem load_riff (fuel : Nat) (stale_id : Arr4) (stale_size : Nat) (obj : Option Data)
    (riff rest : List Byte) (h : riff.length = 12) :
    load fuel stale_id stale_size obj (some (riff ++ rest)) =
      loadLoop fuel stale_id stale_size (readRiff (obj.getD Data.fresh) riff).1 rest := by
  simp only [load, readRiff_append _ _ _ h]

theorem freadArr_four_stale (id id1 : Arr4) (f : List Byte) (h : 4 ≤ f.length) :
    freadArr 4 id f = freadArr 4 id1 f := by
  have hl : id.toList.length ≤ (f.take 4).length := by
    simp [Arr4.toList_length]; omega
  have hl1 : id1.toList.length ≤ (f.take 4).length := by
    simp [Arr4.toList_length]; omega
  simp only [freadArr, overlay_full _ _ hl, overlay_full _ _ hl1]

theorem freadUInt_stale (w size size1 : Nat) (f : List Byte) (h : w ≤ f.length) :
    freadUInt w size f = freadUInt w size1 f := by
  have hl : (toLE w size).length ≤ (f.take w).length := by
    simp [toLE_length]; omega
  have hl1 : (toLE w size1).length ≤ (f.take w).length := by
    simp [toLE_length]; omega
  simp only [freadUInt, overlay_full _ _ hl, overlay_full _ _ hl1]

theorem chunkStep_stale (id id1 : Arr4) (size size1 : Nat) (d : Data) (f : List Byte)
    (h : 8 ≤ f.length) : chunkStep id size d f = chunkStep id1 size1 d f := by
  have h1 : freadArr 4 id f = freadArr 4 id1 f := freadArr_four_stale id id1 f (by omega)
  have h2 : freadUInt 4 size (freadArr 4 id1 f).2 = freadUInt 4 size1 (freadArr 4 id1 f).2 :=
    freadUInt_stale 4 size size1 _ (by simp [freadArr]; omega)
  unfold chunkStep
  simp only [h1, h2]

theorem loadLoop_stale (fuel : Nat) (id id1 : Arr4) (size size1 : Nat) (d : Data)
    (f : List Byte) (h : 8 ≤ f.length) (hid : tagIs id dataTag = false)
    (hid1 : tagIs id1 dataTag = false) :
    loadLoop fuel id size d f = loadLoop fuel id1 size1 d f := by
  cases fuel with
  | zero => rw [loadLoop_zero _ _ _ _ hid, loadLoop_zero _ _ _ _ hid1]
  | succ fuel =>
    rw [loadLoop_succ _ _ _ _ _ hid, loadLoop_succ _ _ _ _ _ hid1,
      chunkStep_stale id id1 size size1 d f h]

theorem Chunk.skippable.wf {c : Chunk} (h : c.skippable) : c.wf := by
  obtain ⟨h1, h2, h3, h4⟩ := h
  exact ⟨h1, h3, by simp [h2, h4]⟩

theorem stepData_skippable (d : Data) (c : Chunk) (h : c.skippable) : stepData d c = d := by
  simp [stepData, h.2.1]

theorem walkData_skippable (d : Data) (cs : List Chunk) (h : ∀ c ∈ cs, c.skippable) :
    walkData d cs = d := by
  induction cs with
  | nil => rfl
  | cons c cs ih =>
    have hc := h c (List.mem_cons_self _ _)
    simp only [walkData, List.foldl_cons, stepData_skippable d c hc]
    exact ih (fun x hx => h x (List.mem_cons_of_mem _ hx))

/-- C6: a chunk that is neither `"fmt "` nor `"data"`, inserted at a chunk boundary
before a complete chunk header, costs one more loop iteration and changes nothing
else of the result of `load`. -/
theorem load_skips_unknown_chunk (fuel : Nat) (stale_id : Arr4) (stale_size : Nat)
    (obj : Option Data) (riff : List Byte) (cs : List Chunk) (J : Chunk) (post : List Byte)
    (hriff : riff.length = 12) (hcs : ∀ c ∈ cs, c.wf) (hJ : J.skippable)
    (hpost : 8 ≤ post.length) :
    load (fuel + 1) stale_id stale_size obj (some (riff ++ (chunksBytes cs ++ (J.bytes ++ post))))
      = load fuel stale_id stale_size obj (some (riff ++ (chunksBytes cs ++ post))) := by
  rw [load_riff _ _ _ _ _ _ hriff, load_riff _ _ _ _ _ _ hriff]
  by_cases hs : tagIs stale_id dataTag = true
  · rw [loadLoop_data _ _ _ _ _ hs, loadLoop_data _ _ _ _ _ hs]
  · have hs' : tagIs stale_id dataTag = false := by simpa using hs
    have hw := walkTag_not_data stale_id cs hs' hcs
    rw [loadLoop_walk cs hcs _ _ _ _ _ hs', loadLoop_walk cs hcs _ _ _ _ _ hs']
    by_cases h1 : fuel < cs.length
    · by_cases h2 : fuel + 1 < cs.length
      · simp [h1, h2]
      · have h3 : fuel + 1 - cs.length = 0 := by omega
        simp only [h1, h2, if_true, if_false, h3]
        exact loadLoop_zero _ _ _ _ hw
    · have h2 : ¬ fuel + 1 < cs.length := by omega
      have h3 : fuel + 1 - cs.length = (fuel - cs.length) + 1 := by omega
      simp only [h1, h2, if_false, h3]
      rw [loadLoop_succ _ _ _ _ _ hw, chunkStep_wf _ _ _ _ _ hJ.wf]
      simp only [stepData_skippable _ _ hJ]
      exact loadLoop_stale _ _ _ _ _ _ _ hpost hJ.1 hw

theorem pushSample_some (samples : List (List ℚ)) (ch : Nat) (v : ℚ) (samples1 : List (List ℚ))
    (h : pushSample samples ch v = some samples1) :
    ch < samples.length ∧ samples1.length = samples.length ∧
    ∀ i, samples1.getD i [] = if i = ch then samples.getD ch [] ++ [v] else samples.getD i [] := by
  unfold pushSample at h
  by_cases hc : ch < samples.length
  · rw [if_pos hc] at h
    injection h with h
    subst h
    refine ⟨hc, by simp, fun i => ?_⟩
    simp only [List.getD_eq_getElem?_getD, List.getElem?_set]
    by_cases hi : i = ch
    · subst hi
      simp [hc]
    · have hi' : ¬ ch = i := fun e => hi e.symm
      simp [hi, hi']
  · rw [if_neg hc] at h
    cases h

theorem loadChannels_length (bits : Nat) (count ch : Nat) (s s1 : Reader)
    (h : loadChannels bits count ch s = .ok s1) :
    s1.samples.length = s.samples.length ∧
    (0 < count → ch + count ≤ s.samples.length) ∧
    ∀ i, (s1.samples.getD i []).length =
      (s.samples.getD i []).length + (if ch ≤ i ∧ i < ch + count then 1 else 0) := by
  induction count generalizing ch s with
  | zero =>
    simp only [loadChannels] at h
    injection h with h
    subst h
    refine ⟨rfl, by omega, fun i => ?_⟩
    have : ¬ (ch ≤ i ∧ i < ch + 0) := by omega
    simp [this]
  | succ count ih =>
    simp only [loadChannels] at h
    cases hd : decodeSample bits s.buf s.f with
    | none => simp [hd] at h
    | some r =>
      obtain ⟨v, buf, f⟩ := r
      simp only [hd] at h
      cases hp : pushSample s.samples ch v with
      | none => simp [hp] at h
      | some samples1 =>
        simp only [hp] at h
        obtain ⟨hlt, hlen, hget⟩ := pushSample_some _ _ _ _ hp
        obtain ⟨h1, h2, h3⟩ := ih (ch + 1) ⟨samples1, buf, f⟩ h
        simp only at h1 h2 h3
        refine ⟨by rw [h1, hlen], fun _ => ?_, fun i => ?_⟩
        · rcases Nat.eq_zero_or_pos count with h0 | h0
          · omega
          · have := h2 h0
            omega
        · rw [h3 i, hget i]
          by_cases hi : i = ch
          · subst hi
            have e1 : ¬ (i + 1 ≤ i ∧ i < i + 1 + count) := by omega
            have e2 : (i ≤ i ∧ i < i + (count + 1)) := by omega
            simp [e1, e2]
          · by_cases hr : ch + 1 ≤ i ∧ i < ch + 1 + count
            · have e2 : (ch ≤ i ∧ i < ch + (count + 1)) := by omega
              simp [hi, hr, e2]
            · have e2 : ¬ (ch ≤ i ∧ i < ch + (count + 1)) := by omega
              simp [hi, hr, e2]

theorem loadFrames_length (bits nc : Nat) (count : Nat) (s s1 : Reader)
    (h : loadFrames bits nc count s = .ok s1) (hnc : nc = s.samples.length) :
    s1.samples.length = nc ∧
    ∀ i, i < nc → (s1.samples.getD i []).length = (s.samples.getD i []).length + count := by
  induction count generalizing s with
  | zero =>
    simp only [loadFrames] at h
    injection h with h
    subst h
    exact ⟨hnc.symm, fun i _ => rfl⟩
  | succ count ih =>
    simp only [loadFrames] at h
    cases hc : loadChannels bits nc 0 s with
    | error e => simp [hc] at h
    | ok s2 =>
      simp only [hc] at h
      obtain ⟨h1, _, h3⟩ := loadChannels_length _ _ _ _ _ hc
      obtain ⟨k1, k2⟩ := ih s2 h (by rw [h1]; exact hnc)
      refine ⟨k1, fun i hi => ?_⟩
      rw [k2 i hi, h3 i]
      have e : (0 ≤ i ∧ i < 0 + nc) := by omega
      rw [if_pos e]
      omega

theorem resizeSamples_length (samples : List (List ℚ)) (n : Nat) :
    (resizeSamples samples n).length = n := by
  simp only [resizeSamples, List.length_append, List.length_take, List.length_replicate]
  omega

theorem resizeSamples_empty (samples : List (List ℚ)) (n : Nat)
    (h : ∀ s ∈ samples, s = []) : ∀ s ∈ resizeSamples samples n, s = [] := by
  intro s hs
  simp only [resizeSamples, List.mem_append, List.mem_replicate] at hs
  rcases hs with hs | hs
  · exact h s (List.mem_of_mem_take hs)
  · exact hs.2

theorem fmt_not_data (id : Arr4) (h : tagIs id fmtTag = true) : tagIs id dataTag = false := by
  rw [(tagIs_iff _ _).1 h]
  decide

theorem chunkStep_inv (id : Arr4) (size : Nat) (d : Data) (f : List Byte)
    (id1 : Arr4) (size1 : Nat) (d1 : Data) (f1 : List Byte)
    (hlen : d.samples.length = d.num_channels) (hempty : ∀ s ∈ d.samples, s = [])
    (h : chunkStep id size d f = .next id1 size1 d1 f1) :
    d1.samples.length = d1.num_channels ∧
    (tagIs id1 dataTag = true → ∀ s ∈ d1.samples, getNumSamples d1 = some s.length) ∧
    (tagIs id1 dataTag = false → ∀ s ∈ d1.samples, s = []) := by
  unfold chunkStep at h
  simp only at h
  generalize freadArr 4 id f = r1 at h
  generalize freadUInt 4 size r1.2 = r2 at h
  by_cases hf : tagIs r1.1 fmtTag = true
  · simp only [hf, if_true] at h
    injection h with e1 e2 e3 e4
    subst e1 e3
    have hnd := fmt_not_data _ hf
    refine ⟨resizeSamples_length _ _, fun hd => ?_, fun _ => ?_⟩
    · rw [hnd] at hd
      cases hd
    · exact resizeSamples_empty _ _ hempty
  · have hf' : tagIs r1.1 fmtTag = false := by simpa using hf
    by_cases hd : tagIs r1.1 dataTag = true
    · simp only [hf', hd, if_true] at h
      cases hn : getNumSamples { d with data_chunk_id := r1.1, data_chunk_size := r2.1 } with
      | none => simp [hn] at h
      | some num_samples =>
        simp only [hn] at h
        by_cases hs : supportedBits d.bits_per_sample = true
        · simp only [hs] at h
          cases hl : loadFrames d.bits_per_sample d.num_channels num_samples
              ⟨d.samples, Arr4.zero, r2.2⟩ with
          | error e =>
            rw [hl] at h
            cases e <;> simp at h
          | ok s =>
            rw [hl] at h
            simp only [Bool.not_true, Bool.false_eq_true, if_false] at h
            injection h with e1 e2 e3 e4
            subst e1 e3
            obtain ⟨k1, k2⟩ := loadFrames_length _ _ _ _ _ hl hlen.symm
            simp only at k1 k2
            refine ⟨k1, fun _ x hx => ?_, fun hnd => ?_⟩
            · obtain ⟨i, hi, rfl⟩ := List.mem_iff_getElem.1 hx
              have hi' : i < d.num_channels := by rw [← k1]; exact hi
              have hk := k2 i hi'
              have h0 : d.samples.getD i [] = [] := by
                have hi2 : i < d.samples.length := by rw [hlen]; exact hi'
                rw [List.getD_eq_getElem _ _ hi2]
                exact hempty _ (List.getElem_mem _)
              rw [List.getD_eq_getElem _ _ hi, h0] at hk
              simp only [List.length_nil, Nat.zero_add] at hk
              rw [hk]
              exact hn
            · rw [hd] at hnd
              cases hnd
        · have hs' : supportedBits d.bits_per_sample = false := by simpa using hs
          simp [hs'] at h
    · have hd' : tagIs r1.1 dataTag = false := by simpa using hd
      simp only [hf', hd'] at h
      injection h with e1 e2 e3 e4
      subst e1 e3
      refine ⟨hlen, fun hx => ?_, fun _ => hempty⟩
      rw [hd'] at hx
      cases hx

theorem chunkStep_not_true (id : Arr4) (size : Nat) (d d1 : Data) (f : List Byte) :
    chunkStep id size d f ≠ .done (.returned true d1) := by
  unfold chunkStep
  simp only
  intro h
  split at h
  · cases h
  · split at h
    · split at h
      · cases h
      · split at h
        · cases h
        · split at h <;> cases h
    · cases h

theorem loadLoop_inv (fuel : Nat) (id : Arr4) (size : Nat) (d : Data) (f : List Byte) (d1 : Data)
    (hlen : d.samples.length = d.num_channels)
    (hdata : tagIs id dataTag = true → ∀ s ∈ d.samples, getNumSamples d = some s.length)
    (hother : tagIs id dataTag = false → ∀ s ∈ d.samples, s = [])
    (h : loadLoop fuel id size d f = .returned true d1) :
    d1.samples.length = d1.num_channels ∧ ∀ s ∈ d1.samples, getNumSamples d1 = some s.length := by
  induction fuel generalizing id size d f with
  | zero =>
    by_cases hid : tagIs id dataTag = true
    · rw [loadLoop_data _ _ _ _ _ hid] at h
      injection h with _ e
      subst e
      exact ⟨hlen, hdata hid⟩
    · have hid' : tagIs id dataTag = false := by simpa using hid
      rw [loadLoop_zero _ _ _ _ hid'] at h
      cases h
  | succ fuel ih =>
    by_cases hid : tagIs id dataTag = true
    · rw [loadLoop_data _ _ _ _ _ hid] at h
      injection h with _ e
      subst e
      exact ⟨hlen, hdata hid⟩
    · have hid' : tagIs id dataTag = false := by simpa using hid
      rw [loadLoop_succ _ _ _ _ _ hid'] at h
      cases hc : chunkStep id size d f with
      | done o =>
        rw [hc] at h
        simp only at h
        subst h
        exact absurd hc (chunkStep_not_true _ _ _ _ _)
      | next id2 size2 d2 f2 =>
        rw [hc] at h
        simp only at h
        obtain ⟨k1, k2, k3⟩ := chunkStep_inv _ _ _ _ _ _ _ _ hlen (hother hid') hc
        exact ih id2 size2 d2 f2 k1 k2 k3 h

theorem supportedBits_iff (bits : Nat) :
    supportedBits bits = true ↔ bits = 8 ∨ bits = 16 ∨ bits = 24 ∨ bits = 32 := by
  simp [supportedBits, or_assoc]

theorem decodeSample_full (bits : Nat) (buf : Arr4) (f : List Byte)
    (hs : supportedBits bits = true) (hf : bits / 8 ≤ f.length) :
    ∃ v buf1, decodeSample bits buf f = some (v, buf1, f.drop (bits / 8)) ∧
      decodeValue bits (f.take (bits / 8)) = some v := by
  rcases (supportedBits_iff bits).1 hs with h | h | h | h <;> subst h
  · match f, hf with
    | b0 :: rest, _ =>
      exact ⟨(((b0.val : Int) - 0x80 : Int) : ℚ) / 0x80, ⟨b0, buf.b1, buf.b2, buf.b3⟩,
        by simp [decodeSample, freadArr_one], by simp [decodeValue, decodeSample, freadArr_one]⟩
  · match f, hf with
    | b0 :: b1 :: rest, _ =>
      exact ⟨(toSigned 16 ((b1.val <<< 8) ||| b0.val) : ℚ) / 0x8000,
        ⟨b0, b1, buf.b2, buf.b3⟩,
        by simp [decodeSample, freadArr_two], by simp [decodeValue, decodeSample, freadArr_two]⟩
  · match f, hf with
    | b0 :: b1 :: b2 :: rest, _ =>
      exact ⟨(toSigned 32 (signExtend24 ((b2.val <<< 16) ||| (b1.val <<< 8) ||| b0.val)) : ℚ)
          / 0x800000, ⟨b0, b1, b2, buf.b3⟩,
        by simp [decodeSample, freadArr_three],
        by simp [decodeValue, decodeSample, freadArr_three]⟩
  · match f, hf with
    | b0 :: b1 :: b2 :: b3 :: rest, _ =>
      exact ⟨(toSigned 32 ((b3.val <<< 24) ||| (b2.val <<< 16) ||| (b1.val <<< 8) ||| b0.val) : ℚ)
          / 0x80000000, ⟨b0, b1, b2, b3⟩,
        by simp [decodeSample, freadArr_four],
        by simp [decodeValue, decodeSample, freadArr_four]⟩

theorem loadChannels_full (bits : Nat) (hs : supportedBits bits = true) (count ch : Nat)
    (s : Reader) (hf : count * (bits / 8) ≤ s.f.length) (hch : ch + count ≤ s.samples.length) :
    ∃ s1, loadChannels bits count ch s = .ok s1 ∧ s1.f = s.f.drop (count * (bits / 8)) ∧
      s1.samples.length = s.samples.length ∧
      ∀ i, (s1.samples.getD i []).map some =
        if ch ≤ i ∧ i < ch + count then
          (s.samples.getD i []).map some ++
            [decodeValue bits ((s.f.drop ((i - ch) * (bits / 8))).take (bits / 8))]
        else (s.samples.getD i []).map some := by
  induction count generalizing ch s with
  | zero =>
    refine ⟨s, rfl, by simp, rfl, fun i => ?_⟩
    have : ¬ (ch ≤ i ∧ i < ch + 0) := by omega
    rw [if_neg this]
  | succ count ih =>
    have hB : bits / 8 ≤ s.f.length := by
      have : (count + 1) * (bits / 8) = count * (bits / 8) + bits / 8 := by ring
      omega
    obtain ⟨v, buf1, hd, hv⟩ := decodeSample_full bits s.buf s.f hs hB
    have hlt : ch < s.samples.length := by omega
    have hp : pushSample s.samples ch v
        = some (s.samples.set ch (s.samples.getD ch [] ++ [v])) := by
      simp [pushSample, hlt]
    obtain ⟨_, hlen, hget⟩ := pushSample_some _ _ _ _ hp
    obtain ⟨s1, h1, h2, h3, h4⟩ := ih (ch + 1)
      ⟨s.samples.set ch (s.samples.getD ch [] ++ [v]), buf1, s.f.drop (bits / 8)⟩
      (by simp only [List.length_drop]
          have : (count + 1) * (bits / 8) = count * (bits / 8) + bits / 8 := by ring
          omega)
      (by simp only [List.length_set]; omega)
    simp only at h2 h3 h4
    refine ⟨s1, ?_, ?_, ?_, fun i => ?_⟩
    · simp only [loadChannels, hd, hp]
      exact h1
    · rw [h2, List.drop_drop]
      congr 1
      ring
    · rw [h3, hlen]
    · rw [h4 i, hget i]
      by_cases hi : i = ch
      · subst hi
        have e1 : ¬ (i + 1 ≤ i ∧ i < i + 1 + count) := by omega
        have e2 : (i ≤ i ∧ i < i + (count + 1)) := by omega
        simp [e1, e2, hv]
      · by_cases hr : ch + 1 ≤ i ∧ i < ch + 1 + count
        · have e2 : (ch ≤ i ∧ i < ch + (count + 1)) := by omega
          have e3 : bits / 8 + (i - (ch + 1)) * (bits / 8) = (i - ch) * (bits / 8) := by
            have : i - ch = (i - (ch + 1)) + 1 := by omega
            rw [this]
            ring
          simp only [hi, hr, e2, if_true, if_false, and_self, List.drop_drop, e3]
        · have e2 : ¬ (ch ≤ i ∧ i < ch + (count + 1)) := by omega
          simp [hi, hr, e2]

theorem loadFrames_full (bits nc : Nat) (hs : supportedBits bits = true) (count : Nat)
    (s : Reader) (hf : count * nc * (bits / 8) ≤ s.f.length) (hnc : nc = s.samples.length) :
    ∃ s1, loadFrames bits nc count s = .ok s1 ∧ s1.samples.length = nc ∧
      ∀ c, c < nc → (s1.samples.getD c []).map some =
        (s.samples.getD c []).map some ++
          (List.range count).map (fun k =>
            decodeValue bits ((s.f.drop ((k * nc + c) * (bits / 8))).take (bits / 8))) := by
  induction count generalizing s with
  | zero => exact ⟨s, rfl, hnc.symm, fun c _ => by simp⟩
  | succ count ih =>
    have hsplit : (count + 1) * nc * (bits / 8) = count * nc * (bits / 8) + nc * (bits / 8) := by
      ring
    obtain ⟨s1, h1, h2, h3, h4⟩ := loadChannels_full bits hs nc 0 s (by omega) (by omega)
    obtain ⟨s2, k1, k2, k3⟩ := ih s1
      (by rw [h2, List.length_drop]; omega) (by rw [h3]; exact hnc)
    refine ⟨s2, ?_, k2, fun c hc => ?_⟩
    · simp only [loadFrames, h1]
      exact k1
    · rw [k3 c hc, h4 c]
      have e : (0 ≤ c ∧ c < 0 + nc) := by omega
      rw [if_pos e, List.range_succ_eq_map, List.map_cons, List.map_map, List.append_assoc,
        List.singleton_append]
      refine congrArg (fun l => List.map some (s.samples.getD c []) ++ l) ?_
      refine List.cons_eq_cons.2 ⟨?_, ?_⟩
      · simp only [Nat.sub_zero, Nat.zero_mul, Nat.zero_add]
      · apply List.map_congr_left
        intro k _
        have e3 : nc * (bits / 8) + (k * nc + c) * (bits / 8)
            = ((k + 1) * nc + c) * (bits / 8) := by ring
        simp only [Function.comp, h2, List.drop_drop, Nat.succ_eq_add_one, e3]

theorem chunkStep_data (id : Arr4) (size : Nat) (d : Data) (L N : Nat) (payload : List Byte)
    (s1 : Reader) (hL : L < 2 ^ 32)
    (hN : getNumSamples { d with data_chunk_id := dataTag, data_chunk_size := L } = some N)
    (hs : supportedBits d.bits_per_sample = true)
    (hl : loadFrames d.bits_per_sample d.num_channels N ⟨d.samples, Arr4.zero, payload⟩ = .ok s1) :
    chunkStep id size d (dataTag.toList ++ (toLE 4 L ++ payload)) =
      .next dataTag L
        { d with data_chunk_id := dataTag, data_chunk_size := L, samples := s1.samples } s1.f := by
  have h1 : freadArr 4 id (dataTag.toList ++ (toLE 4 L ++ payload))
      = (dataTag, toLE 4 L ++ payload) := freadArr_tag _ _ _
  have h2 : freadUInt 4 size (toLE 4 L ++ payload) = (L, payload) :=
    freadUInt_full 4 size L _ (by norm_num; exact hL)
  have h3 : tagIs dataTag fmtTag = false := by decide
  have h4 : tagIs dataTag dataTag = true := by decide
  unfold chunkStep
  simp only [h1, h2, h3, h4, hN, hs, hl, Bool.not_true, Bool.false_eq_true, if_false, if_true]

theorem readFmt_fields (id : Arr4) (size : Nat) (d : Data)
    (af nc rate br ba bits : Nat) (haf : af < 2 ^ 16) (hnc : nc < 2 ^ 16) (hrate : rate < 2 ^ 32)
    (hbr : br < 2 ^ 32) (hba : ba < 2 ^ 16) (hbits : bits < 2 ^ 16) :
    (readFmt id size d
      (toLE 2 af ++ (toLE 2 nc ++ (toLE 4 rate ++ (toLE 4 br ++ (toLE 2 ba ++ toLE 2 bits)))))).1
    = { d with fmt_chunk_id := id, fmt_chunk_size := size, audio_format := af,
               num_channels := nc, sample_rate := rate, byte_rate := br, block_align := ba,
               bits_per_sample := bits, samples := resizeSamples d.samples nc } := by
  have e1 := fun old rest => freadUInt_full 2 old af rest (by norm_num; exact haf)
  have e2 := fun old rest => freadUInt_full 2 old nc rest (by norm_num; exact hnc)
  have e3 := fun old rest => freadUInt_full 4 old rate rest (by norm_num; exact hrate)
  have e4 := fun old rest => freadUInt_full 4 old br rest (by norm_num; exact hbr)
  have e5 := fun old rest => freadUInt_full 2 old ba rest (by norm_num; exact hba)
  have e6 := fun old => freadUInt_full 2 old bits [] (by norm_num; exact hbits)
  simp only [List.append_nil] at e6
  simp only [readFmt, e1, e2, e3, e4, e5, e6]

theorem readRiff_samples (d : Data) (f : List Byte) : (readRiff d f).1.samples = d.samples := rfl

theorem getSample_of_map (samples : List (List ℚ)) (c k : Nat) (g : Nat → Option ℚ) (N : Nat)
    (hc : c < samples.length) (hk : k < N)
    (h : (samples.getD c []).map some = (List.range N).map g) :
    getSample samples c k = g k := by
  have h1 : samples[c]? = some (samples.getD c []) := by
    rw [List.getD_eq_getElem _ _ hc]
    exact List.getElem?_eq_getElem hc
  have h2 : Option.map some ((samples.getD c [])[k]?) = some (g k) := by
    rw [← List.getElem?_map, h, List.getElem?_map, List.getElem?_range hk]
    rfl
  simp only [getSample, h1]
  cases hx : (samples.getD c [])[k]? with
  | none =>
    rw [hx] at h2
    cases h2
  | some x =>
    rw [hx] at h2
    exact Option.some.inj h2

theorem load_structured (fuel : Nat) (stale_id : Arr4) (stale_size : Nat)
    (riff : List Byte) (pre mid : List Chunk)
    (size audio_format C sample_rate byte_rate block_align bits L N : Nat)
    (payload : List Byte)
    (hstale : tagIs stale_id dataTag = false) (hriff : riff.length = 12)
    (hpre : ∀ c ∈ pre, c.skippable) (hmid : ∀ c ∈ mid, c.skippable)
    (hsize : size < 2 ^ 32) (haf : audio_format < 2 ^ 16) (hC : C < 2 ^ 16) (hC0 : 0 < C)
    (hrate : sample_rate < 2 ^ 32) (hbr : byte_rate < 2 ^ 32) (hba : block_align < 2 ^ 16)
    (hbits : supportedBits bits = true) (hL : L < 2 ^ 32)
    (hN : N = 8 * L % 2 ^ 32 / (C * bits))
    (hpay : N * C * (bits / 8) ≤ payload.length)
    (hfuel : pre.length + mid.length + 2 ≤ fuel) :
    ∃ d, load fuel stale_id stale_size none (some (riff ++ (chunksBytes pre ++
          (fmtChunk size audio_format C sample_rate byte_rate block_align bits ++
            (chunksBytes mid ++ (dataTag.toList ++ (toLE 4 L ++ payload)))))))
          = .returned true d ∧
      d.num_channels = C ∧ d.bits_per_sample = bits ∧ d.data_chunk_size = L ∧
      getNumSamples d = some N ∧ d.samples.length = C ∧
      (∀ c k, c < C → k < N →
        getSample d.samples c k
          = decodeValue bits ((payload.drop ((k * C + c) * (bits / 8))).take (bits / 8))) ∧
      (d.samples.map List.length).sum = N * C := by
  have hb16 : bits < 2 ^ 16 := by
    rcases (supportedBits_iff bits).1 hbits with h | h | h | h <;> subst h <;> norm_num
  have hb0 : 0 < bits := by
    rcases (supportedBits_iff bits).1 hbits with h | h | h | h <;> subst h <;> norm_num
  have hb32 : bits ≤ 32 := by
    rcases (supportedBits_iff bits).1 hbits with h | h | h | h <;> subst h <;> norm_num
  let body : List Byte := toLE 2 audio_format ++ (toLE 2 C ++ (toLE 4 sample_rate ++
    (toLE 4 byte_rate ++ (toLE 2 block_align ++ toLE 2 bits))))
  let fmtC : Chunk := ⟨fmtTag, size, body⟩
  have hfmtwf : fmtC.wf := by
    refine ⟨show tagIs fmtTag dataTag = false by decide, hsize, ?_⟩
    have : tagIs fmtC.tag fmtTag = true := show tagIs fmtTag fmtTag = true by decide
    rw [if_pos this]
    simp [fmtC, body, toLE_length]
  have hcs : ∀ c ∈ pre ++ fmtC :: mid, c.wf := by
    intro c hc
    rcases List.mem_append.1 hc with h | h
    · exact (hpre c h).wf
    · rcases List.mem_cons.1 h with h | h
      · rw [h]; exact hfmtwf
      · exact (hmid c h).wf
  have hbytes : chunksBytes pre ++
      (fmtChunk size audio_format C sample_rate byte_rate block_align bits ++
        (chunksBytes mid ++ (dataTag.toList ++ (toLE 4 L ++ payload))))
      = chunksBytes (pre ++ fmtC :: mid) ++ (dataTag.toList ++ (toLE 4 L ++ payload)) := by
    simp [chunksBytes_append, chunksBytes, Chunk.bytes, fmtChunk, fmtC, body, List.append_assoc]
  have hlen : (pre ++ fmtC :: mid).length = pre.length + mid.length + 1 := by
    simp; omega
  have hnotlt : ¬ fuel < (pre ++ fmtC :: mid).length := by omega
  obtain ⟨m, hm⟩ : ∃ m, fuel - (pre ++ fmtC :: mid).length = m + 1 :=
    ⟨fuel - (pre ++ fmtC :: mid).length - 1, by omega⟩
  have hwt := walkTag_not_data stale_id _ hstale hcs
  -- the object when the data chunk is reached
  have hwalk : walkData (readRiff Data.fresh riff).1 (pre ++ fmtC :: mid)
      = { (readRiff Data.fresh riff).1 with
            fmt_chunk_id := fmtTag, fmt_chunk_size := size, audio_format := audio_format,
            num_channels := C, sample_rate := sample_rate, byte_rate := byte_rate,
            block_align := block_align, bits_per_sample := bits,
            samples := List.replicate C [] } := by
    have hft : tagIs fmtC.tag fmtTag = true := show tagIs fmtTag fmtTag = true by decide
    simp only [walkData, List.foldl_append, List.foldl_cons]
    rw [show List.foldl stepData (readRiff Data.fresh riff).1 pre
        = walkData (readRiff Data.fresh riff).1 pre from rfl, walkData_skippable _ _ hpre]
    rw [show ∀ x, List.foldl stepData x mid = walkData x mid from fun _ => rfl,
      walkData_skippable _ _ hmid]
    simp only [stepData, hft, if_true]
    rw [readFmt_fields _ _ _ _ _ _ _ _ _ haf hC hrate hbr hba hb16]
    simp [readRiff_samples, Data.fresh, resizeSamples]
  have hmod : (C * bits) % 2 ^ 32 = C * bits := by
    apply Nat.mod_eq_of_lt
    calc C * bits ≤ C * 32 := Nat.mul_le_mul_left _ hb32
      _ < 2 ^ 32 := by omega
  have hpos : 0 < C * bits := Nat.mul_pos hC0 hb0
  obtain ⟨s1, k1, k2, k3⟩ := loadFrames_full bits C hbits N
    ⟨List.replicate C [], Arr4.zero, payload⟩ hpay (by simp)
  refine ⟨{ (readRiff Data.fresh riff).1 with
            fmt_chunk_id := fmtTag, fmt_chunk_size := size, audio_format := audio_format,
            num_channels := C, sample_rate := sample_rate, byte_rate := byte_rate,
            block_align := block_align, bits_per_sample := bits,
            data_chunk_id := dataTag, data_chunk_size := L,
            samples := s1.samples }, ?_, rfl, rfl, rfl, ?_, k2, ?_, ?_⟩
  · rw [hbytes, load_riff _ _ _ _ _ _ hriff, loadLoop_walk _ hcs _ _ _ _ _ hstale, if_neg hnotlt,
      hm, loadLoop_succ _ _ _ _ _ hwt, Option.getD_none, hwalk]
    rw [chunkStep_data _ _ _ L N payload s1 hL
      (by simp only [getNumSamples, hmod]
          rw [if_neg (by omega)]
          rw [hN])
      hbits k1]
    exact loadLoop_data _ _ _ _ _ (by decide)
  · simp only [getNumSamples, hmod]
    rw [if_neg (by omega), hN]
  · intro c k hc hk
    have h3 := k3 c hc
    simp only [List.getD_eq_getElem?_getD, List.getElem?_replicate, hc, if_true,
      Option.getD_some, List.map_nil, List.nil_append] at h3
    rw [← List.getD_eq_getElem?_getD] at h3
    exact getSample_of_map _ _ _ _ _ (by rw [k2]; exact hc) hk h3
  · have hall : ∀ x ∈ s1.samples.map List.length, x = N := by
      intro x hx
      obtain ⟨l, hl, rfl⟩ := List.mem_map.1 hx
      obtain ⟨i, hi, rfl⟩ := List.mem_iff_getElem.1 hl
      have hi' : i < C := by rw [← k2]; exact hi
      have h3 := congrArg List.length (k3 i hi')
      simp only [List.getD_eq_getElem?_getD, List.getElem?_replicate, hi', if_true,
        Option.getD_some, List.map_nil, List.nil_append, List.length_map, List.length_range] at h3
      rw [List.getElem?_eq_getElem hi] at h3
      simpa using h3
    rw [List.sum_eq_card_nsmul _ N hall]
    simp [k2, Nat.mul_comm]

/-- C4: a load into a fresh object, entered with a tag buffer that does not hold
`"data"`, of a file made of the RIFF descriptor, unknown chunks, one PCM `"fmt "` chunk
declaring `C ≥ 1` channels and a supported depth, more unknown chunks and a data chunk
whose payload is fully present, returns success; element `k` of channel `c` is the
decoding of the `bits / 8` payload bytes at offset `(k * C + c) * (bits / 8)`, and
`N * C` values are decoded in all, `N` being the sample count `getNumSamples` reports. -/
theorem load_interleaving (fuel : Nat) (stale_id : Arr4) (stale_size : Nat)
    (riff : List Byte) (pre mid : List Chunk)
    (size audio_format C sample_rate byte_rate block_align bits L N : Nat)
    (payload : List Byte)
    (hstale : tagIs stale_id dataTag = false) (hriff : riff.length = 12)
    (hpre : ∀ c ∈ pre, c.skippable) (hmid : ∀ c ∈ mid, c.skippable)
    (hsize : size < 2 ^ 32) (haf : audio_format < 2 ^ 16) (hC : C < 2 ^ 16) (hC0 : 0 < C)
    (hrate : sample_rate < 2 ^ 32) (hbr : byte_rate < 2 ^ 32) (hba : block_align < 2 ^ 16)
    (hbits : supportedBits bits = true) (hL : L < 2 ^ 32)
    (hN : N = 8 * L % 2 ^ 32 / (C * bits))
    (hpay : N * C * (bits / 8) ≤ payload.length)
    (hfuel : pre.length + mid.length + 2 ≤ fuel) :
    ∃ d, load fuel stale_id stale_size none (some (riff ++ (chunksBytes pre ++
          (fmtChunk size audio_format C sample_rate byte_rate block_align bits ++
            (chunksBytes mid ++ (dataTag.toList ++ (toLE 4 L ++ payload)))))))
          = .returned true d ∧
      d.num_channels = C ∧ d.bits_per_sample = bits ∧ d.data_chunk_size = L ∧
      getNumSamples d = some N ∧ d.samples.length = C ∧
      (∀ c k, c < C → k < N →
        getSample d.samples c k
          = decodeValue bits ((payload.drop ((k * C + c) * (bits / 8))).take (bits / 8))) ∧
      (d.samples.map List.length).sum = N * C :=
  load_structured fuel stale_id stale_size riff pre mid size audio_format C sample_rate
    byte_rate block_align bits L N payload hstale hriff hpre hmid hsize haf hC hC0 hrate hbr
    hba hbits hL hN hpay hfuel

theorem header_length (d : Data) : (header d).length = 44 := by
  simp [header, toLE_length, Arr4.toList]

theorem encodeSample_isSome (bits : Nat) (v : ℚ) :
    (encodeSample bits v).isSome = supportedBits bits := by
  unfold encodeSample supportedBits
  by_cases h8 : bits = 8
  · simp [h8]
  · by_cases h16 : bits = 16
    · simp [h16]
    · by_cases h24 : bits = 24
      · simp [h24]
      · by_cases h32 : bits = 32
        · simp [h32]
        · simp [h8, h16, h24, h32]

theorem encodeSample_none (bits : Nat) (v : ℚ) (h : encodeSample bits v = none) :
    supportedBits bits = false := by
  rw [← encodeSample_isSome bits v, h]
  rfl

theorem encodeSample_some (bits : Nat) (v : ℚ) (bs : List Byte)
    (h : encodeSample bits v = some bs) : supportedBits bits = true := by
  rw [← encodeSample_isSome bits v, h]
  rfl

theorem writeChannels_returned (d : Data) (idx count ch : Nat) (out : List Byte) (b : Bool)
    (out1 : List Byte) (h : writeChannels d idx count ch out = .error (.returned b out1)) :
    supportedBits d.bits_per_sample = false ∧ b = false ∧ out1 = out := by
  induction count generalizing ch out with
  | zero => simp [writeChannels] at h
  | succ count ih =>
    simp only [writeChannels] at h
    cases hg : getSample d.samples ch idx with
    | none => simp [hg] at h
    | some v =>
      simp only [hg] at h
      cases he : encodeSample d.bits_per_sample v with
      | none =>
        simp only [he] at h
        injection h with h
        injection h with h1 h2
        exact ⟨encodeSample_none _ _ he, h1.symm, h2.symm⟩
      | some bs =>
        simp only [he] at h
        have h1 := (ih _ _ h).1
        rw [encodeSample_some _ _ _ he] at h1
        cases h1

theorem writeChannels_ok_unsupported (d : Data) (idx count ch : Nat) (out out1 : List Byte)
    (hs : supportedBits d.bits_per_sample = false)
    (h : writeChannels d idx count ch out = .ok out1) : out1 = out := by
  cases count with
  | zero =>
    simp only [writeChannels] at h
    injection h with h
    exact h.symm
  | succ count =>
    simp only [writeChannels] at h
    cases hg : getSample d.samples ch idx with
    | none => simp [hg] at h
    | some v =>
      simp only [hg] at h
      cases he : encodeSample d.bits_per_sample v with
      | none => simp [he] at h
      | some bs =>
        rw [encodeSample_some _ _ _ he] at hs
        cases hs

theorem writeFrames_returned (d : Data) (count idx : Nat) (out : List Byte) (b : Bool)
    (out1 : List Byte) (h : writeFrames d count idx out = .error (.returned b out1)) :
    supportedBits d.bits_per_sample = false ∧ b = false ∧ out1 = out := by
  induction count generalizing idx out with
  | zero => simp [writeFrames] at h
  | succ count ih =>
    simp only [writeFrames] at h
    cases hc : writeChannels d idx d.num_channels 0 out with
    | error e =>
      simp only [hc] at h
      injection h with h
      subst h
      exact writeChannels_returned _ _ _ _ _ _ _ hc
    | ok out2 =>
      simp only [hc] at h
      obtain ⟨k1, k2, k3⟩ := ih _ _ h
      exact ⟨k1, k2, by rw [k3, writeChannels_ok_unsupported _ _ _ _ _ _ k1 hc]⟩

theorem clamp_range_idem (v : ℚ) : clamp_range (clamp_range v) = clamp_range v := by
  unfold clamp_range
  split_ifs <;> first | rfl | linarith

theorem encodeSample_clamp (bits : Nat) (v : ℚ) :
    encodeSample bits (clamp_range v) = encodeSample bits v := by
  simp only [encodeSample, clamp_range_idem]

theorem getSample_map (samples : List (List ℚ)) (g : ℚ → ℚ) (c k : Nat) :
    getSample (samples.map (List.map g)) c k = (getSample samples c k).map g := by
  simp only [getSample, List.getElem?_map]
  cases samples[c]? with
  | none => rfl
  | some s => simp [List.getElem?_map]

theorem writeChannels_clamp (d : Data) (idx count ch : Nat) (out : List Byte) :
    writeChannels { d with samples := d.samples.map (List.map clamp_range) } idx count ch out
      = writeChannels d idx count ch out := by
  induction count generalizing ch out with
  | zero => rfl
  | succ count ih =>
    simp only [writeChannels, getSample_map]
    cases hg : getSample d.samples ch idx with
    | none => rfl
    | some v =>
      simp only [Option.map_some', encodeSample_clamp]
      cases he : encodeSample d.bits_per_sample v with
      | none => rfl
      | some bs => exact ih _ _

theorem writeFrames_clamp (d : Data) (count idx : Nat) (out : List Byte) :
    writeFrames { d with samples := d.samples.map (List.map clamp_range) } count idx out
      = writeFrames d count idx out := by
  induction count generalizing idx out with
  | zero => rfl
  | succ count ih =>
    simp only [writeFrames, writeChannels_clamp]
    cases hc : writeChannels d idx d.num_channels 0 out with
    | error e => rfl
    | ok out2 => exact ih _ _

theorem write_of_clamped (openable : Bool) (d : Data) :
    write openable { d with samples := d.samples.map (List.map clamp_range) }
      = write openable d := by
  have hn : getNumSamples { d with samples := d.samples.map (List.map clamp_range) }
      = getNumSamples d := rfl
  have hh : header { d with samples := d.samples.map (List.map clamp_range) } = header d := rfl
  simp only [write, hn, hh, writeFrames_clamp]

theorem loadLoop_mono (fuel k : Nat) (id : Arr4) (size : Nat) (d : Data) (f : List Byte)
    (o : Outcome) (h : loadLoop fuel id size d f = o) (ho : o ≠ .outOfFuel) :
    loadLoop (fuel + k) id size d f = o := by
  induction fuel generalizing id size d f with
  | zero =>
    by_cases hid : tagIs id dataTag = true
    · rw [loadLoop_data _ _ _ _ _ hid] at h ⊢
      exact h
    · have hid' : tagIs id dataTag = false := by simpa using hid
      rw [loadLoop_zero _ _ _ _ hid'] at h
      exact absurd h.symm ho
  | succ fuel ih =>
    by_cases hid : tagIs id dataTag = true
    · rw [loadLoop_data _ _ _ _ _ hid] at h ⊢
      exact h
    · have hid' : tagIs id dataTag = false := by simpa using hid
      have e : fuel + 1 + k = (fuel + k) + 1 := by omega
      rw [loadLoop_succ _ _ _ _ _ hid'] at h
      rw [e, loadLoop_succ _ _ _ _ _ hid']
      cases hc : chunkStep id size d f with
      | done o1 =>
        rw [hc] at h
        exact h
      | next id1 size1 d1 f1 =>
        rw [hc] at h
        exact ih _ _ _ _ h

theorem load_demoFile (fuel : Nat) (stale_id : Arr4) (stale_size : Nat)
    (hs : tagIs stale_id dataTag = false) :
    load (fuel + 2) stale_id stale_size none (some demoFile) = .returned true demoData := by
  have h0 : loadLoop 2 Arr4.zero 0 (readRiff Data.fresh demoFile).1
      (readRiff Data.fresh demoFile).2 = .returned true demoData := by decide!
  have hlen : 8 ≤ (readRiff Data.fresh demoFile).2.length := by decide
  have h1 := loadLoop_mono 2 fuel _ _ _ _ _ h0 (by simp)
  have e : fuel + 2 = 2 + fuel := by omega
  simp only [load, Option.getD_none]
  rw [e, loadLoop_stale _ stale_id Arr4.zero stale_size 0 _ _ hlen hs (by decide)]
  exact h1

/-- C1: a 16-bit sample with low byte `b0` and high byte `b1` decodes to `n / 32768`,
`n` the two's-complement 16-bit integer of the two bytes; the mono 16-bit 8000 Hz file
with data bytes `00 00 FF 7F` loads to channel 0 `[0, 32767/32768]`, two samples,
duration `2/8000` s. -/
theorem decode16_spec :
    (∀ (b0 b1 : Byte) (buf : Arr4) (rest : List Byte),
      decodeSample 16 buf (b0 :: b1 :: rest)
        = some (((if b0.val + 256 * b1.val < 32768 then ((b0.val + 256 * b1.val : Nat) : Int)
                  else ((b0.val + 256 * b1.val : Nat) : Int) - 65536 : Int) : ℚ) / 32768,
                ⟨b0, b1, buf.b2, buf.b3⟩, rest)) ∧
    (∀ (fuel : Nat) (stale_id : Arr4) (stale_size : Nat), tagIs stale_id dataTag = false →
      load (fuel + 2) stale_id stale_size none (some demoFile) = .returned true demoData) ∧
    demoData.num_channels = 1 ∧ demoData.bits_per_sample = 16 ∧ demoData.sample_rate = 8000 ∧
    demoData.samples = [[0, 32767 / 32768]] ∧
    getNumSamples demoData = some 2 ∧
    getDurationSeconds demoData = some (2 / 8000) := by
  refine ⟨fun b0 b1 buf rest => decodeSample_16 buf b0 b1 rest, load_demoFile, rfl, rfl, rfl,
    rfl, by decide, by decide!⟩

/-- Witness of C1: the load of the demo file with a zeroed tag buffer. -/
theorem decode16_spec_witness :
    load 2 Arr4.zero 0 none (some demoFile) = .returned true demoData :=
  decode16_spec.2.1 0 Arr4.zero 0 (by decide)

/-- C2: a 24-bit sample with bytes `b0 b1 b2` decodes to `n / 8388608`, `n` being
`b0 + 256*b1 + 65536*b2`, minus `16777216` exactly when the top bit of `b2` is set;
`00 00 80` decodes to `-1` and `FF FF FF` to `-1/8388608`. -/
theorem decode24_spec :
    (∀ (b0 b1 b2 : Byte) (buf : Arr4) (rest : List Byte),
      decodeSample 24 buf (b0 :: b1 :: b2 :: rest)
        = some (((if 128 ≤ b2.val
                  then ((b0.val + 256 * b1.val + 65536 * b2.val : Nat) : Int) - 16777216
                  else ((b0.val + 256 * b1.val + 65536 * b2.val : Nat) : Int) : Int) : ℚ)
                  / 8388608,
                ⟨b0, b1, b2, buf.b3⟩, rest)) ∧
    decodeValue 24 [0x00, 0x00, 0x80] = some (-1) ∧
    decodeValue 24 [0xFF, 0xFF, 0xFF] = some (-1 / 8388608) := by
  refine ⟨fun b0 b1 b2 buf rest => decodeSample_24 buf b0 b1 b2 rest, by decide!, by decide!⟩

/-- C3: an 8-bit sample byte `b` decodes to `(b - 128) / 128`; byte 128 decodes to 0,
byte 0 to `-1`, byte 255 to `127/128`. -/
theorem decode8_spec :
    (∀ (b : Byte) (buf : Arr4) (rest : List Byte),
      decodeSample 8 buf (b :: rest)
        = some ((((b.val : Int) - 128 : Int) : ℚ) / 128, ⟨b, buf.b1, buf.b2, buf.b3⟩, rest)) ∧
    decodeValue 8 [128] = some 0 ∧
    decodeValue 8 [0] = some (-1) ∧
    decodeValue 8 [255] = some (127 / 128) := by
  refine ⟨fun b buf rest => decodeSample_8 buf b rest, by decide!, by decide!, by decide!⟩

/-- Witness of C4: a stereo 16-bit file with a `"JUNK"` chunk before the data chunk. -/
theorem load_interleaving_witness :
    ∃ d, load 3 Arr4.zero 0 none (some (demoRiff ++ (chunksBytes [] ++
          (fmtChunk 16 1 2 8000 32000 4 16 ++
            (chunksBytes [junkChunk] ++ (dataTag.toList ++ (toLE 4 8 ++ stereoPayload)))))))
          = .returned true d ∧
      d.num_channels = 2 ∧ d.bits_per_sample = 16 ∧ d.data_chunk_size = 8 ∧
      getNumSamples d = some 2 ∧ d.samples.length = 2 ∧
      (∀ c k, c < 2 → k < 2 →
        getSample d.samples c k
          = decodeValue 16 ((stereoPayload.drop ((k * 2 + c) * (16 / 8))).take (16 / 8))) ∧
      (d.samples.map List.length).sum = 2 * 2 :=
  load_interleaving 3 Arr4.zero 0 demoRiff [] [junkChunk] 16 1 2 8000 32000 4 16 8 2
    stereoPayload (by decide) (by decide) (by simp) (by decide) (by decide) (by decide)
    (by decide) (by decide) (by decide) (by decide) (by decide) (by decide) (by decide)
    (by decide) (by decide) (by decide)

/-- C5: when `load` into a fresh object returns success, there are `num_channels`
channel sequences, each of the length `getNumSamples` reports for the loaded header,
so all of the same length. -/
theorem load_channel_lengths (fuel : Nat) (stale_id : Arr4) (stale_size : Nat)
    (file : Option (List Byte)) (d : Data)
    (h : load fuel stale_id stale_size none file = .returned true d) :
    d.samples.length = d.num_channels ∧
    (∀ s ∈ d.samples, getNumSamples d = some s.length) ∧
    (∀ s ∈ d.samples, ∀ t ∈ d.samples, s.length = t.length) := by
  cases file with
  | none => simp [load] at h
  | some f =>
    simp only [load, Option.getD_none] at h
    have hinv := loadLoop_inv fuel stale_id stale_size _ _ d
      (show (readRiff Data.fresh f).1.samples.length = (readRiff Data.fresh f).1.num_channels
        from rfl)
      (fun _ s hs => by rw [readRiff_samples] at hs; cases hs)
      (fun _ s hs => by rw [readRiff_samples] at hs; cases hs) h
    refine ⟨hinv.1, hinv.2, fun s hs t ht => ?_⟩
    have h1 := hinv.2 s hs
    have h2 := hinv.2 t ht
    rw [h1] at h2
    exact Option.some.inj h2

/-- Witness of C5: the demo file. -/
theorem load_channel_lengths_witness :
    demoData.samples.length = demoData.num_channels ∧
    (∀ s ∈ demoData.samples, getNumSamples demoData = some s.length) ∧
    (∀ s ∈ demoData.samples, ∀ t ∈ demoData.samples, s.length = t.length) :=
  load_channel_lengths 2 Arr4.zero 0 (some demoFile) demoData (by decide!)

/-- Witness of C6: the chunk `"JUNK"` of declared length 8 between the `"fmt "` chunk and
the data chunk of the demo file. -/
theorem load_skips_unknown_chunk_witness :
    load 3 Arr4.zero 0 none
        (some (demoRiff ++ (chunksBytes [demoFmt] ++ (junkChunk.bytes ++ demoDataChunk))))
      = load 2 Arr4.zero 0 none (some (demoRiff ++ (chunksBytes [demoFmt] ++ demoDataChunk))) :=
  load_skips_unknown_chunk 2 Arr4.zero 0 none demoRiff [demoFmt] junkChunk demoDataChunk
    (by decide) (by decide) (by decide) (by decide)

/-- C7: evaluation at the failing input.  With `bits_per_sample = 0` in the `"fmt "`
chunk, `load` reaches the data chunk and divides by zero in `getNumSamples` before the
depth check, so it does not return `false`; with depth 12 it returns `false` and has
decoded no sample. -/
theorem load_zero_depth_divides_by_zero :
    load 2 Arr4.zero 0 none (some zeroDepthFile) = .divByZero ∧
    load 2 Arr4.zero 0 none (some depth12File) = .returned false depth12Data ∧
    depth12Data.samples = [[]] := by
  refine ⟨by decide!, by decide!, rfl⟩

/-- C8: evaluation at the failing input.  The object a failed load of a depth-12 file
with an empty data chunk leaves behind has depth 12 and sample count 0; the sample loop
of `write` is not entered, the `default` case is not reached, and `write` returns
`true` after emitting the header. -/
theorem write_depth12_empty_returns_true :
    load 2 Arr4.zero 0 none (some depth12EmptyFile) = .returned false depth12Empty ∧
    supportedBits depth12Empty.bits_per_sample = false ∧
    getNumSamples depth12Empty = some 0 ∧
    write true depth12Empty = .returned true (header depth12Empty) := by
  refine ⟨by decide!, by decide, by decide, by decide!⟩

/-- C9 as stated fails: with depth 12 and one sample, `write` returns `false` after it
has emitted the 44 header bytes. -/
theorem write_depth12_output_not_empty :
    write true depth12One = .returned false (header depth12One) ∧
    (header depth12One).length = 44 ∧ header depth12One ≠ [] := by
  refine ⟨by decide!, by decide, by decide⟩

/-- C9, amended: when `write` to an openable destination returns `false`, the bit depth
is unsupported and the bytes emitted are exactly the 44-byte header: no sample byte. -/
theorem write_failure_emits_header_only (d : Data) (out : List Byte)
    (h : write true d = .returned false out) :
    supportedBits d.bits_per_sample = false ∧ out = header d ∧ out.length = 44 := by
  simp only [write, Bool.not_true, Bool.false_eq_true, if_false] at h
  cases hn : getNumSamples d with
  | none => simp [hn] at h
  | some n =>
    simp only [hn] at h
    cases hw : writeFrames d n 0 (header d) with
    | ok out1 => simp [hw] at h
    | error e =>
      simp only [hw] at h
      subst h
      obtain ⟨k1, _, k3⟩ := writeFrames_returned _ _ _ _ _ _ hw
      exact ⟨k1, k3, by rw [k3, header_length]⟩

/-- Witness of C9, amended: depth 12 with one sample. -/
theorem write_failure_emits_header_only_witness :
    supportedBits depth12One.bits_per_sample = false ∧
    header depth12One = header depth12One ∧ (header depth12One).length = 44 :=
  write_failure_emits_header_only depth12One (header depth12One) (by decide!)

/-- C10: at every supported bit depth a sample is encoded, a sample above 1 is encoded
as 1 is, a sample below -1 as -1 is, `clamp_range` returns a value of `[-1, 1]`
unchanged, and `write` as a whole only depends on the clamped samples. -/
theorem write_clamps (bits : Nat) (v : ℚ) (hb : supportedBits bits = true) :
    (encodeSample bits v).isSome = true ∧
    (1 < v → encodeSample bits v = encodeSample bits 1) ∧
    (v < -1 → encodeSample bits v = encodeSample bits (-1)) ∧
    (-1 ≤ v → v ≤ 1 → clamp_range v = v) ∧
    (∀ (openable : Bool) (d : Data),
      write openable { d with samples := d.samples.map (List.map clamp_range) }
        = write openable d) := by
  refine ⟨by rw [encodeSample_isSome, hb], fun h => ?_, fun h => ?_, fun h1 h2 => ?_,
    write_of_clamped⟩
  · have e : clamp_range v = clamp_range 1 := by
      unfold clamp_range
      split_ifs <;> first | rfl | linarith
    simp only [encodeSample, e]
  · have e : clamp_range v = clamp_range (-1) := by
      unfold clamp_range
      split_ifs <;> first | rfl | linarith
    simp only [encodeSample, e]
  · unfold clamp_range
    split_ifs <;> first | rfl | linarith

/-- Witness of C10: the value 2 at depth 16 is written as the bytes `FF 7F` of 1. -/
theorem write_clamps_witness :
    encodeSample 16 2 = encodeSample 16 1 ∧ encodeSample 16 1 = some [0xFF, 0x7F] :=
  ⟨(write_clamps 16 2 (by decide)).2.1 (by norm_num), by decide!⟩

theorem truncToInt_eq (q : ℚ) : truncToInt q = if 0 ≤ q then ⌊q⌋ else ⌈q⌉ := by
  unfold truncToInt
  by_cases h : 0 ≤ q
  · rw [if_pos h, Rat.floor_def, Int.tdiv_eq_ediv (Rat.num_nonneg.2 h) (Int.natCast_nonneg _)]
  · rw [if_neg h]
    have h1 : ⌈q⌉ = -⌊-q⌋ := by rw [Int.floor_neg, neg_neg]
    have h2 : 0 ≤ (-q).num := Rat.num_nonneg.2 (by linarith)
    have h3 : (-q).num = -q.num := Rat.neg_num q
    have h4 : (-q).den = q.den := Rat.neg_den q
    rw [h1, Rat.floor_def, h3, h4, ← Int.tdiv_eq_ediv (by rw [← h3]; exact h2)
      (Int.natCast_nonneg _), Int.neg_tdiv, neg_neg]

theorem truncToInt_of_nonneg (q : ℚ) (m : Int) (h0 : 0 ≤ q) (h1 : (m : ℚ) ≤ q)
    (h2 : q < (m : ℚ) + 1) : truncToInt q = m := by
  rw [truncToInt_eq, if_pos h0]
  exact Int.floor_eq_iff.2 ⟨h1, h2⟩

theorem truncToInt_of_nonpos (q : ℚ) (m : Int) (h0 : q ≤ 0) (h1 : (m : ℚ) - 1 < q)
    (h2 : q ≤ (m : ℚ)) : truncToInt q = m := by
  rw [truncToInt_eq]
  by_cases h : 0 ≤ q
  · have hq : q = 0 := le_antisymm h0 h
    subst hq
    rw [if_pos h]
    have hm0 : (0 : ℚ) ≤ (m : ℚ) := h2
    have hm1 : (m : ℚ) < 1 := by linarith
    have a : 0 ≤ m := by exact_mod_cast hm0
    have b : m < 1 := by exact_mod_cast hm1
    have : m = 0 := by omega
    subst this
    simp
  · rw [if_neg h]
    exact Int.ceil_eq_iff.2 ⟨h1, h2⟩

theorem clamp_range_of_mem (v : ℚ) (h1 : -1 ≤ v) (h2 : v ≤ 1) : clamp_range v = v := by
  unfold clamp_range
  split_ifs <;> first | rfl | linarith

theorem clamp_range_bounds (v : ℚ) : -1 ≤ clamp_range v ∧ clamp_range v ≤ 1 := by
  unfold clamp_range
  split_ifs <;> constructor <;> linarith

theorem roundtrip16_int (n : Int) (h1 : -32768 ≤ n) (h2 : n ≤ 32767) :
    truncToInt (clamp_range ((n : ℚ) / 0x8000) * 0x7FFF)
      = if 0 < n then n - 1 else if n < 0 then n + 1 else 0 := by
  have c1 : (-32768 : ℚ) ≤ (n : ℚ) := by exact_mod_cast h1
  have c2 : (n : ℚ) ≤ 32767 := by exact_mod_cast h2
  have hc : clamp_range ((n : ℚ) / 0x8000) = (n : ℚ) / 0x8000 := by
    apply clamp_range_of_mem
    · rw [le_div_iff₀ (by norm_num)]; linarith
    · rw [div_le_iff₀ (by norm_num)]; linarith
  rw [hc]
  have hq : (n : ℚ) / 0x8000 * 0x7FFF = (n : ℚ) - (n : ℚ) / 32768 := by
    field_simp
    ring
  rw [hq]
  by_cases hp : 0 < n
  · rw [if_pos hp]
    have c3 : (0 : ℚ) < (n : ℚ) := by exact_mod_cast hp
    have c4 : (n : ℚ) / 32768 < 1 := by rw [div_lt_iff₀ (by norm_num)]; linarith
    have c5 : 0 < (n : ℚ) / 32768 := by positivity
    have c6 : (n : ℚ) / 32768 ≤ (n : ℚ) := by
      rw [div_le_iff₀ (by norm_num)]; linarith
    apply truncToInt_of_nonneg
    · linarith
    · push_cast; linarith
    · push_cast; linarith
  · rw [if_neg hp]
    by_cases hn : n < 0
    · rw [if_pos hn]
      have c3 : (n : ℚ) < 0 := by exact_mod_cast hn
      have c4 : -1 ≤ (n : ℚ) / 32768 := by rw [le_div_iff₀ (by norm_num)]; linarith
      have c5 : (n : ℚ) / 32768 < 0 := by
        rw [div_lt_iff₀ (by norm_num)]; linarith
      have c6 : (n : ℚ) ≤ (n : ℚ) / 32768 := by
        rw [le_div_iff₀ (by norm_num)]; linarith
      apply truncToInt_of_nonpos
      · linarith
      · push_cast; linarith
      · push_cast; linarith
    · rw [if_neg hn]
      have : n = 0 := by omega
      subst this
      simp [truncToInt]

theorem shiftRight_natCast (m : Int) (n : Nat) : m >>> (n : Int) = m / ((2 ^ n : Nat) : Int) := by
  cases m with
  | ofNat k =>
    rw [Int.ofNat_eq_coe, Int.shiftRight_coe_nat, Nat.shiftRight_eq_div_pow]
    exact Int.natCast_div _ _
  | negSucc k =>
    rw [Int.shiftRight_negSucc, Nat.shiftRight_eq_div_pow,
      Int.negSucc_ediv _ (by exact_mod_cast Nat.pos_pow_of_pos n (by norm_num))]
    rw [Int.negSucc_eq]
    push_cast
    rfl

theorem shiftRight8 (t : Int) : t >>> 8 = t / 256 := by
  have h := shiftRight_natCast t 8
  simpa using h

theorem shiftRight16 (t : Int) : t >>> 16 = t / 65536 := by
  have h := shiftRight_natCast t 16
  simpa using h

theorem shiftRight24 (t : Int) : t >>> 24 = t / 16777216 := by
  have h := shiftRight_natCast t 24
  simpa using h

theorem bytes_le2 (t : Int) :
    [byteOfInt t, byteOfInt (t >>> 8)] = toLE 2 (t % 65536).toNat := by
  have e0 : (t % 256).toNat = (t % 65536).toNat % 256 := by omega
  have e1 : (t / 256 % 256).toNat = (t % 65536).toNat / 256 % 256 := by omega
  simp only [toLE, byteOfInt, shiftRight8, e0, e1]

theorem bytes_le3 (t : Int) :
    [byteOfInt t, byteOfInt (t >>> 8), byteOfInt (t >>> 16)] = toLE 3 (t % 16777216).toNat := by
  have e0 : (t % 256).toNat = (t % 16777216).toNat % 256 := by omega
  have e1 : (t / 256 % 256).toNat = (t % 16777216).toNat / 256 % 256 := by omega
  have e2 : (t / 65536 % 256).toNat = (t % 16777216).toNat / 256 / 256 % 256 := by omega
  simp only [toLE, byteOfInt, shiftRight8, shiftRight16, e0, e1, e2]

theorem bytes_le4 (t : Int) :
    [byteOfInt t, byteOfInt (t >>> 8), byteOfInt (t >>> 16), byteOfInt (t >>> 24)]
      = toLE 4 (t % 4294967296).toNat := by
  have e0 : (t % 256).toNat = (t % 4294967296).toNat % 256 := by omega
  have e1 : (t / 256 % 256).toNat = (t % 4294967296).toNat / 256 % 256 := by omega
  have e2 : (t / 65536 % 256).toNat = (t % 4294967296).toNat / 256 / 256 % 256 := by omega
  have e3 : (t / 16777216 % 256).toNat = (t % 4294967296).toNat / 256 / 256 / 256 % 256 := by
    omega
  simp only [toLE, byteOfInt, shiftRight8, shiftRight16, shiftRight24, e0, e1, e2, e3]

theorem scaled_bounds (c k : ℚ) (hk : 0 ≤ k) (h1 : -1 ≤ c) (h2 : c ≤ 1) :
    -k ≤ c * k ∧ c * k ≤ k := by
  constructor <;> nlinarith

theorem truncToInt_bounds (q : ℚ) (m : Int) (h1 : -(m : ℚ) ≤ q) (h2 : q ≤ (m : ℚ)) :
    -m ≤ truncToInt q ∧ truncToInt q ≤ m := by
  rw [truncToInt_eq]
  by_cases h : 0 ≤ q
  · rw [if_pos h]
    constructor
    · have : (0 : ℚ) ≤ (m : ℚ) := le_trans h h2
      have hm : 0 ≤ m := by exact_mod_cast this
      have : 0 ≤ ⌊q⌋ := Int.floor_nonneg.2 h
      omega
    · have : (⌊q⌋ : ℚ) ≤ q := Int.floor_le q
      have : ((⌊q⌋ : Int) : ℚ) ≤ (m : ℚ) := le_trans this h2
      exact_mod_cast this
  · rw [if_neg h]
    have hq : q < 0 := lt_of_not_ge h
    constructor
    · have : q ≤ (⌈q⌉ : ℚ) := Int.le_ceil q
      have : ((-m : Int) : ℚ) ≤ ((⌈q⌉ : Int) : ℚ) := by push_cast; linarith
      exact_mod_cast this
    · have : ⌈q⌉ ≤ 0 := Int.ceil_le.2 (by push_cast; linarith)
      have hm0 : (0 : ℚ) ≤ (m : ℚ) := by linarith
      have hm : 0 ≤ m := by exact_mod_cast hm0
      omega

/-- With the exact rationals as sample type and `c` the clamped sample, `encodeSample`
gives at depth 16, 24 and 32 the low 2, 3 and 4 little-endian bytes of the
two's-complement integer `trunc (c * 32767)`, `trunc (c * 8388607)` and
`trunc (c * 2147483647)`, and at depth 8 the single byte `trunc ((c + 1) / 2 * 255)`,
which lies in `0..255`; `-1` gives byte 0 and `1` gives byte 255.  `trunc` rounds toward
zero and the scaled value fits the integer type. -/
theorem encodeSample_exact (v : ℚ) :
    (-1 ≤ clamp_range v ∧ clamp_range v ≤ 1) ∧
    (∀ q : ℚ, truncToInt q = if 0 ≤ q then ⌊q⌋ else ⌈q⌉) ∧
    encodeSample 16 v = some (toLE 2 (truncToInt (clamp_range v * 32767) % 65536).toNat) ∧
    encodeSample 24 v = some (toLE 3 (truncToInt (clamp_range v * 8388607) % 16777216).toNat) ∧
    encodeSample 32 v
      = some (toLE 4 (truncToInt (clamp_range v * 2147483647) % 4294967296).toNat) ∧
    (-32767 ≤ truncToInt (clamp_range v * 32767) ∧ truncToInt (clamp_range v * 32767) ≤ 32767) ∧
    (-8388607 ≤ truncToInt (clamp_range v * 8388607) ∧
      truncToInt (clamp_range v * 8388607) ≤ 8388607) ∧
    (-2147483647 ≤ truncToInt (clamp_range v * 2147483647) ∧
      truncToInt (clamp_range v * 2147483647) ≤ 2147483647) ∧
    (∃ b : Byte, encodeSample 8 v = some [b] ∧
      (b.val : Int) = truncToInt ((clamp_range v + 1) / 2 * 255)) ∧
    encodeSample 8 (-1) = some [0] ∧ encodeSample 8 1 = some [255] := by
  obtain ⟨c1, c2⟩ := clamp_range_bounds v
  have b16 := scaled_bounds (clamp_range v) 32767 (by norm_num) c1 c2
  have b24 := scaled_bounds (clamp_range v) 8388607 (by norm_num) c1 c2
  have b32 := scaled_bounds (clamp_range v) 2147483647 (by norm_num) c1 c2
  refine ⟨⟨c1, c2⟩, truncToInt_eq, ?_, ?_, ?_, ?_, ?_, ?_, ?_, by decide!, by decide!⟩
  · simp only [encodeSample]
    norm_num
    exact bytes_le2 _
  · simp only [encodeSample]
    norm_num
    exact bytes_le3 _
  · simp only [encodeSample]
    norm_num
    exact bytes_le4 _
  · have := truncToInt_bounds (clamp_range v * 32767) 32767 (by push_cast; exact b16.1)
      (by push_cast; exact b16.2)
    exact this
  · have := truncToInt_bounds (clamp_range v * 8388607) 8388607 (by push_cast; exact b24.1)
      (by push_cast; exact b24.2)
    exact this
  · have := truncToInt_bounds (clamp_range v * 2147483647) 2147483647
      (by push_cast; exact b32.1) (by push_cast; exact b32.2)
    exact this
  · have h0 : (0 : ℚ) ≤ (clamp_range v + 1) / 2 * 255 := by
      have : 0 ≤ clamp_range v + 1 := by linarith
      positivity
    have h1 : (clamp_range v + 1) / 2 * 255 ≤ 255 := by
      have : (clamp_range v + 1) / 2 ≤ 1 := by
        rw [div_le_iff₀ (by norm_num)]; linarith
      nlinarith
    have hb := truncToInt_bounds ((clamp_range v + 1) / 2 * 255) 255
      (by push_cast; linarith) (by push_cast; exact h1)
    have hnn : 0 ≤ truncToInt ((clamp_range v + 1) / 2 * 255) := by
      rw [truncToInt_eq, if_pos h0]
      exact Int.floor_nonneg.2 h0
    refine ⟨byteOfInt (truncToInt ((clamp_range v + 1) / 2 * 255)), ?_, ?_⟩
    · simp only [encodeSample]
      norm_num
    · simp only [byteOfInt, Fin.ofNat, Fin.val_mk]
      omega

theorem toSigned16_bounds (u : Nat) : -32768 ≤ toSigned 16 u ∧ toSigned 16 u ≤ 32767 := by
  unfold toSigned
  have h : u % 2 ^ 16 < 2 ^ 16 := Nat.mod_lt _ (by norm_num)
  split_ifs with h1 <;> norm_num at h h1 ⊢ <;> omega

theorem decodeValue_16 (b0 b1 : Byte) :
    decodeValue 16 [b0, b1] = some ((toSigned 16 (b0.val + 256 * b1.val) : ℚ) / 32768) := by
  simp only [decodeValue, decodeSample, freadArr_two, shl8_or]
  norm_num

theorem decodeValue_16_toLE (m : Int) (h1 : -32768 ≤ m) (h2 : m ≤ 32767) :
    decodeValue 16 (toLE 2 (m % 65536).toNat) = some ((m : ℚ) / 32768) := by
  have hx : (m % 65536).toNat < 65536 := by omega
  have e : toLE 2 (m % 65536).toNat
      = [Fin.ofNat ((m % 65536).toNat % 256), Fin.ofNat ((m % 65536).toNat / 256 % 256)] := rfl
  have hv : ((Fin.ofNat ((m % 65536).toNat % 256) : Byte).val
      + 256 * (Fin.ofNat ((m % 65536).toNat / 256 % 256) : Byte).val) = (m % 65536).toNat := by
    simp only [Fin.ofNat, Fin.val_mk]
    omega
  rw [e, decodeValue_16, hv, toSigned16_eq _ (by norm_num; exact hx)]
  have : (if (m % 65536).toNat < 32768 then (((m % 65536).toNat : Nat) : Int)
      else (((m % 65536).toNat : Nat) : Int) - 65536) = m := by
    split_ifs <;> omega
  rw [this]

theorem encodeSample_16_decoded (n : Int) (h1 : -32768 ≤ n) (h2 : n ≤ 32767) :
    encodeSample 16 ((n : ℚ) / 32768)
      = some (toLE 2 ((if 0 < n then n - 1 else if n < 0 then n + 1 else 0) % 65536).toNat) := by
  have h := roundtrip16_int n h1 h2
  norm_num at h
  simp only [encodeSample]
  norm_num
  rw [h]
  exact bytes_le2 _

theorem roundtrip16_values (n : Int) (h1 : -32768 ≤ n) (h2 : n ≤ 32767) :
    (-32768 ≤ (if 0 < n then n - 1 else if n < 0 then n + 1 else 0) ∧
      (if 0 < n then n - 1 else if n < 0 then n + 1 else 0) ≤ 32767) ∧
    ((((if 0 < n then n - 1 else if n < 0 then n + 1 else 0 : Int) : ℚ) / 32768
        = (n : ℚ) / 32768) ↔ (n : ℚ) / 32768 = 0) ∧
    |((if 0 < n then n - 1 else if n < 0 then n + 1 else 0 : Int) : ℚ) / 32768
        - (n : ℚ) / 32768| ≤ 1 / 32768 ∧
    |((if 0 < n then n - 1 else if n < 0 then n + 1 else 0 : Int) : ℚ) / 32768|
        ≤ |(n : ℚ) / 32768| := by
  by_cases hp : 0 < n
  · have c : (0 : ℚ) < (n : ℚ) := by exact_mod_cast hp
    have c1 : (1 : ℚ) ≤ (n : ℚ) := by exact_mod_cast hp
    simp only [if_pos hp]
    refine ⟨by omega, ?_, ?_, ?_⟩
    · constructor
      · intro h
        have h3 := (div_left_inj' (by norm_num : (32768 : ℚ) ≠ 0)).1 h
        push_cast at h3
        linarith
      · intro h
        have : (n : ℚ) = 0 := by
          rcases div_eq_zero_iff.1 h with h | h
          · exact h
          · norm_num at h
        linarith
    · push_cast
      rw [← sub_div, abs_le]
      constructor <;> norm_num
    · push_cast
      rw [abs_of_nonneg (by apply div_nonneg <;> linarith),
        abs_of_nonneg (by apply div_nonneg <;> linarith)]
      apply div_le_div_of_nonneg_right <;> linarith
  · by_cases hn : n < 0
    · have c : (n : ℚ) < 0 := by exact_mod_cast hn
      have c1 : (n : ℚ) ≤ -1 := by
        have : n ≤ -1 := by omega
        exact_mod_cast this
      simp only [if_neg hp, if_pos hn]
      refine ⟨by omega, ?_, ?_, ?_⟩
      · constructor
        · intro h
          have h3 := (div_left_inj' (by norm_num : (32768 : ℚ) ≠ 0)).1 h
          push_cast at h3
          linarith
        · intro h
          have : (n : ℚ) = 0 := by
            rcases div_eq_zero_iff.1 h with h | h
            · exact h
            · norm_num at h
          linarith
      · push_cast
        rw [← sub_div, abs_le]
        constructor <;> norm_num
      · push_cast
        rw [abs_of_nonpos (by apply div_nonpos_of_nonpos_of_nonneg <;> linarith),
          abs_of_nonpos (by apply div_nonpos_of_nonpos_of_nonneg <;> linarith)]
        rw [neg_le_neg_iff]
        apply div_le_div_of_nonneg_right <;> linarith
    · have h0 : n = 0 := by omega
      subst h0
      simp

/-- C12 as stated fails: the sample 1 (bytes `01 00`) decodes to `1/32768`, is encoded
as `00 00`, and that decodes to `0`. -/
theorem roundtrip16_not_stable :
    decodeValue 16 [0x01, 0x00] = some (1 / 32768) ∧
    encodeSample 16 (1 / 32768) = some [0x00, 0x00] ∧
    decodeValue 16 [0x00, 0x00] = some 0 ∧
    (0 : ℚ) ≠ 1 / 32768 := by
  refine ⟨by decide!, by decide!, by decide!, by norm_num⟩

/-- C12, amended: for every 16-bit sample, decoding, encoding and decoding again gives
a value within one step `1/32768` of the first decode and no larger in magnitude; the two
values agree exactly when the sample is 0. -/
theorem roundtrip16_within_one_step (b0 b1 : Byte) :
    ∃ v w : ℚ, ∃ bs : List Byte,
      decodeValue 16 [b0, b1] = some v ∧ encodeSample 16 v = some bs ∧
      decodeValue 16 bs = some w ∧
      (w = v ↔ v = 0) ∧ |w - v| ≤ 1 / 32768 ∧ |w| ≤ |v| := by
  obtain ⟨h1, h2⟩ := toSigned16_bounds (b0.val + 256 * b1.val)
  obtain ⟨hm, k1, k2, k3⟩ := roundtrip16_values _ h1 h2
  exact ⟨_, _, _, decodeValue_16 b0 b1, encodeSample_16_decoded _ h1 h2,
    decodeValue_16_toLE _ hm.1 hm.2, k1, k2, k3⟩

/-- C18: one decode-then-encode pass at 16 bits moves every non-zero sample one step
toward zero: `trunc (clamp (n / 32768) * 32767)` is `n - 1` for `n > 0`, `n + 1` for
`n < 0` and `0` for `n = 0`; at the byte level the sample with bytes `b0 b1` is written
back as the two low bytes of that integer, and `-32768` (bytes `00 80`) becomes `-32767`
(bytes `01 80`). -/
theorem roundtrip16_steps_toward_zero :
    (∀ n : Int, -32768 ≤ n → n ≤ 32767 →
      truncToInt (clamp_range ((n : ℚ) / 32768) * 32767)
        = if 0 < n then n - 1 else if n < 0 then n + 1 else 0) ∧
    (∀ b0 b1 : Byte, ∃ v : ℚ, decodeValue 16 [b0, b1] = some v ∧
      encodeSample 16 v = some (toLE 2
        ((if 0 < toSigned 16 (b0.val + 256 * b1.val)
           then toSigned 16 (b0.val + 256 * b1.val) - 1
           else if toSigned 16 (b0.val + 256 * b1.val) < 0
           then toSigned 16 (b0.val + 256 * b1.val) + 1 else 0) % 65536).toNat)) ∧
    decodeValue 16 [0x00, 0x80] = some (-1) ∧
    encodeSample 16 (-1) = some [0x01, 0x80] ∧
    toSigned 16 (0x01 + 256 * 0x80) = -32767 := by
  refine ⟨fun n h1 h2 => ?_, fun b0 b1 => ?_, by decide!, by decide!, by decide⟩
  · have h := roundtrip16_int n h1 h2
    norm_num at h
    exact h
  · obtain ⟨h1, h2⟩ := toSigned16_bounds (b0.val + 256 * b1.val)
    exact ⟨_, decodeValue_16 b0 b1, encodeSample_16_decoded _ h1 h2⟩

/-- Witness of C18: the most negative sample. -/
theorem roundtrip16_steps_toward_zero_witness :
    truncToInt (clamp_range (((-32768 : Int) : ℚ) / 32768) * 32767)
      = if (0 : Int) < -32768 then -32768 - 1 else if (-32768 : Int) < 0 then -32768 + 1 else 0 :=
  roundtrip16_steps_toward_zero.1 (-32768) (by decide) (by decide)

theorem ratio_bounds (n D : Int) (hD : 0 < D) (h1 : -D ≤ n) (h2 : n ≤ D - 1) :
    -1 ≤ (n : ℚ) / (D : ℚ) ∧ (n : ℚ) / (D : ℚ) < 1 ∧
    (n : ℚ) / (D : ℚ) ≤ ((D : ℚ) - 1) / (D : ℚ) ∧
    ((n : ℚ) / (D : ℚ) = -1 ↔ n = -D) ∧
    ((n : ℚ) / (D : ℚ) = ((D : ℚ) - 1) / (D : ℚ) ↔ n = D - 1) := by
  have hDq : (0 : ℚ) < (D : ℚ) := by exact_mod_cast hD
  have c1 : -(D : ℚ) ≤ (n : ℚ) := by exact_mod_cast h1
  have c2 : (n : ℚ) ≤ (D : ℚ) - 1 := by exact_mod_cast h2
  refine ⟨?_, ?_, ?_, ?_, ?_⟩
  · rw [le_div_iff₀ hDq]; linarith
  · rw [div_lt_iff₀ hDq]; linarith
  · exact div_le_div_of_nonneg_right c2 hDq.le
  · rw [div_eq_iff hDq.ne']
    constructor
    · intro h
      have : (n : ℚ) = ((-D : Int) : ℚ) := by push_cast; linarith
      exact_mod_cast this
    · intro h
      rw [h]; push_cast; ring
  · rw [div_left_inj' hDq.ne']
    constructor
    · intro h
      have : (n : ℚ) = ((D - 1 : Int) : ℚ) := by push_cast; linarith
      exact_mod_cast this
    · intro h
      rw [h]; push_cast; ring

theorem decodeValue_8 (b : Byte) :
    decodeValue 8 [b] = some ((((b.val : Int) - 128 : Int) : ℚ) / ((128 : Int) : ℚ)) := by
  simp only [decodeValue, decodeSample, freadArr_one]
  norm_num

theorem decodeValue_16' (b0 b1 : Byte) :
    decodeValue 16 [b0, b1]
      = some ((toSigned 16 (b0.val + 256 * b1.val) : ℚ) / ((32768 : Int) : ℚ)) := by
  rw [decodeValue_16]
  norm_num

theorem decodeValue_24 (b0 b1 b2 : Byte) :
    decodeValue 24 [b0, b1, b2]
      = some (((if 128 ≤ b2.val
                then ((b0.val + 256 * b1.val + 65536 * b2.val : Nat) : Int) - 16777216
                else ((b0.val + 256 * b1.val + 65536 * b2.val : Nat) : Int) : Int) : ℚ)
              / ((8388608 : Int) : ℚ)) := by
  have h := decodeSample_24 Arr4.zero b0 b1 b2 []
  simp only [decodeValue, h]
  norm_num

theorem decodeValue_32 (b0 b1 b2 b3 : Byte) :
    decodeValue 32 [b0, b1, b2, b3]
      = some ((toSigned 32 (b0.val + 256 * b1.val + 65536 * b2.val + 16777216 * b3.val) : ℚ)
              / ((2147483648 : Int) : ℚ)) := by
  simp only [decodeValue, decodeSample, freadArr_four, shl24_or]
  norm_num

theorem byte_eq_iff (a : Byte) (k : Nat) (hk : k < 256) : a = Fin.ofNat k ↔ a.val = k := by
  rw [Fin.ext_iff]
  simp [Fin.ofNat, Nat.mod_eq_of_lt hk]

theorem toSigned32_bounds (u : Nat) :
    -2147483648 ≤ toSigned 32 u ∧ toSigned 32 u ≤ 2147483647 := by
  unfold toSigned
  have h : u % 2 ^ 32 < 2 ^ 32 := Nat.mod_lt _ (by norm_num)
  split_ifs with h1 <;> norm_num at h h1 ⊢ <;> omega

/-- With the exact rationals as sample type, at every supported bit depth every byte
pattern of a sample decodes to a value `v` with `-1 ≤ v < 1`; `-1` is produced by the
most negative pattern only, the largest value is `(2^(bits-1) - 1) / 2^(bits-1)`,
produced by the most positive pattern only. -/
theorem decodeValue_range (bits : Nat) (bs : List Byte) (hb : supportedBits bits = true)
    (hl : bs.length = bits / 8) :
    ∃ v : ℚ, decodeValue bits bs = some v ∧ -1 ≤ v ∧ v < 1 ∧
      v ≤ ((2 : ℚ) ^ (bits - 1) - 1) / (2 : ℚ) ^ (bits - 1) ∧
      (v = -1 ↔ bs = minPattern bits) ∧
      (v = ((2 : ℚ) ^ (bits - 1) - 1) / (2 : ℚ) ^ (bits - 1) ↔ bs = maxPattern bits) := by
  rcases (supportedBits_iff bits).1 hb with h | h | h | h <;> subst h
  · match bs, hl with
    | [b], _ =>
      have hlt := b.isLt
      obtain ⟨r1, r2, r3, r4, r5⟩ := ratio_bounds ((b.val : Int) - 128) 128 (by norm_num)
        (by omega) (by omega)
      refine ⟨_, decodeValue_8 b, r1, r2, ?_, ?_, ?_⟩
      · norm_num at r3 ⊢
        exact r3
      · rw [r4]
        simp only [minPattern, if_true, List.cons.injEq, and_true]
        rw [show (0x00 : Byte) = Fin.ofNat 0 from rfl, byte_eq_iff _ _ (by norm_num)]
        omega
      · norm_num at r5 ⊢
        rw [r5]
        simp only [maxPattern, if_true, List.cons.injEq, and_true]
        rw [show (0xFF : Byte) = Fin.ofNat 255 from rfl, byte_eq_iff _ _ (by norm_num)]
        omega
  · match bs, hl with
    | [b0, b1], _ =>
      have hlt0 := b0.isLt
      have hlt1 := b1.isLt
      have hu : b0.val + 256 * b1.val < 2 ^ 16 := by omega
      obtain ⟨k1, k2⟩ := toSigned16_bounds (b0.val + 256 * b1.val)
      obtain ⟨r1, r2, r3, r4, r5⟩ := ratio_bounds (toSigned 16 (b0.val + 256 * b1.val)) 32768
        (by norm_num) (by omega) (by omega)
      have e := toSigned16_eq _ hu
      refine ⟨_, decodeValue_16' b0 b1, r1, r2, ?_, ?_, ?_⟩
      · norm_num at r3 ⊢
        exact r3
      · rw [r4, e]
        simp only [minPattern, List.cons.injEq, and_true]
        norm_num
        rw [show (0 : Byte) = Fin.ofNat 0 from rfl, show (128 : Byte) = Fin.ofNat 128 from rfl,
          byte_eq_iff _ _ (by norm_num), byte_eq_iff _ _ (by norm_num)]
        split_ifs <;> omega
      · norm_num at r5 ⊢
        rw [r5, e]
        simp only [maxPattern, List.cons.injEq, and_true]
        norm_num
        rw [show (255 : Byte) = Fin.ofNat 255 from rfl, show (127 : Byte) = Fin.ofNat 127 from rfl,
          byte_eq_iff _ _ (by norm_num), byte_eq_iff _ _ (by norm_num)]
        split_ifs <;> omega
  · match bs, hl with
    | [b0, b1, b2], _ =>
      have hlt0 := b0.isLt
      have hlt1 := b1.isLt
      have hlt2 := b2.isLt
      obtain ⟨r1, r2, r3, r4, r5⟩ := ratio_bounds
        (if 128 ≤ b2.val
          then ((b0.val + 256 * b1.val + 65536 * b2.val : Nat) : Int) - 16777216
          else ((b0.val + 256 * b1.val + 65536 * b2.val : Nat) : Int)) 8388608
        (by norm_num) (by split_ifs <;> omega) (by split_ifs <;> omega)
      refine ⟨_, decodeValue_24 b0 b1 b2, r1, r2, ?_, ?_, ?_⟩
      · norm_num at r3 ⊢
        exact r3
      · rw [r4]
        simp only [minPattern, List.cons.injEq, and_true]
        norm_num
        rw [show (0 : Byte) = Fin.ofNat 0 from rfl, show (128 : Byte) = Fin.ofNat 128 from rfl,
          byte_eq_iff _ _ (by norm_num), byte_eq_iff _ _ (by norm_num),
          byte_eq_iff _ _ (by norm_num)]
        split_ifs <;> omega
      · norm_num at r5 ⊢
        rw [r5]
        simp only [maxPattern, List.cons.injEq, and_true]
        norm_num
        rw [show (255 : Byte) = Fin.ofNat 255 from rfl, show (127 : Byte) = Fin.ofNat 127 from rfl,
          byte_eq_iff _ _ (by norm_num), byte_eq_iff _ _ (by norm_num),
          byte_eq_iff _ _ (by norm_num)]
        split_ifs <;> omega
  · match bs, hl with
    | [b0, b1, b2, b3], _ =>
      have hlt0 := b0.isLt
      have hlt1 := b1.isLt
      have hlt2 := b2.isLt
      have hlt3 := b3.isLt
      have hu : b0.val + 256 * b1.val + 65536 * b2.val + 16777216 * b3.val < 2 ^ 32 := by omega
      obtain ⟨k1, k2⟩ :=
        toSigned32_bounds (b0.val + 256 * b1.val + 65536 * b2.val + 16777216 * b3.val)
      obtain ⟨r1, r2, r3, r4, r5⟩ := ratio_bounds
        (toSigned 32 (b0.val + 256 * b1.val + 65536 * b2.val + 16777216 * b3.val)) 2147483648
        (by norm_num) (by omega) (by omega)
      have e := toSigned32_eq _ hu
      refine ⟨_, decodeValue_32 b0 b1 b2 b3, r1, r2, ?_, ?_, ?_⟩
      · norm_num at r3 ⊢
        exact r3
      · rw [r4, e]
        simp only [minPattern, List.cons.injEq, and_true]
        norm_num
        rw [show (0 : Byte) = Fin.ofNat 0 from rfl, show (128 : Byte) = Fin.ofNat 128 from rfl,
          byte_eq_iff _ _ (by norm_num), byte_eq_iff _ _ (by norm_num),
          byte_eq_iff _ _ (by norm_num), byte_eq_iff _ _ (by norm_num)]
        split_ifs <;> omega
      · norm_num at r5 ⊢
        rw [r5, e]
        simp only [maxPattern, List.cons.injEq, and_true]
        norm_num
        rw [show (255 : Byte) = Fin.ofNat 255 from rfl, show (127 : Byte) = Fin.ofNat 127 from rfl,
          byte_eq_iff _ _ (by norm_num), byte_eq_iff _ _ (by norm_num),
          byte_eq_iff _ _ (by norm_num), byte_eq_iff _ _ (by norm_num)]
        split_ifs <;> omega

theorem getNumSamples_exact (d : Data) (hnc : d.num_channels < 2 ^ 16)
    (hb : d.bits_per_sample < 2 ^ 16) (h0 : 0 < d.num_channels * d.bits_per_sample)
    (hs : d.data_chunk_size < 2 ^ 29) :
    getNumSamples d = some (d.data_chunk_size * 8 / (d.num_channels * d.bits_per_sample)) := by
  have h1 : d.num_channels * d.bits_per_sample < 2 ^ 32 := by
    have a : d.num_channels ≤ 65535 := by omega
    have b : d.bits_per_sample ≤ 65535 := by omega
    calc d.num_channels * d.bits_per_sample ≤ 65535 * 65535 := Nat.mul_le_mul a b
      _ < 2 ^ 32 := by norm_num
  have h2 : 8 * d.data_chunk_size < 2 ^ 32 := by omega
  simp only [getNumSamples, Nat.mod_eq_of_lt h1, Nat.mod_eq_of_lt h2]
  rw [if_neg (by omega), Nat.mul_comm 8]

/-- C14: evaluation at the failing input.  For a mono 8-bit header with
`data_chunk_size = 2^29` the product `8 * data_chunk_size` wraps to 0 in 32-bit
arithmetic and `getNumSamples` returns 0; the quotient over the integers is `2^29`. -/
theorem getNumSamples_wraps :
    1 ≤ halfGiBHeader.num_channels ∧ 1 ≤ halfGiBHeader.bits_per_sample ∧
    halfGiBHeader.data_chunk_size < 2 ^ 32 ∧
    getNumSamples halfGiBHeader = some 0 ∧
    halfGiBHeader.data_chunk_size * 8
      / (halfGiBHeader.num_channels * halfGiBHeader.bits_per_sample) = 536870912 := by
  refine ⟨by decide, by decide, by decide, by decide, by decide⟩

/-- C15: evaluation at the failing input.  A load of the mono demo file followed by a
load of a stereo file into the same object succeeds twice and leaves channel 0 with four
samples and channel 1 with two. -/
theorem reload_breaks_equal_length :
    load 2 Arr4.zero 0 none (some demoFile) = .returned true demoData ∧
    load 2 Arr4.zero 0 (some demoData) (some stereoFile) = .returned true reloadedData ∧
    reloadedData.samples.map List.length = [4, 2] := by
  refine ⟨by decide!, by decide!, by decide⟩

theorem encodeSample_length (bits : Nat) (v : ℚ) (bs : List Byte)
    (h : encodeSample bits v = some bs) : bs.length = bits / 8 := by
  have hs := encodeSample_some _ _ _ h
  rcases (supportedBits_iff bits).1 hs with e | e | e | e <;> subst e <;>
    simp only [encodeSample] at h <;> norm_num at h <;> rw [← h] <;> rfl

theorem writeChannels_ok_length (d : Data) (idx count ch : Nat) (out out1 : List Byte)
    (h : writeChannels d idx count ch out = .ok out1) :
    ∃ body, out1 = out ++ body ∧ body.length = count * (d.bits_per_sample / 8) := by
  induction count generalizing ch out with
  | zero =>
    simp only [writeChannels] at h
    injection h with h
    exact ⟨[], by simp [h], by simp⟩
  | succ count ih =>
    simp only [writeChannels] at h
    cases hg : getSample d.samples ch idx with
    | none => simp [hg] at h
    | some v =>
      simp only [hg] at h
      cases he : encodeSample d.bits_per_sample v with
      | none => simp [he] at h
      | some bs =>
        simp only [he] at h
        obtain ⟨body, h1, h2⟩ := ih _ _ h
        refine ⟨bs ++ body, by rw [h1, List.append_assoc], ?_⟩
        rw [List.length_append, h2, encodeSample_length _ _ _ he]
        ring

theorem writeFrames_ok_length (d : Data) (count idx : Nat) (out out1 : List Byte)
    (h : writeFrames d count idx out = .ok out1) :
    ∃ body, out1 = out ++ body ∧
      body.length = count * d.num_channels * (d.bits_per_sample / 8) := by
  induction count generalizing idx out with
  | zero =>
    simp only [writeFrames] at h
    injection h with h
    exact ⟨[], by simp [h], by simp⟩
  | succ count ih =>
    simp only [writeFrames] at h
    cases hc : writeChannels d idx d.num_channels 0 out with
    | error e => simp [hc] at h
    | ok out2 =>
      simp only [hc] at h
      obtain ⟨b1, e1, l1⟩ := writeChannels_ok_length _ _ _ _ _ _ hc
      obtain ⟨b2, e2, l2⟩ := ih _ _ h
      refine ⟨b1 ++ b2, by rw [e2, e1, List.append_assoc], ?_⟩
      rw [List.length_append, l1, l2]
      ring

/-- C13: when `write` to an openable destination succeeds, the emitted bytes are the 44
header bytes (the thirteen fields in the order of the canonical header, integers
little-endian, each taken from the object) followed by exactly
`getNumSamples * num_channels * (bits_per_sample / 8)` sample bytes. -/
theorem write_layout (d : Data) (out : List Byte)
    (h : write true d = .returned true out) :
    ∃ (N : Nat) (body : List Byte), getNumSamples d = some N ∧
      out = (d.chunk_id.toList ++ toLE 4 d.chunk_size ++ d.format.toList ++
             d.fmt_chunk_id.toList ++ toLE 4 d.fmt_chunk_size ++ toLE 2 d.audio_format ++
             toLE 2 d.num_channels ++ toLE 4 d.sample_rate ++ toLE 4 d.byte_rate ++
             toLE 2 d.block_align ++ toLE 2 d.bits_per_sample ++
             d.data_chunk_id.toList ++ toLE 4 d.data_chunk_size) ++ body ∧
      out.take 44 = header d ∧
      body.length = N * d.num_channels * (d.bits_per_sample / 8) ∧
      out.length = 44 + N * d.num_channels * (d.bits_per_sample / 8) := by
  simp only [write, Bool.not_true, Bool.false_eq_true, if_false] at h
  cases hn : getNumSamples d with
  | none => simp [hn] at h
  | some N =>
    simp only [hn] at h
    cases hw : writeFrames d N 0 (header d) with
    | error e =>
      simp only [hw] at h
      subst h
      have := (writeFrames_returned _ _ _ _ _ _ hw).2.1
      cases this
    | ok out1 =>
      simp only [hw] at h
      injection h with _ h
      subst h
      obtain ⟨body, e, l⟩ := writeFrames_ok_length _ _ _ _ _ hw
      refine ⟨N, body, rfl, e, ?_, l, ?_⟩
      · rw [e, List.take_left' (header_length d)]
      · rw [e, List.length_append, header_length, l]

/-- Witness of C13: the object loaded from the demo file. -/
theorem write_layout_witness :
    write true demoData = .returned true (header demoData ++ [0x00, 0x00, 0xFE, 0x7F]) ∧
    ∃ (N : Nat) (body : List Byte), getNumSamples demoData = some N ∧
      header demoData ++ [0x00, 0x00, 0xFE, 0x7F]
        = (demoData.chunk_id.toList ++ toLE 4 demoData.chunk_size ++ demoData.format.toList ++
           demoData.fmt_chunk_id.toList ++ toLE 4 demoData.fmt_chunk_size ++
           toLE 2 demoData.audio_format ++ toLE 2 demoData.num_channels ++
           toLE 4 demoData.sample_rate ++ toLE 4 demoData.byte_rate ++
           toLE 2 demoData.block_align ++ toLE 2 demoData.bits_per_sample ++
           demoData.data_chunk_id.toList ++ toLE 4 demoData.data_chunk_size) ++ body ∧
      (header demoData ++ [0x00, 0x00, 0xFE, 0x7F]).take 44 = header demoData ∧
      body.length = N * demoData.num_channels * (demoData.bits_per_sample / 8) ∧
      (header demoData ++ [0x00, 0x00, 0xFE, 0x7F]).length
        = 44 + N * demoData.num_channels * (demoData.bits_per_sample / 8) :=
  ⟨by decide!, write_layout demoData (header demoData ++ [0x00, 0x00, 0xFE, 0x7F]) (by decide!)⟩

theorem chunkStep_data_post (id : Arr4) (size : Nat) (d : Data) (f : List Byte)
    (id1 : Arr4) (size1 : Nat) (d1 : Data) (f1 : List Byte)
    (h : chunkStep id size d f = .next id1 size1 d1 f1) (hd1 : tagIs id1 dataTag = true) :
    supportedBits d1.bits_per_sample = true ∧ ∃ N, getNumSamples d1 = some N := by
  unfold chunkStep at h
  simp only at h
  generalize freadArr 4 id f = r1 at h
  generalize freadUInt 4 size r1.2 = r2 at h
  by_cases hf : tagIs r1.1 fmtTag = true
  · simp only [hf, if_true] at h
    injection h with e1 e2 e3 e4
    subst e1
    rw [fmt_not_data _ hf] at hd1
    cases hd1
  · have hf' : tagIs r1.1 fmtTag = false := by simpa using hf
    by_cases hd : tagIs r1.1 dataTag = true
    · simp only [hf', hd, if_true] at h
      cases hn : getNumSamples { d with data_chunk_id := r1.1, data_chunk_size := r2.1 } with
      | none => simp [hn] at h
      | some num_samples =>
        simp only [hn] at h
        by_cases hs : supportedBits d.bits_per_sample = true
        · simp only [hs] at h
          cases hl : loadFrames d.bits_per_sample d.num_channels num_samples
              ⟨d.samples, Arr4.zero, r2.2⟩ with
          | error e =>
            rw [hl] at h
            cases e <;> simp at h
          | ok s =>
            rw [hl] at h
            simp only [Bool.not_true, Bool.false_eq_true, if_false] at h
            injection h with e1 e2 e3 e4
            subst e3
            exact ⟨hs, num_samples, hn⟩
        · have hs' : supportedBits d.bits_per_sample = false := by simpa using hs
          simp [hs'] at h
    · have hd' : tagIs r1.1 dataTag = false := by simpa using hd
      simp only [hf', hd'] at h
      injection h with e1 e2 e3 e4
      subst e1
      rw [hd'] at hd1
      cases hd1

theorem loadLoop_supported (fuel : Nat) (id : Arr4) (size : Nat) (d : Data) (f : List Byte)
    (d1 : Data) (hid : tagIs id dataTag = false)
    (h : loadLoop fuel id size d f = .returned true d1) :
    supportedBits d1.bits_per_sample = true ∧ ∃ N, getNumSamples d1 = some N := by
  induction fuel generalizing id size d f with
  | zero =>
    rw [loadLoop_zero _ _ _ _ hid] at h
    cases h
  | succ fuel ih =>
    rw [loadLoop_succ _ _ _ _ _ hid] at h
    cases hc : chunkStep id size d f with
    | done o =>
      rw [hc] at h
      simp only at h
      subst h
      exact absurd hc (chunkStep_not_true _ _ _ _ _)
    | next id2 size2 d2 f2 =>
      rw [hc] at h
      simp only at h
      by_cases hid2 : tagIs id2 dataTag = true
      · rw [loadLoop_data _ _ _ _ _ hid2] at h
        injection h with _ e
        subst e
        exact chunkStep_data_post _ _ _ _ _ _ _ _ hc hid2
      · exact ih id2 size2 d2 f2 (by simpa using hid2) h

theorem writeChannels_exists (d : Data) (idx count ch : Nat) (out : List Byte)
    (hs : supportedBits d.bits_per_sample = true)
    (hS : ∀ c, ch ≤ c → c < ch + count → (getSample d.samples c idx).isSome = true) :
    ∃ out1, writeChannels d idx count ch out = .ok out1 := by
  induction count generalizing ch out with
  | zero => exact ⟨out, rfl⟩
  | succ count ih =>
    have h0 := hS ch (le_refl _) (by omega)
    obtain ⟨v, hv⟩ := Option.isSome_iff_exists.1 h0
    have h1 : (encodeSample d.bits_per_sample v).isSome = true := by
      rw [encodeSample_isSome, hs]
    obtain ⟨bs, hbs⟩ := Option.isSome_iff_exists.1 h1
    obtain ⟨out1, ho⟩ := ih (ch + 1) (out ++ bs) (fun c hc1 hc2 => hS c (by omega) (by omega))
    exact ⟨out1, by simp only [writeChannels, hv, hbs]; exact ho⟩

theorem writeFrames_exists (d : Data) (count idx : Nat) (out : List Byte)
    (hs : supportedBits d.bits_per_sample = true)
    (hS : ∀ c k, c < d.num_channels → idx ≤ k → k < idx + count →
      (getSample d.samples c k).isSome = true) :
    ∃ out1, writeFrames d count idx out = .ok out1 := by
  induction count generalizing idx out with
  | zero => exact ⟨out, rfl⟩
  | succ count ih =>
    obtain ⟨out2, h2⟩ := writeChannels_exists d idx d.num_channels 0 out hs
      (fun c _ hc => hS c idx (by omega) (le_refl _) (by omega))
    obtain ⟨out1, h1⟩ := ih (idx + 1) out2
      (fun c k hc hk1 hk2 => hS c k hc (by omega) (by omega))
    exact ⟨out1, by simp only [writeFrames, h2]; exact h1⟩

theorem getSample_isSome (samples : List (List ℚ)) (c k N : Nat) (hc : c < samples.length)
    (hN : ∀ s ∈ samples, s.length = N) (hk : k < N) :
    (getSample samples c k).isSome = true := by
  have h1 : samples[c]? = some samples[c] := List.getElem?_eq_getElem hc
  have h2 : samples[c].length = N := hN _ (List.getElem_mem _)
  have hk1 : k < samples[c].length := by rw [h2]; exact hk
  have h3 : samples[c][k]? = some samples[c][k] := List.getElem?_eq_getElem hk1
  simp only [getSample, h1, h3, Option.isSome_some]

/-- When the chunk loop is entered, that is when the tag buffer does not spell `"data"`
before the first chunk is read, a successful `load` into a fresh object leaves every
position `samples[c][k]` with `c < num_channels` and `k < getNumSamples` in place, so
`write` never reads out of range, and `write` to an openable destination returns
success. -/
theorem write_after_load (fuel : Nat) (stale_id : Arr4) (stale_size : Nat)
    (file : Option (List Byte)) (d : Data) (hstale : tagIs stale_id dataTag = false)
    (h : load fuel stale_id stale_size none file = .returned true d) :
    (∃ N, getNumSamples d = some N ∧ d.samples.length = d.num_channels ∧
      ∀ c k, c < d.num_channels → k < N → (getSample d.samples c k).isSome = true) ∧
    (∃ out, write true d = .returned true out) ∧
    (∀ out, write true d ≠ .outOfRange out) := by
  cases file with
  | none => simp [load] at h
  | some f =>
    simp only [load, Option.getD_none] at h
    obtain ⟨hlen, hall⟩ := loadLoop_inv fuel stale_id stale_size _ _ d
      (show (readRiff Data.fresh f).1.samples.length = (readRiff Data.fresh f).1.num_channels
        from rfl)
      (fun _ s hs => by rw [readRiff_samples] at hs; cases hs)
      (fun _ s hs => by rw [readRiff_samples] at hs; cases hs) h
    obtain ⟨hs, N, hN⟩ := loadLoop_supported _ _ _ _ _ _ hstale h
    have hlenN : ∀ s ∈ d.samples, s.length = N := by
      intro s hs1
      have := hall s hs1
      rw [hN] at this
      exact (Option.some.inj this).symm
    have hS : ∀ c k, c < d.num_channels → k < N → (getSample d.samples c k).isSome = true :=
      fun c k hc hk => getSample_isSome _ _ _ _ (by rw [hlen]; exact hc) hlenN hk
    obtain ⟨out1, ho⟩ := writeFrames_exists d N 0 (header d) hs
      (fun c k hc _ hk => hS c k hc (by omega))
    have hw : write true d = .returned true out1 := by
      simp only [write, Bool.not_true, Bool.false_eq_true, if_false, hN, ho]
    refine ⟨⟨N, hN, hlen, hS⟩, ⟨out1, hw⟩, fun out => ?_⟩
    rw [hw]
    intro e
    cases e

theorem decodeSample_append (bits : Nat) (buf : Arr4) (f extra : List Byte)
    (hs : supportedBits bits = true) (hf : bits / 8 ≤ f.length) :
    ∃ v buf1, decodeSample bits buf f = some (v, buf1, f.drop (bits / 8)) ∧
      decodeSample bits buf (f ++ extra) = some (v, buf1, f.drop (bits / 8) ++ extra) := by
  rcases (supportedBits_iff bits).1 hs with h | h | h | h <;> subst h
  · match f, hf with
    | b0 :: rest, _ =>
      exact ⟨(((b0.val : Int) - 0x80 : Int) : ℚ) / 0x80, ⟨b0, buf.b1, buf.b2, buf.b3⟩,
        by simp [decodeSample, freadArr_one], by simp [decodeSample, freadArr_one]⟩
  · match f, hf with
    | b0 :: b1 :: rest, _ =>
      exact ⟨(toSigned 16 ((b1.val <<< 8) ||| b0.val) : ℚ) / 0x8000,
        ⟨b0, b1, buf.b2, buf.b3⟩,
        by simp [decodeSample, freadArr_two], by simp [decodeSample, freadArr_two]⟩
  · match f, hf with
    | b0 :: b1 :: b2 :: rest, _ =>
      exact ⟨(toSigned 32 (signExtend24 ((b2.val <<< 16) ||| (b1.val <<< 8) ||| b0.val)) : ℚ)
          / 0x800000, ⟨b0, b1, b2, buf.b3⟩,
        by simp [decodeSample, freadArr_three], by simp [decodeSample, freadArr_three]⟩
  · match f, hf with
    | b0 :: b1 :: b2 :: b3 :: rest, _ =>
      exact ⟨(toSigned 32 ((b3.val <<< 24) ||| (b2.val <<< 16) ||| (b1.val <<< 8) ||| b0.val) : ℚ)
          / 0x80000000, ⟨b0, b1, b2, b3⟩,
        by simp [decodeSample, freadArr_four], by simp [decodeSample, freadArr_four]⟩

theorem loadChannels_append (bits : Nat) (hs : supportedBits bits = true) (extra : List Byte)
    (count ch : Nat) (samples : List (List ℚ)) (buf : Arr4) (f : List Byte) (s1 : Reader)
    (hf : count * (bits / 8) ≤ f.length)
    (h : loadChannels bits count ch ⟨samples, buf, f⟩ = .ok s1) :
    s1.f = f.drop (count * (bits / 8)) ∧
    loadChannels bits count ch ⟨samples, buf, f ++ extra⟩
      = .ok ⟨s1.samples, s1.buf, s1.f ++ extra⟩ := by
  induction count generalizing ch samples buf f with
  | zero =>
    simp only [loadChannels] at h
    injection h with h
    subst h
    exact ⟨by simp, rfl⟩
  | succ count ih =>
    have hsplit : (count + 1) * (bits / 8) = count * (bits / 8) + bits / 8 := by ring
    obtain ⟨v, buf1, hd, hd2⟩ := decodeSample_append bits buf f extra hs (by omega)
    simp only [loadChannels, hd] at h
    cases hp : pushSample samples ch v with
    | none => simp [hp] at h
    | some samples1 =>
      simp only [hp] at h
      obtain ⟨k1, k2⟩ := ih (ch + 1) samples1 buf1 (f.drop (bits / 8))
        (by rw [List.length_drop]; omega) h
      refine ⟨?_, ?_⟩
      · rw [k1, List.drop_drop]
        congr 1
        omega
      · simp only [loadChannels, hd2, hp]
        exact k2

theorem loadFrames_append (bits nc : Nat) (hs : supportedBits bits = true) (extra : List Byte)
    (count : Nat) (samples : List (List ℚ)) (buf : Arr4) (f : List Byte) (s1 : Reader)
    (hf : count * nc * (bits / 8) ≤ f.length)
    (h : loadFrames bits nc count ⟨samples, buf, f⟩ = .ok s1) :
    loadFrames bits nc count ⟨samples, buf, f ++ extra⟩
      = .ok ⟨s1.samples, s1.buf, s1.f ++ extra⟩ := by
  induction count generalizing samples buf f with
  | zero =>
    simp only [loadFrames] at h
    injection h with h
    subst h
    rfl
  | succ count ih =>
    have hsplit : (count + 1) * nc * (bits / 8) = count * nc * (bits / 8) + nc * (bits / 8) := by
      ring
    simp only [loadFrames] at h
    cases hc : loadChannels bits nc 0 ⟨samples, buf, f⟩ with
    | error e => simp [hc] at h
    | ok s2 =>
      simp only [hc] at h
      obtain ⟨k1, k2⟩ := loadChannels_append bits hs extra nc 0 samples buf f s2 (by omega) hc
      have h3 := ih s2.samples s2.buf s2.f (by rw [k1, List.length_drop]; omega) h
      simp only [loadFrames, k2]
      exact h3

theorem chunkStep_data_eq (id : Arr4) (size : Nat) (d : Data) (L : Nat) (payload : List Byte)
    (hL : L < 2 ^ 32) :
    chunkStep id size d (dataTag.toList ++ (toLE 4 L ++ payload)) =
      match getNumSamples { d with data_chunk_id := dataTag, data_chunk_size := L } with
      | none => .done .divByZero
      | some num_samples =>
        if !supportedBits d.bits_per_sample then
          .done (.returned false { d with data_chunk_id := dataTag, data_chunk_size := L })
        else
          match loadFrames d.bits_per_sample d.num_channels num_samples
                  ⟨d.samples, Arr4.zero, payload⟩ with
          | .error .unsupported =>
            .done (.returned false { d with data_chunk_id := dataTag, data_chunk_size := L })
          | .error .outOfRange => .done .outOfRange
          | .ok s =>
            .next dataTag L
              { d with data_chunk_id := dataTag, data_chunk_size := L, samples := s.samples } s.f := by
  have h1 : freadArr 4 id (dataTag.toList ++ (toLE 4 L ++ payload))
      = (dataTag, toLE 4 L ++ payload) := freadArr_tag _ _ _
  have h2 : freadUInt 4 size (toLE 4 L ++ payload) = (L, payload) :=
    freadUInt_full 4 size L _ (by norm_num; exact hL)
  have h3 : tagIs dataTag fmtTag = false := by decide
  have h4 : tagIs dataTag dataTag = true := by decide
  unfold chunkStep
  simp only [h1, h2, h3, h4, Bool.false_eq_true, if_false, if_true]

/-- C17: when `load` of a file made of the RIFF descriptor, well-formed chunks and a data
chunk succeeds and the payload holds all the bytes the sample loop reads, appending any
bytes after the payload leaves the result of `load` (return value and whole object)
unchanged. -/
theorem load_stops_at_first_data (fuel : Nat) (stale_id : Arr4) (stale_size : Nat)
    (obj : Option Data) (riff : List Byte) (cs : List Chunk) (L : Nat)
    (payload extra : List Byte) (d : Data) (N : Nat)
    (hriff : riff.length = 12) (hcs : ∀ c ∈ cs, c.wf) (hL : L < 2 ^ 32)
    (h : load fuel stale_id stale_size obj
          (some (riff ++ (chunksBytes cs ++ (dataTag.toList ++ (toLE 4 L ++ payload)))))
          = .returned true d)
    (hN : getNumSamples d = some N)
    (hpay : N * d.num_channels * (d.bits_per_sample / 8) ≤ payload.length) :
    load fuel stale_id stale_size obj
      (some (riff ++ (chunksBytes cs ++ (dataTag.toList ++ (toLE 4 L ++ (payload ++ extra))))))
      = .returned true d := by
  rw [load_riff _ _ _ _ _ _ hriff] at h ⊢
  by_cases hs : tagIs stale_id dataTag = true
  · rw [loadLoop_data _ _ _ _ _ hs] at h ⊢
    exact h
  · have hs' : tagIs stale_id dataTag = false := by simpa using hs
    have hw := walkTag_not_data stale_id cs hs' hcs
    rw [loadLoop_walk cs hcs _ _ _ _ _ hs'] at h ⊢
    by_cases hlt : fuel < cs.length
    · rw [if_pos hlt] at h
      cases h
    · rw [if_neg hlt] at h ⊢
      cases hm : fuel - cs.length with
      | zero =>
        rw [hm, loadLoop_zero _ _ _ _ hw] at h
        cases h
      | succ m =>
        rw [hm] at h
        rw [loadLoop_succ _ _ _ _ _ hw, chunkStep_data_eq _ _ _ _ _ hL] at h ⊢
        generalize walkData (readRiff (obj.getD Data.fresh) riff).1 cs = d1 at h ⊢
        cases hn : getNumSamples { d1 with data_chunk_id := dataTag, data_chunk_size := L } with
        | none =>
          rw [hn] at h
          cases h
        | some n =>
          rw [hn] at h
          simp only at h ⊢
          by_cases hsup : supportedBits d1.bits_per_sample = true
          · simp only [hsup, Bool.not_true, Bool.false_eq_true, if_false] at h ⊢
            cases hl : loadFrames d1.bits_per_sample d1.num_channels n
                ⟨d1.samples, Arr4.zero, payload⟩ with
            | error e =>
              rw [hl] at h
              cases e <;> cases h
            | ok s =>
              rw [hl] at h
              simp only at h
              rw [loadLoop_data _ _ _ _ _ (by decide)] at h
              injection h with _ hd
              subst hd
              have hnN : n = N := by
                have : getNumSamples
                    { d1 with data_chunk_id := dataTag, data_chunk_size := L,
                              samples := s.samples }
                    = getNumSamples { d1 with data_chunk_id := dataTag, data_chunk_size := L } :=
                  rfl
                rw [this, hn] at hN
                exact Option.some.inj hN
              subst hnN
              have ha := loadFrames_append d1.bits_per_sample d1.num_channels hsup extra n
                d1.samples Arr4.zero payload s hpay hl
              rw [ha]
              simp only
              exact loadLoop_data _ _ _ _ _ (by decide)
          · have hsup' : supportedBits d1.bits_per_sample = false := by simpa using hsup
            simp only [hsup', Bool.not_false, if_true] at h
            cases h

theorem roundtrip8_int (b : Byte) :
    truncToInt ((clamp_range ((((b.val : Int) - 128 : Int) : ℚ) / 128) + 1) / 2 * 255)
      = ((b.val - 1 : Nat) : Int) := by
  have hlt := b.isLt
  have c0 : (0 : ℚ) ≤ ((b.val : Nat) : ℚ) := by exact_mod_cast Nat.zero_le _
  have c1 : ((b.val : Nat) : ℚ) ≤ 255 := by
    have : b.val ≤ 255 := by omega
    exact_mod_cast this
  have hc : clamp_range ((((b.val : Int) - 128 : Int) : ℚ) / 128)
      = (((b.val : Int) - 128 : Int) : ℚ) / 128 := by
    apply clamp_range_of_mem
    · rw [le_div_iff₀ (by norm_num)]; push_cast; linarith
    · rw [div_le_iff₀ (by norm_num)]; push_cast; linarith
  rw [hc]
  have hq : ((((b.val : Int) - 128 : Int) : ℚ) / 128 + 1) / 2 * 255
      = ((b.val : Nat) : ℚ) - ((b.val : Nat) : ℚ) / 256 := by
    push_cast
    field_simp
    ring
  rw [hq]
  by_cases hb : b.val = 0
  · rw [hb]
    simp [truncToInt]
  · have hb1 : 1 ≤ b.val := by omega
    have c2 : (1 : ℚ) ≤ ((b.val : Nat) : ℚ) := by exact_mod_cast hb1
    have c3 : ((b.val : Nat) : ℚ) / 256 < 1 := by rw [div_lt_iff₀ (by norm_num)]; linarith
    have c4 : 0 < ((b.val : Nat) : ℚ) / 256 := by positivity
    have c5 : ((b.val : Nat) : ℚ) / 256 ≤ ((b.val : Nat) : ℚ) := by
      rw [div_le_iff₀ (by norm_num)]; linarith
    have e : ((b.val - 1 : Nat) : ℚ) = ((b.val : Nat) : ℚ) - 1 := by
      rw [Nat.cast_sub hb1]; norm_num
    apply truncToInt_of_nonneg
    · linarith
    · push_cast; rw [e]; linarith
    · push_cast; rw [e]; linarith

theorem encodeSample_8_decoded (b : Byte) :
    encodeSample 8 ((((b.val : Int) - 128 : Int) : ℚ) / 128)
      = some [Fin.ofNat (b.val - 1)] := by
  have h := roundtrip8_int b
  simp only [encodeSample]
  norm_num
  norm_num at h
  rw [h]
  simp only [byteOfInt, Fin.ofNat, Fin.mk.injEq]
  omega

theorem decodeValue_8_int (b : Byte) :
    decodeValue 8 [b] = some ((((b.val : Int) - 128 : Int) : ℚ) / 128) := by
  rw [decodeValue_8]
  norm_num

theorem pred_byte_ne (b : Byte) (hb : b ≠ 0) : (Fin.ofNat (b.val - 1) : Byte) ≠ b := by
  have hlt := b.isLt
  have h0 : b.val ≠ 0 := fun h => hb (Fin.ext h)
  intro h
  have := congrArg Fin.val h
  simp only [Fin.ofNat, Fin.val_mk] at this
  omega

theorem writeChannels_content (d : Data) (idx count ch : Nat) (out : List Byte)
    (g : Nat → Byte)
    (hg : ∀ c, ch ≤ c → c < ch + count →
      ∃ v, getSample d.samples c idx = some v ∧ encodeSample d.bits_per_sample v = some [g c]) :
    writeChannels d idx count ch out
      = .ok (out ++ (List.range count).map (fun j => g (ch + j))) := by
  induction count generalizing ch out with
  | zero => simp [writeChannels]
  | succ count ih =>
    obtain ⟨v, hv, he⟩ := hg ch (le_refl _) (by omega)
    have h1 := ih (ch + 1) (out ++ [g ch]) (fun c hc1 hc2 => hg c (by omega) (by omega))
    simp only [writeChannels, hv, he, h1]
    rw [List.range_succ_eq_map, List.map_cons, List.map_map, List.append_assoc,
      List.singleton_append]
    refine congrArg (fun l => Except.ok (out ++ l)) ?_
    refine List.cons_eq_cons.2 ⟨rfl, ?_⟩
    apply List.map_congr_left
    intro j _
    simp only [Function.comp, Nat.succ_eq_add_one]
    congr 1
    omega

theorem writeFrames_content (d : Data) (count idx : Nat) (out : List Byte)
    (G : Nat → Nat → Byte)
    (hG : ∀ c k, c < d.num_channels → idx ≤ k → k < idx + count →
      ∃ v, getSample d.samples c k = some v ∧
        encodeSample d.bits_per_sample v = some [G c k]) :
    ∃ body, writeFrames d count idx out = .ok (out ++ body) ∧
      body.length = count * d.num_channels ∧
      ∀ k c, k < count → c < d.num_channels →
        body[k * d.num_channels + c]? = some (G c (idx + k)) := by
  induction count generalizing idx out with
  | zero => exact ⟨[], by simp [writeFrames], by simp, fun k c hk _ => by omega⟩
  | succ count ih =>
    have h1 := writeChannels_content d idx d.num_channels 0 out (fun c => G c idx)
      (fun c _ hc => hG c idx (by omega) (le_refl _) (by omega))
    obtain ⟨body1, h2, h3, h4⟩ := ih (idx + 1)
      (out ++ (List.range d.num_channels).map (fun j => G (0 + j) idx))
      (fun c k hc hk1 hk2 => hG c k hc (by omega) (by omega))
    refine ⟨(List.range d.num_channels).map (fun j => G (0 + j) idx) ++ body1, ?_, ?_, ?_⟩
    · simp only [writeFrames, h1, h2, List.append_assoc]
    · rw [List.length_append, List.length_map, List.length_range, h3]
      ring
    · intro k c hk hc
      cases k with
      | zero =>
        rw [List.getElem?_append]
        simp only [List.length_map, List.length_range, Nat.zero_mul, Nat.zero_add, hc, if_true,
          List.getElem?_map, List.getElem?_range hc, Option.map_some', Nat.add_zero]
      | succ k =>
        have e : (k + 1) * d.num_channels + c = d.num_channels + (k * d.num_channels + c) := by
          ring
        rw [List.getElem?_append, e]
        simp only [List.length_map, List.length_range]
        rw [if_neg (by omega), Nat.add_sub_cancel_left, h4 k c (by omega) hc]
        congr 2
        omega

theorem take_one_drop (l : List Byte) (j : Nat) (h : j < l.length) :
    (l.drop j).take 1 = [l.getD j 0] := by
  rw [List.drop_eq_getElem_cons h, List.getD_eq_getElem _ _ h]
  rfl

theorem load_write_8bit (fuel : Nat) (stale_id : Arr4) (stale_size : Nat)
    (riff : List Byte) (pre mid : List Chunk)
    (size audio_format C sample_rate byte_rate block_align L N : Nat)
    (payload : List Byte)
    (hstale : tagIs stale_id dataTag = false) (hriff : riff.length = 12)
    (hpre : ∀ c ∈ pre, c.skippable) (hmid : ∀ c ∈ mid, c.skippable)
    (hsize : size < 2 ^ 32) (haf : audio_format < 2 ^ 16) (hC : C < 2 ^ 16) (hC0 : 0 < C)
    (hrate : sample_rate < 2 ^ 32) (hbr : byte_rate < 2 ^ 32) (hba : block_align < 2 ^ 16)
    (hL : L < 2 ^ 32)
    (hN : N = 8 * L % 2 ^ 32 / (C * 8))
    (hpay : N * C ≤ payload.length)
    (hfuel : pre.length + mid.length + 2 ≤ fuel) :
    ∃ d body, load fuel stale_id stale_size none (some (riff ++ (chunksBytes pre ++
          (fmtChunk size audio_format C sample_rate byte_rate block_align 8 ++
            (chunksBytes mid ++ (dataTag.toList ++ (toLE 4 L ++ payload)))))))
          = .returned true d ∧
      write true d = .returned true (header d ++ body) ∧
      body.length = N * C ∧
      ∀ j, j < N * C → body[j]? = some (Fin.ofNat ((payload.getD j 0).val - 1)) := by
  obtain ⟨d, hload, hnc, hbits, _, hNd, _, hget, _⟩ :=
    load_structured fuel stale_id stale_size riff pre mid size audio_format C sample_rate
      byte_rate block_align 8 L N payload hstale hriff hpre hmid hsize haf hC hC0 hrate hbr
      hba (by decide) hL hN (by simpa using hpay) hfuel
  have hG : ∀ c k, c < d.num_channels → 0 ≤ k → k < 0 + N →
      ∃ v, getSample d.samples c k = some v ∧
        encodeSample d.bits_per_sample v
          = some [(fun c k => (Fin.ofNat ((payload.getD (k * C + c) 0).val - 1) : Byte)) c k] := by
    intro c k hc _ hk
    rw [hnc] at hc
    have hk' : k < N := by omega
    have hj : k * C + c < payload.length := by
      have : (k + 1) * C ≤ N * C := Nat.mul_le_mul_right C hk'
      have e : (k + 1) * C = k * C + C := by ring
      omega
    have h1 := hget c k hc hk'
    have e1 : (k * C + c) * (8 / 8) = k * C + c := by norm_num
    rw [e1, show (8 / 8 : Nat) = 1 from rfl, take_one_drop _ _ hj, decodeValue_8_int] at h1
    exact ⟨_, h1, by rw [hbits]; exact encodeSample_8_decoded _⟩
  obtain ⟨body, hw, hlen, hpt⟩ := writeFrames_content d N 0 (header d)
    (fun c k => (Fin.ofNat ((payload.getD (k * C + c) 0).val - 1) : Byte)) hG
  refine ⟨d, body, hload, ?_, by rw [hlen, hnc], fun j hj => ?_⟩
  · simp only [write, Bool.not_true, Bool.false_eq_true, if_false, hNd, hw]
  · have hk : j / C < N := Nat.div_lt_of_lt_mul (by rw [Nat.mul_comm]; exact hj)
    have hc : j % C < d.num_channels := by rw [hnc]; exact Nat.mod_lt _ hC0
    have h := hpt (j / C) (j % C) hk hc
    rw [hnc, Nat.div_add_mod'] at h
    simp only [Nat.zero_add] at h
    rw [h, Nat.div_add_mod']

theorem chunksBytes_length_pos (cs : List Chunk) (h : cs ≠ []) : 8 ≤ (chunksBytes cs).length := by
  cases cs with
  | nil => exact absurd rfl h
  | cons c cs =>
    simp only [chunksBytes, Chunk.bytes, List.length_append, Arr4.toList_length, toLE_length]
    omega

theorem fmtChunk_length (size af nc rate br ba bits : Nat) :
    (fmtChunk size af nc rate br ba bits).length = 24 := by
  simp [fmtChunk, toLE_length, Arr4.toList_length]

theorem load_write_8bit_changes (fuel : Nat) (stale_id : Arr4) (stale_size : Nat)
    (riff : List Byte) (pre mid : List Chunk)
    (size audio_format C sample_rate byte_rate block_align L N : Nat)
    (payload : List Byte)
    (hstale : tagIs stale_id dataTag = false) (hriff : riff.length = 12)
    (hpre : ∀ c ∈ pre, c.skippable) (hmid : ∀ c ∈ mid, c.skippable)
    (hsize : size < 2 ^ 32) (haf : audio_format < 2 ^ 16) (hC : C < 2 ^ 16) (hC0 : 0 < C)
    (hrate : sample_rate < 2 ^ 32) (hbr : byte_rate < 2 ^ 32) (hba : block_align < 2 ^ 16)
    (hL : L < 2 ^ 32)
    (hN : N = 8 * L % 2 ^ 32 / (C * 8))
    (hpay : N * C ≤ payload.length)
    (hfuel : pre.length + mid.length + 2 ≤ fuel)
    (hnz : ∃ b ∈ payload, b ≠ 0) :
    ∃ d out, load fuel stale_id stale_size none (some (riff ++ (chunksBytes pre ++
          (fmtChunk size audio_format C sample_rate byte_rate block_align 8 ++
            (chunksBytes mid ++ (dataTag.toList ++ (toLE 4 L ++ payload)))))))
          = .returned true d ∧
      write true d = .returned true out ∧
      out ≠ riff ++ (chunksBytes pre ++
          (fmtChunk size audio_format C sample_rate byte_rate block_align 8 ++
            (chunksBytes mid ++ (dataTag.toList ++ (toLE 4 L ++ payload))))) := by
  obtain ⟨d, body, hload, hwrite, hblen, hbody⟩ :=
    load_write_8bit fuel stale_id stale_size riff pre mid size audio_format C sample_rate
      byte_rate block_align L N payload hstale hriff hpre hmid hsize haf hC hC0 hrate hbr
      hba hL hN hpay hfuel
  refine ⟨d, header d ++ body, hload, hwrite, fun heq => ?_⟩
  have hlen := congrArg List.length heq
  simp only [List.length_append, header_length, hriff, fmtChunk_length, toLE_length,
    Arr4.toList_length, hblen] at hlen
  have hpre0 : (chunksBytes pre).length = 0 := by omega
  have hmid0 : (chunksBytes mid).length = 0 := by omega
  have hpl : payload.length = N * C := by omega
  rw [List.length_eq_zero.1 hpre0, List.length_eq_zero.1 hmid0] at heq
  obtain ⟨b0, hmem, hne⟩ := hnz
  obtain ⟨j, hj, rfl⟩ := List.mem_iff_getElem.1 hmem
  have hfile : riff ++ ([] ++
      (fmtChunk size audio_format C sample_rate byte_rate block_align 8 ++
        ([] ++ (dataTag.toList ++ (toLE 4 L ++ payload)))))
      = (riff ++ (fmtChunk size audio_format C sample_rate byte_rate block_align 8 ++
          (dataTag.toList ++ toLE 4 L))) ++ payload := by
    simp only [List.nil_append, List.append_assoc]
  have hplen : (riff ++ (fmtChunk size audio_format C sample_rate byte_rate block_align 8 ++
      (dataTag.toList ++ toLE 4 L))).length = 44 := by
    simp only [List.length_append, hriff, fmtChunk_length, toLE_length, Arr4.toList_length]
  have h1 := congrArg (fun l => l[44 + j]?) heq
  simp only at h1
  rw [hfile, List.getElem?_append_right (by rw [header_length]; omega),
    List.getElem?_append_right (by rw [hplen]; omega), header_length, hplen,
    Nat.add_sub_cancel_left, hbody j (by rw [← hpl]; exact hj),
    List.getElem?_eq_getElem hj, List.getD_eq_getElem _ _ hj] at h1
  exact pred_byte_ne _ hne (Option.some.inj h1)

/-- C19: one decode-then-encode pass at 8 bits turns byte `b` into `b - 1` for `b ≥ 1`
and into `0` for `b = 0`: `trunc ((((b - 128) / 128) + 1) / 2 * 255)` has that value, the
silence byte 128 is written back as 127, and an 8-bit file (RIFF descriptor, unknown
chunks, PCM `"fmt "` chunk, unknown chunks, data chunk with the payload present) whose
payload has a non-zero byte is loaded and written back as bytes that differ from the
file. -/
theorem roundtrip8_decrements :
    (∀ b : Byte,
      truncToInt ((clamp_range ((((b.val : Int) - 128 : Int) : ℚ) / 128) + 1) / 2 * 255)
        = if 1 ≤ b.val then (b.val : Int) - 1 else 0) ∧
    (∀ b : Byte, ∃ v : ℚ, decodeValue 8 [b] = some v ∧
      encodeSample 8 v = some [Fin.ofNat (b.val - 1)]) ∧
    (decodeValue 8 [128] = some 0 ∧ encodeSample 8 0 = some [127]) ∧
    (∀ (fuel : Nat) (stale_id : Arr4) (stale_size : Nat) (riff : List Byte)
      (pre mid : List Chunk)
      (size audio_format C sample_rate byte_rate block_align L N : Nat) (payload : List Byte),
      tagIs stale_id dataTag = false → riff.length = 12 →
      (∀ c ∈ pre, c.skippable) → (∀ c ∈ mid, c.skippable) →
      size < 2 ^ 32 → audio_format < 2 ^ 16 → C < 2 ^ 16 → 0 < C →
      sample_rate < 2 ^ 32 → byte_rate < 2 ^ 32 → block_align < 2 ^ 16 → L < 2 ^ 32 →
      N = 8 * L % 2 ^ 32 / (C * 8) → N * C ≤ payload.length →
      pre.length + mid.length + 2 ≤ fuel → (∃ b ∈ payload, b ≠ 0) →
      ∃ d out, load fuel stale_id stale_size none (some (riff ++ (chunksBytes pre ++
            (fmtChunk size audio_format C sample_rate byte_rate block_align 8 ++
              (chunksBytes mid ++ (dataTag.toList ++ (toLE 4 L ++ payload)))))))
            = .returned true d ∧
        write true d = .returned true out ∧
        out ≠ riff ++ (chunksBytes pre ++
            (fmtChunk size audio_format C sample_rate byte_rate block_align 8 ++
              (chunksBytes mid ++ (dataTag.toList ++ (toLE 4 L ++ payload)))))) := by
  refine ⟨fun b => ?_, fun b => ⟨_, decodeValue_8_int b, encodeSample_8_decoded b⟩,
    ⟨by decide!, by decide!⟩, ?_⟩
  · rw [roundtrip8_int]
    have hlt := b.isLt
    split_ifs <;> omega
  · intro fuel stale_id stale_size riff pre mid size audio_format C sample_rate byte_rate
      block_align L N payload hstale hriff hpre hmid hsize haf hC hC0 hrate hbr hba hL hN
      hpay hfuel hnz
    exact load_write_8bit_changes fuel stale_id stale_size riff pre mid size audio_format C
      sample_rate byte_rate block_align L N payload hstale hriff hpre hmid hsize haf hC hC0
      hrate hbr hba hL hN hpay hfuel hnz

/-- Witness of C19: a mono 8-bit file whose single sample is the silence byte 128. -/
theorem roundtrip8_decrements_witness :
    ∃ d out, load 2 Arr4.zero 0 none (some (demoRiff ++ (chunksBytes [] ++
          (fmtChunk 16 1 1 8000 8000 1 8 ++
            (chunksBytes [] ++ (dataTag.toList ++ (toLE 4 1 ++ [128]))))))) = .returned true d ∧
      write true d = .returned true out ∧
      out ≠ demoRiff ++ (chunksBytes [] ++
          (fmtChunk 16 1 1 8000 8000 1 8 ++
            (chunksBytes [] ++ (dataTag.toList ++ (toLE 4 1 ++ [128]))))) :=
  roundtrip8_decrements.2.2.2 2 Arr4.zero 0 demoRiff [] [] 16 1 1 8000 8000 1 1 1 [128]
    (by decide) (by decide) (by simp) (by simp) (by decide) (by decide) (by decide)
    (by decide) (by decide) (by decide) (by decide) (by decide) (by decide) (by decide)
    (by decide) ⟨128, by simp, by decide⟩

/-- Witness of C17: a second data chunk appended to the demo file. -/
theorem load_stops_at_first_data_witness :
    load 2 Arr4.zero 0 none
      (some (demoRiff ++ (chunksBytes [demoFmt] ++ (dataTag.toList ++ (toLE 4 4 ++
        ([0x00, 0x00, 0xFF, 0x7F] ++ demoDataChunk))))))
      = .returned true demoData :=
  load_stops_at_first_data 2 Arr4.zero 0 none demoRiff [demoFmt] 4 [0x00, 0x00, 0xFF, 0x7F]
    demoDataChunk demoData 2 (by decide) (by decide) (by decide) (by decide!) (by decide)
    (by decide)

theorem log2Fuel_spec (fuel n : Nat) (h : n ≤ fuel) (hn : 0 < n) :
    2 ^ log2Fuel fuel n ≤ n ∧ n < 2 ^ (log2Fuel fuel n + 1) := by
  induction fuel generalizing n with
  | zero => omega
  | succ fuel ih =>
    unfold log2Fuel
    by_cases h2 : 2 ≤ n
    · rw [if_pos h2]
      obtain ⟨a, b⟩ := ih (n / 2) (by omega) (by omega)
      rw [pow_succ, pow_succ, pow_succ]
      rw [pow_succ] at b
      constructor <;> omega
    · rw [if_neg h2]
      constructor <;> norm_num <;> omega

theorem natLog2_spec (n : Nat) (hn : 0 < n) :
    2 ^ natLog2 n ≤ n ∧ n < 2 ^ (natLog2 n + 1) :=
  log2Fuel_spec n n (Nat.le_refl n) hn

theorem pow2_eq (e : Int) : pow2 e = (2 : ℚ) ^ e := by
  unfold pow2
  by_cases h : 0 ≤ e
  · rw [if_pos h]
    obtain ⟨n, rfl⟩ := Int.eq_ofNat_of_zero_le h
    simp
  · rw [if_neg h]
    obtain ⟨n, hn⟩ := Int.eq_ofNat_of_zero_le (show 0 ≤ -e by omega)
    have he : e = -(n : Int) := by omega
    subst he
    simp

theorem two_zpow_pos (e : Int) : (0 : ℚ) < (2 : ℚ) ^ e := zpow_pos (by norm_num) e

theorem two_zpow_le {a b : Int} (h : a ≤ b) : (2 : ℚ) ^ a ≤ (2 : ℚ) ^ b :=
  zpow_le_zpow_right₀ (by norm_num) h

theorem two_zpow_lt_iff {a b : Int} : (2 : ℚ) ^ a < (2 : ℚ) ^ b ↔ a < b :=
  zpow_lt_zpow_iff_right₀ (by norm_num)

theorem abs_eq_natAbs_div (x : ℚ) : |x| = (x.num.natAbs : ℚ) / (x.den : ℚ) := by
  have h := Rat.num_div_den x
  have hd : (0 : ℚ) < (x.den : ℚ) := by exact_mod_cast x.den_pos
  conv_lhs => rw [← h]
  rw [abs_div, abs_of_pos hd]
  congr 1
  rw [Nat.cast_natAbs]
  push_cast
  rfl

theorem ilog2_spec (x : ℚ) (hx : x ≠ 0) :
    (2 : ℚ) ^ ilog2 x ≤ |x| ∧ |x| < (2 : ℚ) ^ (ilog2 x + 1) := by
  have hp : 0 < x.num.natAbs := Int.natAbs_pos.2 (Rat.num_ne_zero.2 hx)
  have hq : 0 < x.den := x.den_pos
  obtain ⟨p1, p2⟩ := natLog2_spec _ hp
  obtain ⟨q1, q2⟩ := natLog2_spec _ hq
  have hpq : (0 : ℚ) < (x.num.natAbs : ℚ) := by exact_mod_cast hp
  have hqq : (0 : ℚ) < (x.den : ℚ) := by exact_mod_cast hq
  have P1 : (2 : ℚ) ^ (natLog2 x.num.natAbs : Int) ≤ (x.num.natAbs : ℚ) := by
    rw [zpow_natCast]; exact_mod_cast p1
  have P2 : (x.num.natAbs : ℚ) < (2 : ℚ) ^ ((natLog2 x.num.natAbs : Int) + 1) := by
    rw [show ((natLog2 x.num.natAbs : Int) + 1) = ((natLog2 x.num.natAbs + 1 : Nat) : Int) by
      push_cast; rfl, zpow_natCast]
    exact_mod_cast p2
  have Q1 : (2 : ℚ) ^ (natLog2 x.den : Int) ≤ (x.den : ℚ) := by
    rw [zpow_natCast]; exact_mod_cast q1
  have Q2 : (x.den : ℚ) < (2 : ℚ) ^ ((natLog2 x.den : Int) + 1) := by
    rw [show ((natLog2 x.den : Int) + 1) = ((natLog2 x.den + 1 : Nat) : Int) by
      push_cast; rfl, zpow_natCast]
    exact_mod_cast q2
  have hlow : (2 : ℚ) ^ ((natLog2 x.num.natAbs : Int) - (natLog2 x.den : Int) - 1) ≤ |x| := by
    rw [abs_eq_natAbs_div, le_div_iff₀ hqq]
    have e : (2 : ℚ) ^ ((natLog2 x.num.natAbs : Int) - (natLog2 x.den : Int) - 1)
        * (2 : ℚ) ^ ((natLog2 x.den : Int) + 1) = (2 : ℚ) ^ (natLog2 x.num.natAbs : Int) := by
      rw [← zpow_add₀ (by norm_num)]
      congr 1
      ring
    have hnn := (two_zpow_pos ((natLog2 x.num.natAbs : Int) - (natLog2 x.den : Int) - 1)).le
    calc (2 : ℚ) ^ ((natLog2 x.num.natAbs : Int) - (natLog2 x.den : Int) - 1) * (x.den : ℚ)
        ≤ (2 : ℚ) ^ ((natLog2 x.num.natAbs : Int) - (natLog2 x.den : Int) - 1)
            * (2 : ℚ) ^ ((natLog2 x.den : Int) + 1) := mul_le_mul_of_nonneg_left Q2.le hnn
      _ = (2 : ℚ) ^ (natLog2 x.num.natAbs : Int) := e
      _ ≤ _ := P1
  have hhigh : |x| < (2 : ℚ) ^ ((natLog2 x.num.natAbs : Int) - (natLog2 x.den : Int) + 1) := by
    rw [abs_eq_natAbs_div, div_lt_iff₀ hqq]
    have e : (2 : ℚ) ^ ((natLog2 x.num.natAbs : Int) - (natLog2 x.den : Int) + 1)
        * (2 : ℚ) ^ (natLog2 x.den : Int) = (2 : ℚ) ^ ((natLog2 x.num.natAbs : Int) + 1) := by
      rw [← zpow_add₀ (by norm_num)]
      congr 1
      ring
    have hpos := two_zpow_pos ((natLog2 x.num.natAbs : Int) - (natLog2 x.den : Int) + 1)
    calc (x.num.natAbs : ℚ) < (2 : ℚ) ^ ((natLog2 x.num.natAbs : Int) + 1) := P2
      _ = (2 : ℚ) ^ ((natLog2 x.num.natAbs : Int) - (natLog2 x.den : Int) + 1)
            * (2 : ℚ) ^ (natLog2 x.den : Int) := e.symm
      _ ≤ _ := mul_le_mul_of_nonneg_left Q1 hpos.le
  unfold ilog2
  simp only [pow2_eq]
  split_ifs with h
  · refine ⟨hlow, ?_⟩
    rw [sub_add_cancel]
    exact h
  · exact ⟨not_lt.1 h, hhigh⟩

theorem ilog2_eq (x : ℚ) (k : Int) (h1 : (2 : ℚ) ^ k ≤ |x|) (h2 : |x| < (2 : ℚ) ^ (k + 1)) :
    ilog2 x = k := by
  have hx : x ≠ 0 := by
    intro h
    rw [h, abs_zero] at h1
    exact absurd h1 (not_le.2 (two_zpow_pos k))
  obtain ⟨s1, s2⟩ := ilog2_spec x hx
  have a := two_zpow_lt_iff.1 (lt_of_le_of_lt s1 h2)
  have b := two_zpow_lt_iff.1 (lt_of_le_of_lt h1 s2)
  omega

theorem ilog2_neg (x : ℚ) : ilog2 (-x) = ilog2 x := by
  unfold ilog2
  simp only [Rat.neg_num, Rat.neg_den, Int.natAbs_neg, abs_neg]

theorem ilog2_mono (x y : ℚ) (hx : x ≠ 0) (h : |x| ≤ |y|) : ilog2 x ≤ ilog2 y := by
  have hy : y ≠ 0 := by
    intro h0
    rw [h0, abs_zero] at h
    exact hx (abs_eq_zero.1 (le_antisymm h (abs_nonneg x)))
  obtain ⟨s1, _⟩ := ilog2_spec x hx
  obtain ⟨_, t2⟩ := ilog2_spec y hy
  have a := two_zpow_lt_iff.1 (lt_of_le_of_lt (le_trans s1 h) t2)
  omega

theorem roundEven_intCast (n : Int) : roundEven (n : ℚ) = n := by
  unfold roundEven
  rw [Int.floor_intCast, sub_self, if_pos (by norm_num)]

theorem roundEven_natCast (n : Nat) : roundEven (n : ℚ) = n := by
  have h := roundEven_intCast (n : Int)
  simpa using h

theorem roundEven_floor_le (q : ℚ) : ⌊q⌋ ≤ roundEven q := by
  unfold roundEven
  split_ifs <;> omega

theorem roundEven_le_floor_succ (q : ℚ) : roundEven q ≤ ⌊q⌋ + 1 := by
  unfold roundEven
  split_ifs <;> omega

theorem roundEven_mono (q r : ℚ) (h : q ≤ r) : roundEven q ≤ roundEven r := by
  have hfg : ⌊q⌋ ≤ ⌊r⌋ := Int.floor_mono h
  rcases lt_or_eq_of_le hfg with hlt | heq
  · have a := roundEven_le_floor_succ q
    have b := roundEven_floor_le r
    omega
  · unfold roundEven
    rw [← heq]
    have hq : q - (⌊q⌋ : ℚ) ≤ r - (⌊q⌋ : ℚ) := by linarith
    split_ifs <;> first | omega | (exfalso; linarith)

theorem roundEven_neg (q : ℚ) : roundEven (-q) = -roundEven q := by
  by_cases hq : ((⌊q⌋ : Int) : ℚ) = q
  · rw [← hq, ← Int.cast_neg, roundEven_intCast, roundEven_intCast]
  · have h1 : ((⌊q⌋ : Int) : ℚ) ≤ q := Int.floor_le q
    have h2 : q < ((⌊q⌋ : Int) : ℚ) + 1 := Int.lt_floor_add_one q
    have h3 : ((⌊q⌋ : Int) : ℚ) < q := lt_of_le_of_ne h1 hq
    have hfl : ⌊-q⌋ = -⌊q⌋ - 1 := by
      rw [Int.floor_eq_iff]
      constructor
      · push_cast; linarith
      · push_cast; linarith
    unfold roundEven
    rw [hfl]
    push_cast
    split_ifs <;> first | omega | (exfalso; linarith)

theorem roundEven_nonneg (q : ℚ) (h : 0 ≤ q) : 0 ≤ roundEven q := by
  have a := roundEven_mono 0 q h
  have b := roundEven_intCast 0
  rw [Int.cast_zero] at b
  omega

theorem ulpExp_ge (x : ℚ) : -149 ≤ ulpExp x := le_max_right _ _

theorem ulpExp_ge_log (x : ℚ) : ilog2 x - 23 ≤ ulpExp x := le_max_left _ _

theorem ulpExp_neg (x : ℚ) : ulpExp (-x) = ulpExp x := by
  unfold ulpExp
  rw [ilog2_neg]

theorem roundFloat_eq (x : ℚ) :
    roundFloat x = (roundEven (x / (2 : ℚ) ^ ulpExp x) : ℚ) * (2 : ℚ) ^ ulpExp x := by
  unfold roundFloat
  rw [pow2_eq]

theorem roundFloat_zero : roundFloat 0 = 0 := by
  rw [roundFloat_eq, zero_div]
  have h := roundEven_intCast 0
  rw [Int.cast_zero] at h
  rw [h, Int.cast_zero, zero_mul]

theorem roundFloat_neg (x : ℚ) : roundFloat (-x) = -roundFloat x := by
  rw [roundFloat_eq, roundFloat_eq, ulpExp_neg, neg_div, roundEven_neg]
  push_cast
  ring

theorem roundFloat_nonneg (x : ℚ) (h : 0 ≤ x) : 0 ≤ roundFloat x := by
  rw [roundFloat_eq]
  have hp := two_zpow_pos (ulpExp x)
  have h1 : 0 ≤ roundEven (x / (2 : ℚ) ^ ulpExp x) := roundEven_nonneg _ (div_nonneg h hp.le)
  have h2 : (0 : ℚ) ≤ (roundEven (x / (2 : ℚ) ^ ulpExp x) : ℚ) := by exact_mod_cast h1
  exact mul_nonneg h2 hp.le

theorem roundFloat_of_scaled (x : ℚ) (n : Int) (h : x / (2 : ℚ) ^ ulpExp x = (n : ℚ)) :
    roundFloat x = x := by
  rw [roundFloat_eq, h, roundEven_intCast, ← h]
  exact div_mul_cancel₀ x (two_zpow_pos _).ne'

theorem two_zpow_toNat (j : Int) (hj : 0 ≤ j) : (2 : ℚ) ^ j = (((2 : Int) ^ j.toNat : Int) : ℚ) := by
  obtain ⟨n, rfl⟩ := Int.eq_ofNat_of_zero_le hj
  simp

theorem roundFloat_fix (m k : Int) (hm : |m| < 2 ^ 24) (hk : -149 ≤ k) :
    roundFloat ((m : ℚ) * (2 : ℚ) ^ k) = (m : ℚ) * (2 : ℚ) ^ k := by
  by_cases h0 : m = 0
  · rw [h0, Int.cast_zero, zero_mul]
    exact roundFloat_zero
  · have hk0 := two_zpow_pos k
    have hmq : (m : ℚ) ≠ 0 := by exact_mod_cast h0
    have hx : (m : ℚ) * (2 : ℚ) ^ k ≠ 0 := mul_ne_zero hmq hk0.ne'
    have habs : |(m : ℚ) * (2 : ℚ) ^ k| < (2 : ℚ) ^ (k + 24) := by
      rw [abs_mul, abs_of_pos hk0, zpow_add₀ (by norm_num), mul_comm]
      have : |(m : ℚ)| < (2 : ℚ) ^ (24 : Int) := by
        have : ((|m| : Int) : ℚ) < (((2 : Int) ^ 24 : Int) : ℚ) := by exact_mod_cast hm
        rw [Int.cast_abs] at this
        norm_num at this ⊢
        exact this
      exact mul_lt_mul_of_pos_left this hk0
    obtain ⟨s1, _⟩ := ilog2_spec _ hx
    have hL : ilog2 ((m : ℚ) * (2 : ℚ) ^ k) < k + 24 := two_zpow_lt_iff.1 (lt_of_le_of_lt s1 habs)
    have he : ulpExp ((m : ℚ) * (2 : ℚ) ^ k) ≤ k := by
      unfold ulpExp
      exact max_le (by omega) hk
    apply roundFloat_of_scaled _ (m * (2 : Int) ^ (k - ulpExp ((m : ℚ) * (2 : ℚ) ^ k)).toNat)
    rw [mul_div_assoc, ← zpow_sub₀ (by norm_num), two_zpow_toNat _ (by omega)]
    push_cast
    rfl

theorem roundFloat_fix_le (m k : Int) (hm : |m| ≤ 2 ^ 24) (hk : -149 ≤ k) :
    roundFloat ((m : ℚ) * (2 : ℚ) ^ k) = (m : ℚ) * (2 : ℚ) ^ k := by
  rcases lt_or_eq_of_le hm with h | h
  · exact roundFloat_fix m k h hk
  · have e24 : ((2 : ℚ) ^ (24 : Int)) * (2 : ℚ) ^ k = (2 : ℚ) ^ (k + 24) := by
      rw [zpow_add₀ (by norm_num), mul_comm]
    rcases abs_eq (by norm_num : (0 : Int) ≤ 2 ^ 24) |>.1 h with h1 | h1
    · have e : (m : ℚ) * (2 : ℚ) ^ k = ((1 : Int) : ℚ) * (2 : ℚ) ^ (k + 24) := by
        rw [h1, ← e24]
        norm_num
      rw [e]
      exact roundFloat_fix 1 (k + 24) (by norm_num) (by omega)
    · have e : (m : ℚ) * (2 : ℚ) ^ k = ((-1 : Int) : ℚ) * (2 : ℚ) ^ (k + 24) := by
        rw [h1, ← e24]
        norm_num
      rw [e]
      exact roundFloat_fix (-1) (k + 24) (by norm_num) (by omega)

theorem roundFloat_intCast (n : Int) (h : |n| ≤ 2 ^ 24) : roundFloat (n : ℚ) = n := by
  have := roundFloat_fix_le n 0 h (by norm_num)
  simpa using this

theorem roundFloat_two_zpow (k : Int) (hk : -149 ≤ k) : roundFloat ((2 : ℚ) ^ k) = (2 : ℚ) ^ k := by
  have := roundFloat_fix 1 k (by norm_num) hk
  simpa using this

theorem roundFloat_repr (x : ℚ) :
    ∃ m : Int, |m| ≤ 2 ^ 24 ∧ roundFloat x = (m : ℚ) * (2 : ℚ) ^ ulpExp x := by
  refine ⟨roundEven (x / (2 : ℚ) ^ ulpExp x), ?_, roundFloat_eq x⟩
  have hp := two_zpow_pos (ulpExp x)
  have hb : |x / (2 : ℚ) ^ ulpExp x| ≤ (2 : ℚ) ^ (24 : Int) := by
    rw [abs_div, abs_of_pos hp, div_le_iff₀ hp, ← zpow_add₀ (by norm_num)]
    by_cases hx : x = 0
    · rw [hx, abs_zero]
      exact (two_zpow_pos _).le
    · obtain ⟨_, s2⟩ := ilog2_spec x hx
      have := ulpExp_ge_log x
      exact le_trans s2.le (two_zpow_le (by omega))
  obtain ⟨b1, b2⟩ := abs_le.1 hb
  have c1 := roundEven_mono _ _ b1
  have c2 := roundEven_mono _ _ b2
  have e1 : (-(2 : ℚ) ^ (24 : Int)) = (((-(2 : Int) ^ 24 : Int)) : ℚ) := by norm_num
  have e2 : ((2 : ℚ) ^ (24 : Int)) = ((((2 : Int) ^ 24 : Int)) : ℚ) := by norm_num
  rw [e1, roundEven_intCast] at c1
  rw [e2, roundEven_intCast] at c2
  exact abs_le.2 ⟨c1, c2⟩

theorem roundFloat_idem (x : ℚ) : roundFloat (roundFloat x) = roundFloat x := by
  obtain ⟨m, hm, h⟩ := roundFloat_repr x
  rw [h]
  exact roundFloat_fix_le m _ hm (ulpExp_ge x)

theorem roundFloat_mono_pos (x y : ℚ) (hx : 0 < x) (hxy : x ≤ y) :
    roundFloat x ≤ roundFloat y := by
  have hy : 0 < y := lt_of_lt_of_le hx hxy
  have hLe : ilog2 x ≤ ilog2 y :=
    ilog2_mono x y hx.ne' (by rw [abs_of_pos hx, abs_of_pos hy]; exact hxy)
  have hpx := two_zpow_pos (ulpExp x)
  have hpy := two_zpow_pos (ulpExp y)
  have hee : ulpExp x ≤ ulpExp y := by
    unfold ulpExp
    exact max_le_max (by omega) (le_refl _)
  rcases lt_or_eq_of_le hee with hlt | heq
  · -- different spacing: a power of two lies between the two numbers
    have hey : ulpExp y = ilog2 y - 23 := by
      have h1 := ulpExp_ge x
      unfold ulpExp at hlt ⊢
      rcases max_cases (ilog2 y - 23) (-149) with ⟨h, _⟩ | ⟨h, _⟩
      · exact h
      · rw [h] at hlt
        have := le_max_right (ilog2 x - 23) (-149)
        omega
    have hLlt : ilog2 x < ilog2 y := by
      have := ulpExp_ge_log x
      omega
    obtain ⟨_, sx⟩ := ilog2_spec x hx.ne'
    obtain ⟨sy, _⟩ := ilog2_spec y hy.ne'
    rw [abs_of_pos hx] at sx
    rw [abs_of_pos hy] at sy
    have hxp : x ≤ (2 : ℚ) ^ ilog2 y := le_trans sx.le (two_zpow_le (by omega))
    -- the smaller number rounds to at most that power
    have h1 : roundFloat x ≤ (2 : ℚ) ^ ilog2 y := by
      rw [roundFloat_eq]
      have hq : x / (2 : ℚ) ^ ulpExp x
          ≤ ((((2 : Int) ^ (ilog2 y - ulpExp x).toNat : Int)) : ℚ) := by
        rw [← two_zpow_toNat _ (by omega), zpow_sub₀ (by norm_num)]
        exact div_le_div_of_nonneg_right hxp hpx.le
      have hr := roundEven_mono _ _ hq
      rw [roundEven_intCast] at hr
      have hrq : (roundEven (x / (2 : ℚ) ^ ulpExp x) : ℚ)
          ≤ ((((2 : Int) ^ (ilog2 y - ulpExp x).toNat : Int)) : ℚ) := by exact_mod_cast hr
      rw [← two_zpow_toNat _ (by omega)] at hrq
      calc (roundEven (x / (2 : ℚ) ^ ulpExp x) : ℚ) * (2 : ℚ) ^ ulpExp x
          ≤ (2 : ℚ) ^ (ilog2 y - ulpExp x) * (2 : ℚ) ^ ulpExp x :=
            mul_le_mul_of_nonneg_right hrq hpx.le
        _ = (2 : ℚ) ^ ilog2 y := by
            rw [← zpow_add₀ (by norm_num)]
            congr 1
            ring
    -- the larger number rounds to at least that power
    have h2 : (2 : ℚ) ^ ilog2 y ≤ roundFloat y := by
      rw [roundFloat_eq]
      have hq : ((((2 : Int) ^ (23 : Nat) : Int)) : ℚ) ≤ y / (2 : ℚ) ^ ulpExp y := by
        rw [le_div_iff₀ hpy, hey]
        have e : ((((2 : Int) ^ (23 : Nat) : Int)) : ℚ) * (2 : ℚ) ^ (ilog2 y - 23)
            = (2 : ℚ) ^ ilog2 y := by
          rw [zpow_sub₀ (by norm_num)]
          norm_num
          ring
        rw [e]
        exact sy
      have hr := roundEven_mono _ _ hq
      rw [roundEven_intCast] at hr
      have hrq : ((((2 : Int) ^ (23 : Nat) : Int)) : ℚ)
          ≤ (roundEven (y / (2 : ℚ) ^ ulpExp y) : ℚ) := by exact_mod_cast hr
      calc (2 : ℚ) ^ ilog2 y
          = ((((2 : Int) ^ (23 : Nat) : Int)) : ℚ) * (2 : ℚ) ^ ulpExp y := by
            rw [hey, zpow_sub₀ (by norm_num)]
            norm_num
            ring
        _ ≤ (roundEven (y / (2 : ℚ) ^ ulpExp y) : ℚ) * (2 : ℚ) ^ ulpExp y :=
            mul_le_mul_of_nonneg_right hrq hpy.le
    exact le_trans h1 h2
  · -- same spacing
    rw [roundFloat_eq, roundFloat_eq, ← heq]
    have hq : x / (2 : ℚ) ^ ulpExp x ≤ y / (2 : ℚ) ^ ulpExp x :=
      div_le_div_of_nonneg_right hxy hpx.le
    have hr := roundEven_mono _ _ hq
    have hrq : (roundEven (x / (2 : ℚ) ^ ulpExp x) : ℚ)
        ≤ (roundEven (y / (2 : ℚ) ^ ulpExp x) : ℚ) := by exact_mod_cast hr
    exact mul_le_mul_of_nonneg_right hrq hpx.le

theorem roundFloat_mono (x y : ℚ) (hxy : x ≤ y) : roundFloat x ≤ roundFloat y := by
  rcases lt_trichotomy 0 x with hx | hx | hx
  · exact roundFloat_mono_pos x y hx hxy
  · rw [← hx, roundFloat_zero]
    exact roundFloat_nonneg y (by rw [hx]; exact hxy)
  · rcases le_or_lt 0 y with hy | hy
    · have h1 : roundFloat x ≤ 0 := by
        have := roundFloat_nonneg (-x) (by linarith)
        rw [roundFloat_neg] at this
        linarith
      exact le_trans h1 (roundFloat_nonneg y hy)
    · have := roundFloat_mono_pos (-y) (-x) (by linarith) (by linarith)
      rw [roundFloat_neg, roundFloat_neg] at this
      linarith

/-- C4 as stated fails on three successful loads of mono or stereo 16-bit files.
(1) The data chunk of `truncatedFile` declares four payload bytes and holds two: `load`
returns success with two samples, and sample 1 repeats `32767/32768` from the bytes left
in the read buffer, where the payload has no byte at offset 2 (an empty read decodes
to 0).  (2) `stereoFile` loaded into the object that already holds `demoFile`: element 1
of channel 0 is the old `32767/32768`, where the payload bytes at offset 4 decode to
`-1`, and six values are stored, not `2 * 2`.  (3) `demoFile` loaded when the tag buffer
already holds `"data"`: success with no channel at all, so element 0 of channel 0 does
not exist. -/
theorem load_interleaving_fails :
    (load 2 Arr4.zero 0 none (some truncatedFile) = .returned true truncatedData ∧
      truncatedData.num_channels = 1 ∧ truncatedData.bits_per_sample = 16 ∧
      getNumSamples truncatedData = some 2 ∧
      getSample truncatedData.samples 0 1 = some (32767 / 32768) ∧
      decodeValue 16 ((([0xFF, 0x7F] : List Byte).drop ((1 * 1 + 0) * (16 / 8))).take (16 / 8))
        = some 0 ∧
      getSample truncatedData.samples 0 1
        ≠ decodeValue 16
            ((([0xFF, 0x7F] : List Byte).drop ((1 * 1 + 0) * (16 / 8))).take (16 / 8))) ∧
    (load 2 Arr4.zero 0 (some demoData) (some stereoFile) = .returned true reloadedData ∧
      reloadedData.num_channels = 2 ∧ reloadedData.bits_per_sample = 16 ∧
      getNumSamples reloadedData = some 2 ∧
      getSample reloadedData.samples 0 1 = some (32767 / 32768) ∧
      decodeValue 16 ((stereoPayload.drop ((1 * 2 + 0) * (16 / 8))).take (16 / 8))
        = some (-1) ∧
      getSample reloadedData.samples 0 1
        ≠ decodeValue 16 ((stereoPayload.drop ((1 * 2 + 0) * (16 / 8))).take (16 / 8)) ∧
      (reloadedData.samples.map List.length).sum = 6 ∧
      (reloadedData.samples.map List.length).sum ≠ 2 * 2) ∧
    (load 2 dataTag 4 none (some demoFile) = .returned true riffOnlyData ∧
      getSample riffOnlyData.samples 0 0 = none ∧
      decodeValue 16 ((([0x00, 0x00, 0xFF, 0x7F] : List Byte).drop ((0 * 1 + 0) * (16 / 8))).take
        (16 / 8)) = some 0 ∧
      (riffOnlyData.samples.map List.length).sum = 0) := by
  refine ⟨⟨by decide!, by decide, by decide, by decide, by decide!, by decide!, by decide!⟩,
    ⟨by decide!, by decide, by decide, by decide, by decide!, by decide!, by decide!,
      by decide, by decide⟩,
    ⟨by decide!, by decide, by decide!, by decide⟩⟩

/-- C20: evaluation at the failing input.  `chunk_id_buf` is not initialised; when it
holds `"data"` on entry (the bytes an earlier call of `load` left in the same stack
slot), the chunk loop is never entered: `load` of `demoFile` into a fresh object reads
the RIFF descriptor only and returns success with `num_channels = 0` and
`bits_per_sample = 0`, and the following `write` divides by zero in `getNumSamples`
after emitting the header. -/
theorem write_after_stale_load_divides_by_zero :
    tagIs dataTag dataTag = true ∧
    load 2 dataTag 4 none (some demoFile) = .returned true riffOnlyData ∧
    riffOnlyData.num_channels = 0 ∧ riffOnlyData.bits_per_sample = 0 ∧
    getNumSamples riffOnlyData = none ∧
    write true riffOnlyData = .divByZero (header riffOnlyData) ∧
    (∀ out, write true riffOnlyData ≠ .returned true out) := by
  refine ⟨by decide, by decide!, by decide, by decide, by decide, by decide!, fun out => ?_⟩
  rw [show write true riffOnlyData = .divByZero (header riffOnlyData) by decide!]
  intro e
  cases e

theorem decodeSampleT_id (bits : Nat) (buf : Arr4) (f : List Byte) :
    decodeSampleT id bits buf f = decodeSample bits buf f := rfl

theorem encodeSampleT_id (bits : Nat) (v : ℚ) :
    encodeSampleT id bits v = encodeSample bits v := rfl

theorem roundFloat_quot (n : Int) (D : ℚ) (k : Nat) (hD : D = (2 : ℚ) ^ (k : Int))
    (hk : k ≤ 126) (hn : |n| ≤ 2 ^ 24) :
    roundFloat (roundFloat (n : ℚ) / roundFloat D) = (n : ℚ) / D := by
  subst hD
  rw [roundFloat_two_zpow _ (by omega), roundFloat_intCast n hn]
  have h := roundFloat_fix_le n (-(k : Int)) hn (by omega)
  rw [zpow_neg, ← div_eq_mul_inv] at h
  exact h

theorem ilog2_nonneg_of_one_le (x : ℚ) (h : 1 ≤ |x|) : 0 ≤ ilog2 x := by
  have hx : x ≠ 0 := by
    intro h0
    rw [h0, abs_zero] at h
    norm_num at h
  obtain ⟨_, s2⟩ := ilog2_spec x hx
  have h1 : (2 : ℚ) ^ (0 : Int) < (2 : ℚ) ^ (ilog2 x + 1) := by
    rw [zpow_zero]
    exact lt_of_le_of_lt h s2
  have := two_zpow_lt_iff.1 h1
  omega

theorem roundFloat_int_div (n : Int) (D : ℚ) (k : Nat) (hD : D = (2 : ℚ) ^ (k : Int))
    (hk : k ≤ 126) :
    roundFloat (roundFloat (n : ℚ) / roundFloat D) = roundFloat (n : ℚ) / D := by
  subst hD
  rw [roundFloat_two_zpow _ (by omega)]
  by_cases h0 : n = 0
  · rw [h0, Int.cast_zero, roundFloat_zero, zero_div, roundFloat_zero]
  · have h1 : (1 : ℚ) ≤ |(n : ℚ)| := by
      have h2 : (1 : Int) ≤ |n| := Int.one_le_abs h0
      have h3 : ((1 : Int) : ℚ) ≤ ((|n| : Int) : ℚ) := by exact_mod_cast h2
      rwa [Int.cast_abs, Int.cast_one] at h3
    have hL := ilog2_nonneg_of_one_le _ h1
    have he := ulpExp_ge_log (n : ℚ)
    obtain ⟨m, hm, h⟩ := roundFloat_repr (n : ℚ)
    rw [h, div_eq_mul_inv, ← zpow_neg, mul_assoc, ← zpow_add₀ (by norm_num)]
    exact roundFloat_fix_le m _ hm (by omega)

theorem toSigned24_bounds (b0 b1 b2 : Byte) :
    -8388608 ≤ toSigned 32 (signExtend24 ((b2.val <<< 16) ||| (b1.val <<< 8) ||| b0.val)) ∧
    toSigned 32 (signExtend24 ((b2.val <<< 16) ||| (b1.val <<< 8) ||| b0.val)) ≤ 8388607 := by
  have h0 := b0.isLt
  have h1 := b1.isLt
  have h2 := b2.isLt
  have hu : b0.val + 256 * b1.val + 65536 * b2.val < 2 ^ 24 := by omega
  rw [shl16_or, signExtend24_eq _ hu]
  by_cases h : b0.val + 256 * b1.val + 65536 * b2.val < 2 ^ 23
  · rw [if_pos h, toSigned32_eq _ (by omega)]
    split_ifs <;> omega
  · rw [if_neg h, toSigned32_eq _ (by omega)]
    split_ifs <;> omega

theorem decodeSampleT_float (bits : Nat) (h32 : bits ≠ 32) (buf : Arr4) (f : List Byte) :
    decodeSampleT roundFloat bits buf f = decodeSample bits buf f := by
  unfold decodeSampleT decodeSample
  by_cases h8 : bits = 8
  · simp only [h8, if_true]
    have hb := (freadArr 1 buf f).1.b0.isLt
    rw [roundFloat_quot _ 128 7 (by norm_num) (by norm_num)
      (abs_le.2 ⟨by omega, by omega⟩)]
  · by_cases h16 : bits = 16
    · simp only [h16, if_true, if_neg (show ¬ (16 : Nat) = 8 by decide)]
      obtain ⟨a, b⟩ := toSigned16_bounds
        (((freadArr 2 buf f).1.b1.val <<< 8) ||| (freadArr 2 buf f).1.b0.val)
      rw [roundFloat_quot _ 32768 15 (by norm_num) (by norm_num)
        (abs_le.2 ⟨by omega, by omega⟩)]
    · by_cases h24 : bits = 24
      · simp only [h24, if_true, if_neg (show ¬ (24 : Nat) = 8 by decide),
          if_neg (show ¬ (24 : Nat) = 16 by decide)]
        obtain ⟨a, b⟩ := toSigned24_bounds (freadArr 3 buf f).1.b0 (freadArr 3 buf f).1.b1
          (freadArr 3 buf f).1.b2
        rw [roundFloat_quot _ 8388608 23 (by norm_num) (by norm_num)
          (abs_le.2 ⟨by omega, by omega⟩)]
      · simp only [if_neg h8, if_neg h16, if_neg h24, if_neg h32]

theorem decodeValueT_float (bits : Nat) (h32 : bits ≠ 32) (bs : List Byte) :
    decodeValueT roundFloat bits bs = decodeValue bits bs := by
  unfold decodeValueT decodeValue
  rw [decodeSampleT_float bits h32]

theorem decodeValueT_32 (fl : ℚ → ℚ) (b0 b1 b2 b3 : Byte) :
    decodeValueT fl 32 [b0, b1, b2, b3]
      = some (fl (fl ((toSigned 32 (ofLE [b0, b1, b2, b3]) : Int) : ℚ) / fl 2147483648)) := by
  have e : ofLE [b0, b1, b2, b3]
      = b0.val + 256 * b1.val + 65536 * b2.val + 16777216 * b3.val := by
    simp only [ofLE]
    ring
  rw [e]
  simp only [decodeValueT, decodeSampleT, freadArr_four, shl24_or]
  norm_num

theorem roundFloat_int32 (n : Int) (h1 : -2147483648 ≤ n) (h2 : n ≤ 2147483647) :
    -2147483648 ≤ roundFloat (n : ℚ) ∧ roundFloat (n : ℚ) ≤ 2147483648 ∧
    (roundFloat (n : ℚ) = 2147483648 ↔ 2147483584 ≤ n) ∧
    (roundFloat (n : ℚ) = -2147483648 ↔ n ≤ -2147483584) := by
  have a1 : roundFloat (-2147483648) = -2147483648 := by decide!
  have a2 : roundFloat 2147483647 = 2147483648 := by decide!
  have a3 : roundFloat 2147483584 = 2147483648 := by decide!
  have a4 : roundFloat 2147483583 = 2147483520 := by decide!
  have a5 : roundFloat (-2147483584) = -2147483648 := by decide!
  have a6 : roundFloat (-2147483583) = -2147483520 := by decide!
  have q1 : (-2147483648 : ℚ) ≤ (n : ℚ) := by exact_mod_cast h1
  have q2 : (n : ℚ) ≤ (2147483647 : ℚ) := by exact_mod_cast h2
  have lo := roundFloat_mono _ _ q1
  have hi := roundFloat_mono _ _ q2
  rw [a1] at lo
  rw [a2] at hi
  refine ⟨lo, hi, ⟨fun h => ?_, fun h => ?_⟩, ⟨fun h => ?_, fun h => ?_⟩⟩
  · by_contra hc
    have hn : n ≤ 2147483583 := by omega
    have q : (n : ℚ) ≤ (2147483583 : ℚ) := by exact_mod_cast hn
    have := roundFloat_mono _ _ q
    rw [a4, h] at this
    norm_num at this
  · have q : (2147483584 : ℚ) ≤ (n : ℚ) := by exact_mod_cast h
    have := roundFloat_mono _ _ q
    rw [a3] at this
    exact le_antisymm hi this
  · by_contra hc
    have hn : -2147483583 ≤ n := by omega
    have q : (-2147483583 : ℚ) ≤ (n : ℚ) := by exact_mod_cast hn
    have := roundFloat_mono _ _ q
    rw [a6, h] at this
    norm_num at this
  · have q : (n : ℚ) ≤ (-2147483584 : ℚ) := by exact_mod_cast h
    have := roundFloat_mono _ _ q
    rw [a5] at this
    exact le_antisymm this lo

/-- C16 as stated fails at depth 32 for the default `T = float`: the conversion of the
32-bit integer to `float` rounds to 24 significant bits, so `FF FF FF 7F` (`2^31 - 1`)
and `C0 FF FF 7F` (`2^31 - 64`) decode to exactly `1`, and `40 00 00 80` (`-2^31 + 64`),
which is not the most negative pattern, decodes to `-1`.  In exact arithmetic the first
pattern decodes to `(2^31 - 1) / 2^31`. -/
theorem decode32_reaches_one :
    decodeValueT roundFloat 32 [0xFF, 0xFF, 0xFF, 0x7F] = some 1 ∧
    (∃ v : ℚ, decodeValueT roundFloat 32 [0xFF, 0xFF, 0xFF, 0x7F] = some v ∧ ¬ v < 1) ∧
    decodeValueT roundFloat 32 [0xC0, 0xFF, 0xFF, 0x7F] = some 1 ∧
    decodeValueT roundFloat 32 [0x40, 0x00, 0x00, 0x80] = some (-1) ∧
    ([0x40, 0x00, 0x00, 0x80] : List Byte) ≠ minPattern 32 ∧
    decodeValue 32 [0xFF, 0xFF, 0xFF, 0x7F] = some (2147483647 / 2147483648) := by
  refine ⟨by decide!, ⟨1, by decide!, by norm_num⟩, by decide!, by decide!, by decide,
    by decide!⟩

/-- C16: at every supported bit depth every byte pattern of a sample decodes, in the
arithmetic of `float`, to a value `v` with `-1 ≤ v ≤ 1`.  At depths 8, 16 and 24 no
rounding occurs: `v` is the exact quotient, `v < 1`, `-1` is produced by the most
negative pattern only and the largest value `(2^(bits-1) - 1) / 2^(bits-1)` by the most
positive pattern only.  At depth 32 the sample `n` is rounded to 24 significant bits
before the division, `v = roundFloat n / 2^31`: `v = 1` exactly for the patterns with
`n ≥ 2^31 - 64` and `v = -1` exactly for those with `n ≤ -2^31 + 64`. -/
theorem decode_range (bits : Nat) (bs : List Byte) (hb : supportedBits bits = true)
    (hl : bs.length = bits / 8) :
    ∃ v : ℚ, decodeValueT roundFloat bits bs = some v ∧ -1 ≤ v ∧ v ≤ 1 ∧
      (bits ≠ 32 →
        decodeValue bits bs = some v ∧ v < 1 ∧
        v ≤ ((2 : ℚ) ^ (bits - 1) - 1) / (2 : ℚ) ^ (bits - 1) ∧
        (v = -1 ↔ bs = minPattern bits) ∧
        (v = ((2 : ℚ) ^ (bits - 1) - 1) / (2 : ℚ) ^ (bits - 1) ↔ bs = maxPattern bits)) ∧
      (bits = 32 →
        v = roundFloat ((toSigned 32 (ofLE bs) : Int) : ℚ) / 2147483648 ∧
        (v = 1 ↔ 2147483584 ≤ toSigned 32 (ofLE bs)) ∧
        (v = -1 ↔ toSigned 32 (ofLE bs) ≤ -2147483584)) := by
  by_cases h32 : bits = 32
  · subst h32
    match bs, hl with
    | [b0, b1, b2, b3], _ =>
      obtain ⟨k1, k2⟩ := toSigned32_bounds (ofLE [b0, b1, b2, b3])
      obtain ⟨r1, r2, r3, r4⟩ := roundFloat_int32 _ k1 k2
      have hv : decodeValueT roundFloat 32 [b0, b1, b2, b3]
          = some (roundFloat ((toSigned 32 (ofLE [b0, b1, b2, b3]) : Int) : ℚ) / 2147483648) := by
        rw [decodeValueT_32, roundFloat_int_div _ 2147483648 31 (by norm_num) (by norm_num)]
      refine ⟨_, hv, ?_, ?_, fun h => absurd rfl h, fun _ => ⟨rfl, ?_, ?_⟩⟩
      · rw [le_div_iff₀ (by norm_num)]
        linarith
      · rw [div_le_iff₀ (by norm_num)]
        linarith
      · rw [← r3, div_eq_iff (by norm_num)]
        norm_num
      · rw [← r4, div_eq_iff (by norm_num)]
        norm_num
  · obtain ⟨v, e, v1, v2, v3, v4, v5⟩ := decodeValue_range bits bs hb hl
    refine ⟨v, ?_, v1, v2.le, fun _ => ⟨e, v2, v3, v4, v5⟩, fun h => absurd h h32⟩
    rw [decodeValueT_float bits h32, e]

/-- Witness of C16: the most positive 32-bit pattern, which decodes to `1`. -/
theorem decode_range_witness :
    ∃ v : ℚ, decodeValueT roundFloat 32 [0xFF, 0xFF, 0xFF, 0x7F] = some v ∧ -1 ≤ v ∧ v ≤ 1 ∧
      (32 ≠ 32 →
        decodeValue 32 [0xFF, 0xFF, 0xFF, 0x7F] = some v ∧ v < 1 ∧
        v ≤ ((2 : ℚ) ^ (32 - 1) - 1) / (2 : ℚ) ^ (32 - 1) ∧
        (v = -1 ↔ [0xFF, 0xFF, 0xFF, 0x7F] = minPattern 32) ∧
        (v = ((2 : ℚ) ^ (32 - 1) - 1) / (2 : ℚ) ^ (32 - 1)
          ↔ [0xFF, 0xFF, 0xFF, 0x7F] = maxPattern 32)) ∧
      (32 = 32 →
        v = roundFloat ((toSigned 32 (ofLE [0xFF, 0xFF, 0xFF, 0x7F]) : Int) : ℚ) / 2147483648 ∧
        (v = 1 ↔ 2147483584 ≤ toSigned 32 (ofLE [0xFF, 0xFF, 0xFF, 0x7F])) ∧
        (v = -1 ↔ toSigned 32 (ofLE [0xFF, 0xFF, 0xFF, 0x7F]) ≤ -2147483584)) :=
  decode_range 32 [0xFF, 0xFF, 0xFF, 0x7F] (by decide) (by decide)

end Wave
